import Mathlib

/-!
# Verification of the quasar quantum-circuit simulator

A shallow embedding of `quasar.py` (class `Gate`, class `Circuit`, the
state-vector simulation engine and the gate-fusion compressor), together
with proofs of the specified properties.

State vectors of an `N`-qubit circuit are dense arrays of `2^N` amplitudes,
with qubit `0` the most significant bit of the basis-state index.  The
scalar type is kept abstract (`CommRing α`) exactly where the Python code
is generic over the dtype; measurement routines that take real/imaginary
parts are stated over an explicit complexification `Cx R`, and concrete
computations use `Q2 = ℚ[√2]`, an exact field containing `1/√2`.
-/

namespace Quasar

/-! ## Exact scalars: `ℚ[√2]` and a generic complexification -/

/-- The ring `ℚ[√2]`: `⟨a, b⟩` denotes `a + b·√2`.  Exact stand-in for the
floating-point reals of the Python code, rich enough to contain the
Hadamard amplitude `1/√2 = (1/2)·√2`. -/
@[ext]
structure Q2 where
  a : ℚ
  b : ℚ
deriving DecidableEq

namespace Q2

instance : Zero Q2 := ⟨⟨0, 0⟩⟩
instance : One Q2 := ⟨⟨1, 0⟩⟩
instance : Add Q2 := ⟨fun x y => ⟨x.a + y.a, x.b + y.b⟩⟩
instance : Mul Q2 := ⟨fun x y => ⟨x.a * y.a + 2 * x.b * y.b, x.a * y.b + x.b * y.a⟩⟩
instance : Neg Q2 := ⟨fun x => ⟨-x.a, -x.b⟩⟩

@[simp] theorem zero_a : (0 : Q2).a = 0 := rfl
@[simp] theorem zero_b : (0 : Q2).b = 0 := rfl
@[simp] theorem one_a : (1 : Q2).a = 1 := rfl
@[simp] theorem one_b : (1 : Q2).b = 0 := rfl
@[simp] theorem add_a (x y : Q2) : (x + y).a = x.a + y.a := rfl
@[simp] theorem add_b (x y : Q2) : (x + y).b = x.b + y.b := rfl
@[simp] theorem mul_a (x y : Q2) : (x * y).a = x.a * y.a + 2 * x.b * y.b := rfl
@[simp] theorem mul_b (x y : Q2) : (x * y).b = x.a * y.b + x.b * y.a := rfl
@[simp] theorem neg_a (x : Q2) : (-x).a = -x.a := rfl
@[simp] theorem neg_b (x : Q2) : (-x).b = -x.b := rfl

instance : CommRing Q2 where
  add_assoc x y z := by ext <;> simp <;> ring
  zero_add x := by ext <;> simp
  add_zero x := by ext <;> simp
  add_comm x y := by ext <;> simp <;> ring
  mul_assoc x y z := by ext <;> simp <;> ring
  one_mul x := by ext <;> simp
  mul_one x := by ext <;> simp
  left_distrib x y z := by ext <;> simp <;> ring
  right_distrib x y z := by ext <;> simp <;> ring
  mul_comm x y := by ext <;> simp <;> ring
  neg_add_cancel x := by ext <;> simp
  zero_mul x := by ext <;> simp
  mul_zero x := by ext <;> simp
  nsmul := nsmulRec
  zsmul := zsmulRec

/-- `√2` itself. -/
def sqrt2 : Q2 := ⟨0, 1⟩

/-- `1/√2 = √2/2`, the Hadamard amplitude. -/
def invSqrt2 : Q2 := ⟨0, 1/2⟩

theorem invSqrt2_mul_self : invSqrt2 * invSqrt2 = ⟨1/2, 0⟩ := by
  ext <;> simp [invSqrt2] <;> norm_num

end Q2

/-- Complexification of a commutative ring: `⟨re, im⟩` denotes `re + im·i`.
Models the `np.complex128` scalars of the Python code (exactly, over an
exact base ring). -/
@[ext]
structure Cx (R : Type) where
  re : R
  im : R

attribute [pp_nodot] Cx.re Cx.im

namespace Cx

variable {R : Type} [CommRing R]

instance [DecidableEq R] : DecidableEq (Cx R) := fun x y =>
  decidable_of_iff (x.re = y.re ∧ x.im = y.im)
    ⟨fun h => by cases x; cases y; simp_all, fun h => by cases h; exact ⟨rfl, rfl⟩⟩

instance : Zero (Cx R) := ⟨⟨0, 0⟩⟩
instance : One (Cx R) := ⟨⟨1, 0⟩⟩
instance : Add (Cx R) := ⟨fun x y => ⟨x.re + y.re, x.im + y.im⟩⟩
instance : Mul (Cx R) := ⟨fun x y => ⟨x.re * y.re - x.im * y.im, x.re * y.im + x.im * y.re⟩⟩
instance : Neg (Cx R) := ⟨fun x => ⟨-x.re, -x.im⟩⟩

@[simp] theorem zero_re : (0 : Cx R).re = 0 := rfl
@[simp] theorem zero_im : (0 : Cx R).im = 0 := rfl
@[simp] theorem one_re : (1 : Cx R).re = 1 := rfl
@[simp] theorem one_im : (1 : Cx R).im = 0 := rfl
@[simp] theorem add_re (x y : Cx R) : (x + y).re = x.re + y.re := rfl
@[simp] theorem add_im (x y : Cx R) : (x + y).im = x.im + y.im := rfl
@[simp] theorem mul_re (x y : Cx R) : (x * y).re = x.re * y.re - x.im * y.im := rfl
@[simp] theorem mul_im (x y : Cx R) : (x * y).im = x.re * y.im + x.im * y.re := rfl
@[simp] theorem neg_re (x : Cx R) : (-x).re = -x.re := rfl
@[simp] theorem neg_im (x : Cx R) : (-x).im = -x.im := rfl

instance : CommRing (Cx R) where
  add_assoc x y z := by ext <;> simp <;> ring
  zero_add x := by ext <;> simp
  add_zero x := by ext <;> simp
  add_comm x y := by ext <;> simp <;> ring
  mul_assoc x y z := by ext <;> simp <;> ring
  one_mul x := by ext <;> simp
  mul_one x := by ext <;> simp
  left_distrib x y z := by ext <;> simp <;> ring
  right_distrib x y z := by ext <;> simp <;> ring
  mul_comm x y := by ext <;> simp <;> ring
  neg_add_cancel x := by ext <;> simp
  zero_mul x := by ext <;> simp
  mul_zero x := by ext <;> simp
  nsmul := nsmulRec
  zsmul := zsmulRec

/-- Complex conjugation (`np.conj`). -/
def conj (x : Cx R) : Cx R := ⟨x.re, -x.im⟩

@[simp] theorem conj_re (x : Cx R) : (conj x).re = x.re := rfl
@[simp] theorem conj_im (x : Cx R) : (conj x).im = -x.im := rfl

/-- Embed a real scalar (`re` only). -/
def ofRe (r : R) : Cx R := ⟨r, 0⟩

@[simp] theorem conj_zero : conj (0 : Cx R) = 0 := by ext <;> simp [conj]
@[simp] theorem conj_ofRe (r : R) : conj (ofRe r) = ofRe r := by ext <;> simp [conj, ofRe]

theorem conj_mul (x y : Cx R) : conj (x * y) = conj x * conj y := by
  ext <;> simp [conj] <;> ring

@[simp] theorem sub_re (x y : Cx R) : (x - y).re = x.re - y.re := by
  show x.re + -y.re = x.re - y.re
  ring

@[simp] theorem sub_im (x y : Cx R) : (x - y).im = x.im - y.im := by
  show x.im + -y.im = x.im - y.im
  ring

theorem ofRe_mul (a b : R) : ofRe a * ofRe b = ofRe (a * b) := by
  ext <;> simp [ofRe]

theorem ofRe_add (a b : R) : ofRe a + ofRe b = ofRe (a + b) := by
  ext <;> simp [ofRe]

end Cx

/-! ## Bit decomposition of flat state-vector indices

The simulator reshapes a flat array of `2^n` amplitudes into tensors whose
axes are qubits, with qubit `0` the most significant bit of the flat index:
`idx = Σ_A b(A) · 2^(n-1-A)`.  This section relates the `div`/`mod`
arithmetic of those reshapes to the bit assignment function. -/

/-- Bit `A` (0 = most significant) of the assignment `b`, as a natural
number; out-of-range positions read `0`. -/
def bitv {n : ℕ} (b : Fin n → Fin 2) (A : ℕ) : ℕ :=
  if h : A < n then (b ⟨A, h⟩).val else 0

theorem bitv_lt {n : ℕ} (b : Fin n → Fin 2) (A : ℕ) : bitv b A < 2 := by
  unfold bitv; split
  · exact (b _).isLt
  · omega

/-- Flat index of the basis state with bit assignment `b`
(qubit 0 most significant). -/
def ofBits {n : ℕ} (b : Fin n → Fin 2) : ℕ :=
  ∑ A ∈ Finset.range n, bitv b A * 2 ^ (n - 1 - A)

/-- High part: the number formed by bits `0..s-1`. -/
def hiBits {n : ℕ} (b : Fin n → Fin 2) (s : ℕ) : ℕ :=
  ∑ A ∈ Finset.range s, bitv b A * 2 ^ (s - 1 - A)

/-- Low part: the number formed by bits `s..n-1`. -/
def loBits {n : ℕ} (b : Fin n → Fin 2) (s : ℕ) : ℕ :=
  ∑ A ∈ Finset.Ico s n, bitv b A * 2 ^ (n - 1 - A)

/-- Middle part: bits strictly between `A` and `B`, scaled for position `B`. -/
def midBits {n : ℕ} (b : Fin n → Fin 2) (A B : ℕ) : ℕ :=
  ∑ C ∈ Finset.Ico (A + 1) B, bitv b C * 2 ^ (B - 1 - C)

theorem two_pow_sum (m : ℕ) : ∑ k ∈ Finset.range m, 2 ^ k = 2 ^ m - 1 := by
  induction m with
  | zero => simp
  | succ m ih =>
    rw [Finset.sum_range_succ, ih]
    have : 0 < 2 ^ m := Nat.pos_pow_of_pos m (by omega)
    rw [pow_succ]; omega

theorem geoIco {n s : ℕ} (h : s ≤ n) :
    ∑ A ∈ Finset.Ico s n, 2 ^ (n - 1 - A) = 2 ^ (n - s) - 1 := by
  rw [Finset.sum_Ico_eq_sum_range]
  have : ∀ i ∈ Finset.range (n - s), 2 ^ (n - 1 - (s + i)) = 2 ^ (n - s - 1 - i) := by
    intro i hi; congr 1; omega
  rw [Finset.sum_congr rfl this]
  calc ∑ i ∈ Finset.range (n - s), 2 ^ (n - s - 1 - i)
      = ∑ i ∈ Finset.range (n - s), 2 ^ i := Finset.sum_range_reflect (fun i => 2 ^ i) (n - s)
    _ = 2 ^ (n - s) - 1 := two_pow_sum _

theorem loBits_lt {n : ℕ} (b : Fin n → Fin 2) {s : ℕ} (h : s ≤ n) :
    loBits b s < 2 ^ (n - s) := by
  have hle : loBits b s ≤ ∑ A ∈ Finset.Ico s n, 2 ^ (n - 1 - A) := by
    apply Finset.sum_le_sum
    intro A _
    have := bitv_lt b A
    calc bitv b A * 2 ^ (n - 1 - A) ≤ 1 * 2 ^ (n - 1 - A) := by
          exact Nat.mul_le_mul_right _ (by omega)
      _ = 2 ^ (n - 1 - A) := one_mul _
  have hpos : 0 < 2 ^ (n - s) := Nat.pos_pow_of_pos _ (by omega)
  have := geoIco (n := n) (s := s) h
  omega

theorem midBits_lt {n : ℕ} (b : Fin n → Fin 2) {A B : ℕ} (h : A < B) :
    midBits b A B < 2 ^ (B - A - 1) := by
  have hle : midBits b A B ≤ ∑ C ∈ Finset.Ico (A + 1) B, 2 ^ (B - 1 - C) := by
    apply Finset.sum_le_sum
    intro C _
    have := bitv_lt b C
    calc bitv b C * 2 ^ (B - 1 - C) ≤ 1 * 2 ^ (B - 1 - C) := by
          exact Nat.mul_le_mul_right _ (by omega)
      _ = 2 ^ (B - 1 - C) := one_mul _
  have hpos : 0 < 2 ^ (B - A - 1) := Nat.pos_pow_of_pos _ (by omega)
  have hg := geoIco (n := B) (s := A + 1) h
  rw [show B - (A + 1) = B - A - 1 from by omega] at hg
  omega

/-- The basic split: flat index = high part shifted, plus low part. -/
theorem ofBits_split {n : ℕ} (b : Fin n → Fin 2) {s : ℕ} (h : s ≤ n) :
    ofBits b = 2 ^ (n - s) * hiBits b s + loBits b s := by
  unfold ofBits loBits
  rw [Finset.range_eq_Ico, ← Finset.sum_Ico_consecutive _ (Nat.zero_le s) h,
    ← Finset.range_eq_Ico]
  congr 1
  unfold hiBits
  rw [Finset.mul_sum]
  apply Finset.sum_congr rfl
  intro A hA
  simp only [Finset.mem_range] at hA
  have : 2 ^ (n - 1 - A) = 2 ^ (n - s) * 2 ^ (s - 1 - A) := by
    rw [← pow_add]; congr 1; omega
  rw [this]; ring

theorem ofBits_lt {n : ℕ} (b : Fin n → Fin 2) : ofBits b < 2 ^ n := by
  have h := ofBits_split b (s := 0) (Nat.zero_le n)
  have h2 := loBits_lt b (s := 0) (Nat.zero_le n)
  simp only [hiBits, Finset.range_zero, Finset.sum_empty, Nat.mul_zero, Nat.zero_add,
    Nat.sub_zero] at h h2
  omega

theorem ofBits_div {n : ℕ} (b : Fin n → Fin 2) {s : ℕ} (h : s ≤ n) :
    ofBits b / 2 ^ (n - s) = hiBits b s := by
  rw [ofBits_split b h, Nat.mul_add_div (Nat.pos_pow_of_pos _ (by omega)),
    Nat.div_eq_of_lt (loBits_lt b h)]
  omega

theorem ofBits_mod {n : ℕ} (b : Fin n → Fin 2) {s : ℕ} (h : s ≤ n) :
    ofBits b % 2 ^ (n - s) = loBits b s := by
  rw [ofBits_split b h, Nat.mul_add_mod, Nat.mod_eq_of_lt (loBits_lt b h)]

theorem hiBits_succ {n : ℕ} (b : Fin n → Fin 2) (s : ℕ) :
    hiBits b (s + 1) = 2 * hiBits b s + bitv b s := by
  unfold hiBits
  rw [Finset.sum_range_succ]
  have h1 : bitv b s * 2 ^ (s + 1 - 1 - s) = bitv b s := by
    have : s + 1 - 1 - s = 0 := by omega
    rw [this, pow_zero, Nat.mul_one]
  rw [h1]
  congr 1
  rw [Finset.mul_sum]
  apply Finset.sum_congr rfl
  intro A hA
  simp only [Finset.mem_range] at hA
  have : 2 ^ (s + 1 - 1 - A) = 2 * 2 ^ (s - 1 - A) := by
    rw [← pow_succ']; congr 1; omega
  rw [this]; ring

/-- Digit extraction: position `A`'s bit is `idx / 2^(n-A-1) % 2`. -/
theorem ofBits_digit {n : ℕ} (b : Fin n → Fin 2) {A : ℕ} (h : A < n) :
    ofBits b / 2 ^ (n - A - 1) % 2 = bitv b A := by
  have e : n - A - 1 = n - (A + 1) := by omega
  rw [e, ofBits_div b (by omega), hiBits_succ]
  rw [Nat.mul_comm, Nat.add_comm, Nat.add_mul_mod_self_right]
  exact Nat.mod_eq_of_lt (bitv_lt b A)

theorem bitv_update_self {n : ℕ} (b : Fin n → Fin 2) {A : ℕ} (h : A < n) (j : Fin 2) :
    bitv (Function.update b ⟨A, h⟩ j) A = j.val := by
  unfold bitv
  rw [dif_pos h, Function.update_same]

theorem bitv_update_ne {n : ℕ} (b : Fin n → Fin 2) {A : ℕ} (h : A < n) (j : Fin 2)
    {C : ℕ} (hne : C ≠ A) : bitv (Function.update b ⟨A, h⟩ j) C = bitv b C := by
  unfold bitv
  split
  · rw [Function.update_noteq]
    intro he
    exact hne (congrArg Fin.val he)
  · rfl

theorem hiBits_update {n : ℕ} (b : Fin n → Fin 2) {A : ℕ} (h : A < n) (j : Fin 2)
    {s : ℕ} (hs : s ≤ A) : hiBits (Function.update b ⟨A, h⟩ j) s = hiBits b s := by
  unfold hiBits
  apply Finset.sum_congr rfl
  intro C hC
  simp only [Finset.mem_range] at hC
  rw [bitv_update_ne b h j (by omega)]

theorem loBits_update {n : ℕ} (b : Fin n → Fin 2) {A : ℕ} (h : A < n) (j : Fin 2)
    {s : ℕ} (hs : A < s) : loBits (Function.update b ⟨A, h⟩ j) s = loBits b s := by
  unfold loBits
  apply Finset.sum_congr rfl
  intro C hC
  simp only [Finset.mem_Ico] at hC
  rw [bitv_update_ne b h j (by omega)]

theorem midBits_update {n : ℕ} (b : Fin n → Fin 2) {D : ℕ} (h : D < n) (j : Fin 2)
    {A B : ℕ} (hD : D ≤ A ∨ B ≤ D) : midBits (Function.update b ⟨D, h⟩ j) A B = midBits b A B := by
  unfold midBits
  apply Finset.sum_congr rfl
  intro C hC
  simp only [Finset.mem_Ico] at hC
  rw [bitv_update_ne b h j (by omega)]

/-- Writing digit `j` at position `A` of a flat index, in the arithmetic form
used by `apply_gate_1`'s reshape, equals updating the bit assignment. -/
theorem ofBits_recompose1 {n : ℕ} (b : Fin n → Fin 2) {A : ℕ} (h : A < n) (j : Fin 2) :
    ofBits b / 2 ^ (n - A) * 2 ^ (n - A) + j.val * 2 ^ (n - A - 1)
      + ofBits b % 2 ^ (n - A - 1)
    = ofBits (Function.update b ⟨A, h⟩ j) := by
  have hm : ofBits b % 2 ^ (n - A - 1) = loBits b (A + 1) := by
    rw [show n - A - 1 = n - (A + 1) from by omega]
    exact ofBits_mod b (by omega)
  rw [ofBits_div b (by omega : A ≤ n), hm]
  rw [ofBits_split (Function.update b ⟨A, h⟩ j) (by omega : A ≤ n)]
  rw [hiBits_update b h j (le_refl A)]
  have hsplit : loBits (Function.update b ⟨A, h⟩ j) A
      = j.val * 2 ^ (n - 1 - A) + loBits (Function.update b ⟨A, h⟩ j) (A + 1) := by
    unfold loBits
    rw [Finset.sum_eq_sum_Ico_succ_bot h]
    rw [bitv_update_self b h j]
  rw [hsplit, loBits_update b h j (by omega)]
  have : n - 1 - A = n - A - 1 := by omega
  rw [this]
  ring

/-- Five-way split of a flat index around two positions `A < B`. -/
theorem ofBits_split5 {n : ℕ} (b : Fin n → Fin 2) {A B : ℕ} (hAB : A < B) (hB : B < n) :
    ofBits b = 2 ^ (n - A) * hiBits b A + bitv b A * 2 ^ (n - A - 1)
      + midBits b A B * 2 ^ (n - B) + bitv b B * 2 ^ (n - B - 1) + loBits b (B + 1) := by
  rw [ofBits_split b (by omega : A ≤ n)]
  have h1 : loBits b A = bitv b A * 2 ^ (n - 1 - A) + loBits b (A + 1) := by
    unfold loBits
    rw [Finset.sum_eq_sum_Ico_succ_bot (by omega : A < n)]
  have h2 : loBits b (A + 1)
      = midBits b A B * 2 ^ (n - B) + loBits b B := by
    unfold loBits midBits
    rw [← Finset.sum_Ico_consecutive _ (by omega : A + 1 ≤ B) (by omega : B ≤ n)]
    congr 1
    rw [Finset.sum_mul]
    apply Finset.sum_congr rfl
    intro C hC
    simp only [Finset.mem_Ico] at hC
    have : 2 ^ (n - 1 - C) = 2 ^ (B - 1 - C) * 2 ^ (n - B) := by
      rw [← pow_add]; congr 1; omega
    rw [this]; ring
  have h3 : loBits b B = bitv b B * 2 ^ (n - 1 - B) + loBits b (B + 1) := by
    unfold loBits
    rw [Finset.sum_eq_sum_Ico_succ_bot (by omega : B < n)]
  rw [h1, h2, h3]
  have e1 : n - 1 - A = n - A - 1 := by omega
  have e2 : n - 1 - B = n - B - 1 := by omega
  rw [e1, e2]
  ring

/-- The middle block of the 5-leg reshape of `apply_gate_2`. -/
theorem ofBits_mid {n : ℕ} (b : Fin n → Fin 2) {A B : ℕ} (hAB : A < B) (hB : B ≤ n) :
    ofBits b / 2 ^ (n - B) % 2 ^ (B - A - 1) = midBits b A B := by
  rw [ofBits_div b hB]
  have hsplit : hiBits b B
      = 2 ^ (B - A - 1) * (∑ C ∈ Finset.range (A + 1), bitv b C * 2 ^ (A - C))
        + midBits b A B := by
    unfold hiBits midBits
    rw [Finset.range_eq_Ico, ← Finset.sum_Ico_consecutive _ (Nat.zero_le (A + 1))
      (by omega : A + 1 ≤ B), ← Finset.range_eq_Ico]
    congr 1
    rw [Finset.mul_sum]
    apply Finset.sum_congr rfl
    intro C hC
    simp only [Finset.mem_range] at hC
    have : 2 ^ (B - 1 - C) = 2 ^ (B - A - 1) * 2 ^ (A - C) := by
      rw [← pow_add]; congr 1; omega
    rw [this]; ring
  rw [hsplit, Nat.mul_add_mod, Nat.mod_eq_of_lt (midBits_lt b hAB)]

/-- Writing digits `k, l` at positions `A < B`, in the arithmetic form used by
`apply_gate_2`'s 5-leg reshape, equals updating both bits. -/
theorem ofBits_recompose2 {n : ℕ} (b : Fin n → Fin 2) {A B : ℕ}
    (hA : A < n) (hAB : A < B) (hB : B < n) (k l : Fin 2) :
    ofBits b / 2 ^ (n - A) * 2 ^ (n - A) + k.val * 2 ^ (n - A - 1)
      + ofBits b / 2 ^ (n - B) % 2 ^ (B - A - 1) * 2 ^ (n - B)
      + l.val * 2 ^ (n - B - 1) + ofBits b % 2 ^ (n - B - 1)
    = ofBits (Function.update (Function.update b ⟨A, hA⟩ k) ⟨B, hB⟩ l) := by
  have hm : ofBits b % 2 ^ (n - B - 1) = loBits b (B + 1) := by
    rw [show n - B - 1 = n - (B + 1) from by omega]
    exact ofBits_mod b (by omega)
  rw [ofBits_div b (by omega : A ≤ n), ofBits_mid b hAB (by omega : B ≤ n), hm]
  set b2 := Function.update (Function.update b ⟨A, hA⟩ k) ⟨B, hB⟩ l with hb2
  rw [ofBits_split5 b2 hAB hB]
  have e1 : hiBits b2 A = hiBits b A := by
    rw [hb2, hiBits_update _ hB l (by omega), hiBits_update b hA k (le_refl A)]
  have e2 : bitv b2 A = k.val := by
    rw [hb2, bitv_update_ne _ hB l (by omega), bitv_update_self b hA k]
  have e3 : midBits b2 A B = midBits b A B := by
    rw [hb2, midBits_update _ hB l (Or.inr (le_refl B)),
      midBits_update _ hA k (Or.inl (le_refl A))]
  have e4 : bitv b2 B = l.val := by
    rw [hb2, bitv_update_self _ hB l]
  have e5 : loBits b2 (B + 1) = loBits b (B + 1) := by
    rw [hb2, loBits_update _ hB l (by omega), loBits_update b hA k (by omega)]
  rw [e1, e2, e3, e4, e5]
  ring

/-- The flat basis index of a bit assignment, as an element of `Fin (2^n)`. -/
def binFun {n : ℕ} (b : Fin n → Fin 2) : Fin (2 ^ n) := ⟨ofBits b, ofBits_lt b⟩

theorem binFun_injective {n : ℕ} : Function.Injective (binFun (n := n)) := by
  intro b1 b2 h
  have hv : ofBits b1 = ofBits b2 := congrArg Fin.val h
  funext A
  have h1 := ofBits_digit b1 A.isLt
  have h2 := ofBits_digit b2 A.isLt
  rw [hv] at h1
  have : bitv b1 A.val = bitv b2 A.val := h1.symm.trans h2
  unfold bitv at this
  rw [dif_pos A.isLt, dif_pos A.isLt] at this
  exact Fin.ext this

theorem binFun_bijective {n : ℕ} : Function.Bijective (binFun (n := n)) := by
  rw [Fintype.bijective_iff_injective_and_card]
  refine ⟨binFun_injective, ?_⟩
  simp [Fintype.card_fun]

theorem binFun_surjective {n : ℕ} : Function.Surjective (binFun (n := n)) :=
  binFun_bijective.2

/-! ## State vectors and gate application -/

/-- A dense state vector of `m` complex amplitudes (`np.ndarray` of shape `(m,)`). -/
abbrev Vec (α : Type) (m : ℕ) : Type := Fin m → α

variable {α : Type} [CommRing α]

theorem recompose1_lt {n A : ℕ} (hA : A < n) {x j : ℕ} (hx : x < 2 ^ n) (hj : j < 2) :
    x / 2 ^ (n - A) * 2 ^ (n - A) + j * 2 ^ (n - A - 1) + x % 2 ^ (n - A - 1) < 2 ^ n := by
  have e1 : 2 ^ n = 2 ^ (n - A) * 2 ^ A := by rw [← pow_add]; congr 1; omega
  have e2 : 2 ^ (n - A) = 2 * 2 ^ (n - A - 1) := by rw [← pow_succ']; congr 1; omega
  have hq : x / 2 ^ (n - A) < 2 ^ A := Nat.div_lt_of_lt_mul (e1 ▸ hx)
  have hr : x % 2 ^ (n - A - 1) < 2 ^ (n - A - 1) :=
    Nat.mod_lt _ (Nat.pos_pow_of_pos _ (by omega))
  have h3 : j * 2 ^ (n - A - 1) ≤ 1 * 2 ^ (n - A - 1) :=
    Nat.mul_le_mul_right _ (by omega)
  have h4 : x / 2 ^ (n - A) * 2 ^ (n - A) + 2 ^ (n - A) ≤ 2 ^ A * 2 ^ (n - A) := by
    calc x / 2 ^ (n - A) * 2 ^ (n - A) + 2 ^ (n - A)
        = (x / 2 ^ (n - A) + 1) * 2 ^ (n - A) := by ring
      _ ≤ 2 ^ A * 2 ^ (n - A) := Nat.mul_le_mul_right _ (by omega)
  have e1' : 2 ^ A * 2 ^ (n - A) = 2 ^ n := by rw [← pow_add]; congr 1; omega
  omega

theorem recompose2_lt {n A B : ℕ} (hAB : A < B) (hB : B < n) {x k l : ℕ}
    (hx : x < 2 ^ n) (hk : k < 2) (hl : l < 2) :
    x / 2 ^ (n - A) * 2 ^ (n - A) + k * 2 ^ (n - A - 1)
      + x / 2 ^ (n - B) % 2 ^ (B - A - 1) * 2 ^ (n - B)
      + l * 2 ^ (n - B - 1) + x % 2 ^ (n - B - 1) < 2 ^ n := by
  have e1 : 2 ^ n = 2 ^ (n - A) * 2 ^ A := by rw [← pow_add]; congr 1; omega
  have e2 : 2 ^ (n - A) = 2 * 2 ^ (n - A - 1) := by rw [← pow_succ']; congr 1; omega
  have e3 : 2 ^ (n - A - 1) = 2 ^ (B - A - 1) * 2 ^ (n - B) := by
    rw [← pow_add]; congr 1; omega
  have e4 : 2 ^ (n - B) = 2 * 2 ^ (n - B - 1) := by rw [← pow_succ']; congr 1; omega
  have hq : x / 2 ^ (n - A) < 2 ^ A := Nat.div_lt_of_lt_mul (e1 ▸ hx)
  have hm : x / 2 ^ (n - B) % 2 ^ (B - A - 1) < 2 ^ (B - A - 1) :=
    Nat.mod_lt _ (Nat.pos_pow_of_pos _ (by omega))
  have hr : x % 2 ^ (n - B - 1) < 2 ^ (n - B - 1) :=
    Nat.mod_lt _ (Nat.pos_pow_of_pos _ (by omega))
  have s1 : l * 2 ^ (n - B - 1) ≤ 1 * 2 ^ (n - B - 1) :=
    Nat.mul_le_mul_right _ (by omega)
  have s2 : x / 2 ^ (n - B) % 2 ^ (B - A - 1) * 2 ^ (n - B) + 2 ^ (n - B)
      ≤ 2 ^ (B - A - 1) * 2 ^ (n - B) := by
    calc x / 2 ^ (n - B) % 2 ^ (B - A - 1) * 2 ^ (n - B) + 2 ^ (n - B)
        = (x / 2 ^ (n - B) % 2 ^ (B - A - 1) + 1) * 2 ^ (n - B) := by ring
      _ ≤ 2 ^ (B - A - 1) * 2 ^ (n - B) := Nat.mul_le_mul_right _ (by omega)
  rw [← e3] at s2
  have s3 : k * 2 ^ (n - A - 1) ≤ 1 * 2 ^ (n - A - 1) :=
    Nat.mul_le_mul_right _ (by omega)
  have s4 : x / 2 ^ (n - A) * 2 ^ (n - A) + 2 ^ (n - A) ≤ 2 ^ A * 2 ^ (n - A) := by
    calc x / 2 ^ (n - A) * 2 ^ (n - A) + 2 ^ (n - A)
        = (x / 2 ^ (n - A) + 1) * 2 ^ (n - A) := by ring
      _ ≤ 2 ^ A * 2 ^ (n - A) := Nat.mul_le_mul_right _ (by omega)
  have e1' : 2 ^ A * 2 ^ (n - A) = 2 ^ n := by rw [← pow_add]; congr 1; omega
  omega

/-- Positive branch of `apply_gate_1`: the flat array is viewed with shape
`(2^A, 2, 2^(n-A-1))` and the active axis is contracted against `U`:
`wfn2_LiR = Σ_j U_ij wfn1_LjR`. -/
def applyGate1Core {n : ℕ} (U : Matrix (Fin 2) (Fin 2) α) (A : ℕ) (hA : A < n)
    (w : Vec α (2 ^ n)) : Vec α (2 ^ n) :=
  fun x => ∑ j : Fin 2,
    U ⟨x.val / 2 ^ (n - A - 1) % 2, Nat.mod_lt _ (by omega)⟩ j
      * w ⟨x.val / 2 ^ (n - A) * 2 ^ (n - A) + j.val * 2 ^ (n - A - 1)
            + x.val % 2 ^ (n - A - 1), recompose1_lt hA x.isLt j.isLt⟩

/-- `Circuit.apply_gate_1` (quasar.py).  Applies the 1-body unitary `U` at
qubit `A` of an `n`-qubit state; fails if `A` is out of range.  (The Python
shape checks on `U`, `wfn1`, `wfn2` are carried by the types.) -/
def applyGate1 {n : ℕ} (U : Matrix (Fin 2) (Fin 2) α) (A : ℕ) (w : Vec α (2 ^ n)) :
    Except String (Vec α (2 ^ n)) :=
  if hA : A < n then .ok (applyGate1Core U A hA w) else .error "A >= N"

/-- Row-major packing of two binary indices into a `Fin 4`; this is the
correspondence between a `(4,4)` gate matrix and its `(2,2,2,2)` reshape:
`U2[i][j][k][l] = U[2i+j][2k+l]`. -/
def pairFin (i j : Fin 2) : Fin 4 := ⟨i.val * 2 + j.val, by omega⟩

/-- Transposition of a packed index pair: `2i+j ↦ 2j+i`. -/
def pairSwap (p : Fin 4) : Fin 4 := ⟨p.val % 2 * 2 + p.val / 2, by omega⟩

/-- The `einsum('ijkl->jilk')` leg permutation applied to a `(4,4)` gate
matrix: both the two input legs and the two output legs are swapped
pairwise.  Used by `apply_gate_2` when the qubit arguments arrive in
descending order, and by the compressor when fusing 2-body gates whose
qubit pairs are presented in opposite orders. -/
def legSwap (U : Matrix (Fin 4) (Fin 4) α) : Matrix (Fin 4) (Fin 4) α :=
  Matrix.of fun p q => U (pairSwap p) (pairSwap q)

@[simp] theorem pairSwap_pairFin (i j : Fin 2) : pairSwap (pairFin i j) = pairFin j i := by
  unfold pairSwap pairFin
  apply Fin.ext
  have hi := i.isLt
  have hj := j.isLt
  simp only
  omega

@[simp] theorem legSwap_pairFin (U : Matrix (Fin 4) (Fin 4) α) (i j k l : Fin 2) :
    legSwap U (pairFin i j) (pairFin k l) = U (pairFin j i) (pairFin l k) := by
  unfold legSwap
  rw [Matrix.of_apply, pairSwap_pairFin, pairSwap_pairFin]

/-- Positive branch of `apply_gate_2` for ascending qubit indices `A < B`:
the flat array is viewed with shape `(2^A, 2, 2^(B-A-1), 2, 2^(n-B-1))` and
the two active axes are contracted against the `(2,2,2,2)` reshape of `U`:
`wfn2_LiMjR = Σ_kl U_ijkl wfn1_LkMlR`. -/
def applyGate2Core {n : ℕ} (U : Matrix (Fin 4) (Fin 4) α) (A B : ℕ)
    (hAB : A < B) (hB : B < n) (w : Vec α (2 ^ n)) : Vec α (2 ^ n) :=
  fun x => ∑ k : Fin 2, ∑ l : Fin 2,
    U (pairFin ⟨x.val / 2 ^ (n - A - 1) % 2, Nat.mod_lt _ (by omega)⟩
         ⟨x.val / 2 ^ (n - B - 1) % 2, Nat.mod_lt _ (by omega)⟩)
      (pairFin k l)
      * w ⟨x.val / 2 ^ (n - A) * 2 ^ (n - A) + k.val * 2 ^ (n - A - 1)
            + x.val / 2 ^ (n - B) % 2 ^ (B - A - 1) * 2 ^ (n - B)
            + l.val * 2 ^ (n - B - 1) + x.val % 2 ^ (n - B - 1),
          recompose2_lt hAB hB x.isLt k.isLt l.isLt⟩

/-- `Circuit.apply_gate_2` (quasar.py).  Applies the 2-body unitary `U` at
qubits `A`, `B` of an `n`-qubit state.  If `A > B` the legs of `U` are
permuted (`ijkl->jilk`) and the gate is applied at `(B, A)`.  Fails when a
qubit index is out of range or `A == B`; the Python shape checks on `U`
and the two buffers are carried by the types. -/
def applyGate2 {n : ℕ} (U : Matrix (Fin 4) (Fin 4) α) (A B : ℕ) (w : Vec α (2 ^ n)) :
    Except String (Vec α (2 ^ n)) :=
  if hA : n ≤ A then .error "A >= N"
  else if hBn : n ≤ B then .error "B >= N"
  else if hEq : A = B then .error "A == B"
  else if hGt : B < A then .ok (applyGate2Core (legSwap U) B A (by omega) (by omega) w)
  else .ok (applyGate2Core U A B (by omega) (by omega) w)

/-! ### Bit-world characterization of gate application -/

/-- View a flat state vector as a function on bit assignments. -/
def trv {n : ℕ} (w : Vec α (2 ^ n)) : (Fin n → Fin 2) → α := fun b => w (binFun b)

theorem trv_injective {n : ℕ} : Function.Injective (trv (α := α) (n := n)) := by
  intro w1 w2 h
  funext x
  obtain ⟨b, rfl⟩ := binFun_surjective x
  exact congrFun h b

/-- 1-body gate application on bit-assignment functions. -/
def bApply1 {n : ℕ} (U : Matrix (Fin 2) (Fin 2) α) (A : Fin n)
    (f : (Fin n → Fin 2) → α) : (Fin n → Fin 2) → α :=
  fun b => ∑ j : Fin 2, U (b A) j * f (Function.update b A j)

/-- 2-body gate application on bit-assignment functions. -/
def bApply2 {n : ℕ} (U : Matrix (Fin 4) (Fin 4) α) (A B : Fin n)
    (f : (Fin n → Fin 2) → α) : (Fin n → Fin 2) → α :=
  fun b => ∑ k : Fin 2, ∑ l : Fin 2,
    U (pairFin (b A) (b B)) (pairFin k l)
      * f (Function.update (Function.update b A k) B l)

theorem applyGate1Core_trv {n : ℕ} (U : Matrix (Fin 2) (Fin 2) α) {A : ℕ} (hA : A < n)
    (w : Vec α (2 ^ n)) :
    trv (applyGate1Core U A hA w) = bApply1 U ⟨A, hA⟩ (trv w) := by
  funext b
  unfold trv applyGate1Core bApply1 binFun
  apply Finset.sum_congr rfl
  intro j _
  congr 1
  · congr 1
    apply Fin.ext
    show ofBits b / 2 ^ (n - A - 1) % 2 = ((b ⟨A, hA⟩) : ℕ)
    rw [ofBits_digit b hA]
    unfold bitv
    rw [dif_pos hA]
  · congr 1
    apply Fin.ext
    exact ofBits_recompose1 b hA j

theorem applyGate2Core_trv {n : ℕ} (U : Matrix (Fin 4) (Fin 4) α) {A B : ℕ}
    (hAB : A < B) (hB : B < n) (w : Vec α (2 ^ n)) :
    trv (applyGate2Core U A B hAB hB w)
      = bApply2 U ⟨A, by omega⟩ ⟨B, hB⟩ (trv w) := by
  have hA : A < n := by omega
  funext b
  unfold trv applyGate2Core bApply2 binFun
  apply Finset.sum_congr rfl
  intro k _
  apply Finset.sum_congr rfl
  intro l _
  congr 1
  · apply congrFun
    apply congrArg
    apply Fin.ext
    show ofBits b / 2 ^ (n - A - 1) % 2 * 2 + ofBits b / 2 ^ (n - B - 1) % 2
      = ((b ⟨A, hA⟩) : ℕ) * 2 + ((b ⟨B, hB⟩) : ℕ)
    rw [ofBits_digit b hA, ofBits_digit b hB]
    unfold bitv
    rw [dif_pos hA, dif_pos hB]
  · apply congrArg
    apply Fin.ext
    exact ofBits_recompose2 b hA hAB hB k l

/-! ## The Gate and Circuit data model -/

/-- Class `Gate` (quasar.py): an `N`-body quantum gate.  `U` is the current
value of the `(2^N, 2^N)` unitary matrix (the Python `Ufun` evaluated at
the current parameter values; parameter mutation is outside the scope of
the stated claims, so the matrix is carried directly).  `params` is the
ordered mapping of parameter names to (real) values, `name` the display
name. -/
structure Gate (α : Type) where
  N : ℕ
  U : Matrix (Fin (2 ^ N)) (Fin (2 ^ N)) α
  params : List (String × ℚ) := []
  name : String := ""

/-- `Gate.U1` (quasar.py): an explicit 1-body gate with a user-specified
matrix and no parameters. -/
def Gate.U1 (U : Matrix (Fin 2) (Fin 2) α) : Gate α := { N := 1, U := U, name := "U1" }

/-- `Gate.U2` (quasar.py): an explicit 2-body gate with a user-specified
matrix and no parameters. -/
def Gate.U2 (U : Matrix (Fin 4) (Fin 4) α) : Gate α := { N := 2, U := U, name := "U2" }

/-- The Hadamard matrix `H = (1/√2)·[[1,1],[1,-1]]` (class `Matrix` of
quasar.py), over the exact scalars `Cx Q2`. -/
def matH : Matrix (Fin 2) (Fin 2) (Cx Q2) :=
  Matrix.of ![![Cx.ofRe Q2.invSqrt2, Cx.ofRe Q2.invSqrt2],
              ![Cx.ofRe Q2.invSqrt2, -Cx.ofRe Q2.invSqrt2]]

/-- `Gate.H` (quasar.py). -/
def Gate.H : Gate (Cx Q2) := { N := 1, U := matH, name := "H" }

/-- Class `Circuit` (quasar.py): `N` qubits; `gates` is the insertion-ordered
mapping `(T, qubit-tuple) ↦ Gate` (an `OrderedDict`, modeled as an
association list whose keys are unique); `Ts` the memoized sorted list of
distinct occupied moments; `TAs` the memoized set of occupied `(T, qubit)`
slots (a `set`, modeled as a duplicate-free list). -/
structure Circuit (α : Type) where
  N : ℕ
  gates : List ((ℕ × List ℕ) × Gate α) := []
  Ts : List ℕ := []
  TAs : List (ℕ × ℕ) := []

/-- `Circuit(N=N)`: the empty circuit.  (The Python constructor also rejects
`N <= 0`; positivity of `N` is carried in `Circuit.WF`.) -/
def Circuit.empty (α : Type) (N : ℕ) : Circuit α := { N := N }

/-- The `N`-qubit circuit holding a single Hadamard gate at qubit 0,
moment 0 — the value produced by `Circuit(N).add_gate(0, 0, Gate.H)`. -/
def hCircuit (N : ℕ) : Circuit (Cx Q2) :=
  { N := N, gates := [((0, [0]), Gate.H)], Ts := [0], TAs := [(0, 0)] }

/-- `OrderedDict` assignment `d[k] = v`: replaces in place if the key is
present, else appends. -/
def odInsert {β : Type} (l : List ((ℕ × List ℕ) × β)) (k : ℕ × List ℕ) (v : β) :
    List ((ℕ × List ℕ) × β) :=
  if l.any (fun e => decide (e.1 = k)) then
    l.map (fun e => if e.1 = k then (k, v) else e)
  else l ++ [(k, v)]

/-- `set.add`: appends if not present. -/
def setAdd {β : Type} [DecidableEq β] (l : List β) (x : β) : List β :=
  if x ∈ l then l else l ++ [x]

/-- `Circuit.nmoment` (quasar.py): `Ts[-1] + 1` if `Ts` is nonempty, else 0. -/
def Circuit.nmoment (c : Circuit α) : ℕ :=
  match c.Ts.getLast? with
  | some T => T + 1
  | none => 0

/-- `Circuit.ngate` (quasar.py): the number of gates. -/
def Circuit.ngate (c : Circuit α) : ℕ := c.gates.length

/-- `Circuit.ngate1` (quasar.py): the number of 1-body gates. -/
def Circuit.ngate1 (c : Circuit α) : ℕ := (c.gates.filter (fun e => e.2.N == 1)).length

/-- `Circuit.ngate2` (quasar.py): the number of 2-body gates. -/
def Circuit.ngate2 (c : Circuit α) : ℕ := (c.gates.filter (fun e => e.2.N == 2)).length

/-- `Circuit.add_gate` (quasar.py).  `T` is the integer time index, `key`
the qubit tuple (`circuit.add_gate(T, A, gate)` corresponds to `key = [A]`).
The checks are performed in source order — `T < 0`; key length against
`gate.N`; then, per qubit in order, occupied slot and qubit range — and the
`gates` mapping, `TAs` occupancy set and sorted distinct-time list `Ts` are
updated only after every check has passed, so a failed call leaves the
circuit unchanged. -/
def Circuit.addGate (c : Circuit α) (T : ℤ) (key : List ℕ) (g : Gate α) :
    Except String (Circuit α) :=
  if T < 0 then .error "Negative T"
  else if key.length ≠ g.N then .error "key entries provided for N-body gate"
  else
    match key.findSome? (fun A =>
        if (T.toNat, A) ∈ c.TAs then some "circuit location is already occupied"
        else if c.N ≤ A then some "No qubit location"
        else none) with
    | some msg => .error msg
    | none =>
      .ok { c with
        gates := odInsert c.gates (T.toNat, key) g
        TAs := key.foldl (fun s A => setAdd s (T.toNat, A)) c.TAs
        Ts := if T.toNat ∈ c.Ts then c.Ts else (c.Ts ++ [T.toNat]).mergeSort (· ≤ ·) }

/-- `Circuit.gate` (quasar.py): exact lookup of the gate at `(T, key)`
(`None` models the Python `KeyError`). -/
def Circuit.gate (c : Circuit α) (T : ℕ) (key : List ℕ) : Option (Gate α) :=
  (c.gates.find? (fun e => decide (e.1 = (T, key)))).map (fun e => e.2)

/-- `Circuit.reversed` (quasar.py): re-adds every gate (in insertion order,
sharing the gate objects) at moment `nmoment - T - 1`.  Gate matrices are
not inverted or conjugate-transposed. -/
def Circuit.reversed (c : Circuit α) : Except String (Circuit α) :=
  c.gates.foldlM
    (fun (acc : Circuit α) (e : (ℕ × List ℕ) × Gate α) =>
      acc.addGate ((c.nmoment : ℤ) - e.1.1 - 1) e.1.2 e.2)
    (Circuit.empty α c.N)

/-- `Circuit.nonredundant` (quasar.py): relabels each occupied moment to its
rank in the sorted distinct-time list, removing empty moments. -/
def Circuit.nonredundant (c : Circuit α) : Except String (Circuit α) :=
  c.gates.foldlM
    (fun (acc : Circuit α) (e : (ℕ × List ℕ) × Gate α) =>
      match (c.Ts.mergeSort (· ≤ ·)).indexOf? e.1.1 with
      | some T2 => acc.addGate (T2 : ℤ) e.1.2 e.2
      | none => .error "KeyError: Tmap")
    (Circuit.empty α c.N)

/-- The gates of moment `T`, in insertion order: the data content of
`self.subset([T])` (quasar.py re-indexes the time key of each selected
gate to 0 and copies the gate; the simulator and compressor read only the
qubit keys and gate values of the result). -/
def Circuit.momentGates (c : Circuit α) (T : ℕ) : List ((ℕ × List ℕ) × Gate α) :=
  c.gates.filter (fun e => e.1.1 == T)

/-! ## The simulator -/

/-- The reference state `∏_A |0_A>`: amplitude 1 at flat index 0. -/
def refState (n : ℕ) : Vec α (2 ^ n) := fun x => if x.val = 0 then 1 else 0

/-- One gate application inside `simulate_steps`: dispatch on the arity
(`A = key2[0]`, `B = key2[1]`; a too-short key is the Python `IndexError`,
arity > 2 is the `Cannot apply gates with N > 2` error). -/
def applyGateEntry {n : ℕ} (key : List ℕ) (g : Gate α) (w : Vec α (2 ^ n)) :
    Except String (Vec α (2 ^ n)) :=
  match g, key with
  | ⟨1, U, _, _⟩, A :: _ => applyGate1 U A w
  | ⟨1, _, _, _⟩, [] => .error "IndexError"
  | ⟨2, U, _, _⟩, A :: B :: _ => applyGate2 U A B w
  | ⟨2, _, _, _⟩, _ => .error "IndexError"
  | _, _ => .error "Cannot apply gates with N > 2"

/-- `Circuit.simulate_steps` (quasar.py): propagate the state through the
moments `0, …, nmoment-1` in order, applying each moment's gates in
insertion order, and collect the `(moment, state)` pairs yielded.  The
ping-pong buffer discipline is modeled separately (`simulateStepsBuf`) for
the aliasing claim; here states are values. -/
def Circuit.simulateSteps (c : Circuit α) (w0 : Vec α (2 ^ c.N)) :
    Except String (List (ℕ × Vec α (2 ^ c.N))) :=
  ((List.range c.nmoment).foldlM
    (fun (st : List (ℕ × Vec α (2 ^ c.N)) × Vec α (2 ^ c.N)) T => do
      let w ← (c.momentGates T).foldlM
        (fun w (e : (ℕ × List ℕ) × Gate α) => applyGateEntry e.1.2 e.2 w) st.2
      .ok (st.1 ++ [(T, w)], w))
    ([], w0)).map Prod.fst

/-- `Circuit.simulate` (quasar.py): drive `simulate_steps` to completion and
return the last yielded state.  If the generator yields nothing (an empty
circuit), the loop variable is never bound and the function returns its
own `wfn` argument — in particular `None` when no initial state was
supplied. -/
def Circuit.simulate (c : Circuit α) (w? : Option (Vec α (2 ^ c.N))) :
    Except String (Option (Vec α (2 ^ c.N))) := do
  let steps ← c.simulateSteps (w?.getD (refState c.N))
  match steps.getLast? with
  | some s => .ok (some s.2)
  | none => .ok w?

theorem pdmIdx_lt {n A : ℕ} (hA : A < n) (l : Fin (2 ^ A)) (i : Fin 2)
    (r : Fin (2 ^ (n - A - 1))) :
    (l.val * 2 + i.val) * 2 ^ (n - A - 1) + r.val < 2 ^ n := by
  have e : 2 ^ n = 2 ^ A * 2 * 2 ^ (n - A - 1) := by
    rw [mul_assoc, ← pow_succ', ← pow_add]
    congr 1
    omega
  have h1 : l.val * 2 + i.val + 1 ≤ 2 ^ A * 2 := by
    have hl := l.isLt
    have hi := i.isLt
    omega
  calc (l.val * 2 + i.val) * 2 ^ (n - A - 1) + r.val
      < (l.val * 2 + i.val) * 2 ^ (n - A - 1) + 2 ^ (n - A - 1) := by
        have := r.isLt
        omega
    _ = (l.val * 2 + i.val + 1) * 2 ^ (n - A - 1) := by ring
    _ ≤ 2 ^ A * 2 * 2 ^ (n - A - 1) := Nat.mul_le_mul_right _ h1
    _ = 2 ^ n := e.symm

/-- `Circuit.compute_1pdm` (quasar.py): the one-particle (transition) density
matrix at qubit `A`: `D_ij = Σ_{L,R} conj(wfn1_LiR) · wfn2_LjR`, with
`L = 2^A` and `R = 2^(N-A-1)` the flanking reshape axes.  Fails if `A` is
out of range (shape checks carried by the types). -/
def compute1pdm {R : Type} [CommRing R] {n : ℕ} (w1 w2 : Vec (Cx R) (2 ^ n)) (A : ℕ) :
    Except String (Matrix (Fin 2) (Fin 2) (Cx R)) :=
  if hA : A < n then
    .ok (Matrix.of fun i j =>
      ∑ l : Fin (2 ^ A), ∑ r : Fin (2 ^ (n - A - 1)),
        Cx.conj (w1 ⟨(l.val * 2 + i.val) * 2 ^ (n - A - 1) + r.val, pdmIdx_lt hA l i r⟩)
          * w2 ⟨(l.val * 2 + j.val) * 2 ^ (n - A - 1) + r.val, pdmIdx_lt hA l j r⟩)
  else .error "A >= N"

/-- `Circuit.compute_pauli_1` (quasar.py): the `[I, X, Y, Z]` expectation
values at qubit `A`, computed from the 1pdm as
`I = Re(D00 + D11)`, `X = Re(D10 + D01)`, `Y = Im(D10 - D01)`,
`Z = Re(D00 - D11)`. -/
def computePauli1 {R : Type} [CommRing R] {n : ℕ} (w : Vec (Cx R) (2 ^ n)) (A : ℕ) :
    Except String (Fin 4 → R) :=
  (compute1pdm w w A).map (fun D =>
    ![(D 0 0 + D 1 1).re, (D 1 0 + D 0 1).re, (D 1 0 - D 0 1).im, (D 0 0 - D 1 1).re])

/-- Application of all gates of one moment, in insertion order (the inner
loop of `simulate_steps`). -/
def Circuit.momApply (c : Circuit α) (w : Vec α (2 ^ c.N)) (T : ℕ) :
    Except String (Vec α (2 ^ c.N)) :=
  (c.momentGates T).foldlM
    (fun w (e : (ℕ × List ℕ) × Gate α) => applyGateEntry e.1.2 e.2 w) w

/-- The `(moment, state)` trajectory yielded by `simulate_steps` over a
given list of moments. -/
def Circuit.momScan (c : Circuit α) :
    List ℕ → Vec α (2 ^ c.N) → Except String (List (ℕ × Vec α (2 ^ c.N)))
  | [], _ => .ok []
  | T :: Ts, w => do
    let w' ← c.momApply w T
    let rest ← c.momScan Ts w'
    .ok ((T, w') :: rest)

@[simp] theorem ebind_ok {ε β γ : Type} (a : β) (f : β → Except ε γ) :
    (Except.ok a : Except ε β) >>= f = f a := rfl

@[simp] theorem ebind_error {ε β γ : Type} (e : ε) (f : β → Except ε γ) :
    (Except.error e : Except ε β) >>= f = .error e := rfl

@[simp] theorem emap_ok {ε β γ : Type} (f : β → γ) (a : β) :
    Except.map f (.ok a : Except ε β) = .ok (f a) := rfl

@[simp] theorem emap_error {ε β γ : Type} (f : β → γ) (e : ε) :
    Except.map f (.error e : Except ε β) = .error e := rfl

theorem getLast?_cons_ne {β : Type} (r : β) (rs : List β) :
    ∃ x, (r :: rs).getLast? = some x := by
  induction rs generalizing r with
  | nil => exact ⟨r, rfl⟩
  | cons a as ih =>
    obtain ⟨x, hx⟩ := ih a
    exact ⟨x, by rw [List.getLast?_cons_cons, hx]⟩

@[simp] theorem ebind_ok2 {ε β γ : Type} (a : β) (f : β → Except ε γ) :
    Except.bind (Except.ok a : Except ε β) f = f a := rfl

@[simp] theorem ebind_error2 {ε β γ : Type} (e : ε) (f : β → Except ε γ) :
    Except.bind (Except.error e : Except ε β) f = .error e := rfl

theorem steps_fold (c : Circuit α) :
    ∀ (Ts : List ℕ) (acc : List (ℕ × Vec α (2 ^ c.N))) (w : Vec α (2 ^ c.N)),
    Ts.foldlM
      (fun (st : List (ℕ × Vec α (2 ^ c.N)) × Vec α (2 ^ c.N)) T =>
        (c.momApply st.2 T).bind (fun w => .ok (st.1 ++ [(T, w)], w)))
      (acc, w)
    = (c.momScan Ts w).map
        (fun ps => (acc ++ ps, ((ps.getLast?).map Prod.snd).getD w)) := by
  intro Ts
  induction Ts with
  | nil =>
    intro acc w
    show pure (acc, w) = Except.map _ (Except.ok [])
    simp only [emap_ok, List.getLast?_nil, Option.map_none, Option.getD_none, List.append_nil]
    rfl
  | cons T Ts ih =>
    intro acc w
    rw [List.foldlM_cons]
    unfold Circuit.momScan
    cases hm : c.momApply w T with
    | error e => rfl
    | ok w' =>
      show List.foldlM _ (acc ++ [(T, w')], w') Ts = _
      rw [ih]
      simp only [ebind_ok]
      cases hr : c.momScan Ts w' with
      | error e => rfl
      | ok rest =>
        simp only [emap_ok, ebind_ok]
        cases rest with
        | nil => simp
        | cons r rs =>
          obtain ⟨x, hx⟩ := getLast?_cons_ne r rs
          simp [List.getLast?_cons_cons, hx]

theorem simulateSteps_eq_momScan (c : Circuit α) (w0 : Vec α (2 ^ c.N)) :
    c.simulateSteps w0 = c.momScan (List.range c.nmoment) w0 := by
  unfold Circuit.simulateSteps
  rw [show ((List.range c.nmoment).foldlM
      (fun (st : List (ℕ × Vec α (2 ^ c.N)) × Vec α (2 ^ c.N)) T => do
        let w ← (c.momentGates T).foldlM
          (fun w (e : (ℕ × List ℕ) × Gate α) => applyGateEntry e.1.2 e.2 w) st.2
        .ok (st.1 ++ [(T, w)], w))
      ([], w0))
    = ((List.range c.nmoment).foldlM
      (fun (st : List (ℕ × Vec α (2 ^ c.N)) × Vec α (2 ^ c.N)) T =>
        (c.momApply st.2 T).bind (fun w => .ok (st.1 ++ [(T, w)], w)))
      ([], w0)) from rfl]
  rw [steps_fold]
  cases h : c.momScan (List.range c.nmoment) w0 with
  | error e => rfl
  | ok ps => simp

theorem momScan_last (c : Circuit α) :
    ∀ (Ts : List ℕ) (w : Vec α (2 ^ c.N)),
    (c.momScan Ts w).map (fun ps => ((ps.getLast?).map Prod.snd).getD w)
      = Ts.foldlM c.momApply w := by
  intro Ts
  induction Ts with
  | nil => intro w; rfl
  | cons T Ts ih =>
    intro w
    rw [List.foldlM_cons]
    unfold Circuit.momScan
    cases hm : c.momApply w T with
    | error e => rfl
    | ok w' =>
      simp only [ebind_ok]
      rw [← ih w']
      cases hr : c.momScan Ts w' with
      | error e => rfl
      | ok rest =>
        simp only [ebind_ok, emap_ok]
        cases rest with
        | nil => simp
        | cons r rs =>
          obtain ⟨x, hx⟩ := getLast?_cons_ne r rs
          simp [List.getLast?_cons_cons, hx]

/-- The final state of `simulate` with a supplied initial state is the fold
of the per-moment applications over the moments in ascending order. -/
theorem simulate_some_eq (c : Circuit α) (w : Vec α (2 ^ c.N)) :
    c.simulate (some w) = ((List.range c.nmoment).foldlM c.momApply w).map some := by
  unfold Circuit.simulate
  rw [show ((some w).getD (refState c.N)) = w from rfl]
  rw [show (c.simulateSteps w) = c.momScan (List.range c.nmoment) w from
    simulateSteps_eq_momScan c w]
  have hlast := momScan_last c (List.range c.nmoment) w
  cases h : c.momScan (List.range c.nmoment) w with
  | error e =>
    rw [h] at hlast
    rw [← hlast]
    rfl
  | ok ps =>
    rw [h] at hlast
    rw [← hlast]
    simp only [ebind_ok, emap_ok]
    cases hps : ps.getLast? with
    | none => simp [hps]
    | some s => simp [hps]

/-! ## Canonical parameter view -/

/-- Python tuple `<=` on qubit tuples (lexicographic). -/
def listLE : List ℕ → List ℕ → Bool
  | [], _ => true
  | _ :: _, [] => false
  | x :: xs, y :: ys => x < y || (x == y && listLE xs ys)

/-- Python tuple `<=` on `(T, qubit-tuple)` sort keys (lexicographic). -/
def keyLE (a b : ℕ × List ℕ) : Bool :=
  a.1 < b.1 || (a.1 == b.1 && listLE a.2 b.2)

/-- `Circuit.param_keys` (quasar.py): all `(T, key, param-name)` triples, in
gate-insertion order with each gate's parameters in their own order, then
stably sorted by the `(T, key)` prefix (`keys.sort(key = λx. (x[0], x[1]))`;
Python's `list.sort` is a stable sort, translated as `mergeSort`). -/
def Circuit.paramKeys (c : Circuit α) : List (ℕ × List ℕ × String) :=
  (c.gates.flatMap (fun e => e.2.params.map (fun p => (e.1.1, e.1.2, p.1)))).mergeSort
    (fun x y => keyLE (x.1, x.2.1) (y.1, y.2.1))

/-! ## Well-formedness

The invariants guaranteed for circuits built through the `add_gate` API
(§3 of the specification): tuple lengths match arities, qubit indices are
in range and distinct within a key, no two gates share a `(T, qubit)`
slot, and the memoized `Ts`/`TAs` agree with the `gates` mapping. -/

def Circuit.WF (c : Circuit α) : Prop :=
  0 < c.N
  ∧ (∀ e ∈ c.gates,
      e.1.2.length = e.2.N ∧ 0 < e.2.N ∧ e.1.2.Nodup ∧ (∀ A ∈ e.1.2, A < c.N)
        ∧ (e.2.params.map Prod.fst).Nodup)
  ∧ c.gates.Pairwise (fun e f => e.1.1 = f.1.1 → ∀ A ∈ e.1.2, A ∉ f.1.2)
  ∧ (∀ p ∈ c.TAs, ∃ e ∈ c.gates, e.1.1 = p.1 ∧ p.2 ∈ e.1.2)
  ∧ (∀ e ∈ c.gates, ∀ A ∈ e.1.2, (e.1.1, A) ∈ c.TAs)
  ∧ c.TAs.Nodup
  ∧ c.Ts.Pairwise (· < ·)
  ∧ (∀ T ∈ c.Ts, ∃ e ∈ c.gates, e.1.1 = T)
  ∧ (∀ e ∈ c.gates, e.1.1 ∈ c.Ts)

/-- Whether a call raised (`Except.error`). -/
def exceptFailed {ε β : Type} : Except ε β → Bool
  | .error _ => true
  | .ok _ => false

theorem exceptFailed_iff {ε β : Type} (x : Except ε β) :
    exceptFailed x = true ↔ ∃ msg, x = .error msg := by
  cases x <;> simp [exceptFailed]

/-! ## Building circuits through `add_gate`

Characterization of successful `add_gate` calls and of folds of `add_gate`
over request lists, used for the circuit transforms (`reversed`,
`nonredundant`, the compressor's rebuild passes). -/

/-- A successful `add_gate`: all four checks pass and each memoized field is
updated as in the source. -/
theorem exists_mem_of_ne_nil' {β : Type} {l : List β} (h : l ≠ []) : ∃ x, x ∈ l := by
  cases l with
  | nil => exact absurd rfl h
  | cons a as => exact ⟨a, List.mem_cons_self a as⟩

theorem addGate_ok {c : Circuit α} {T : ℤ} {key : List ℕ} {g : Gate α}
    (hT : 0 ≤ T) (hlen : key.length = g.N)
    (hfree : ∀ A ∈ key, (T.toNat, A) ∉ c.TAs) (hrange : ∀ A ∈ key, A < c.N) :
    c.addGate T key g = .ok
      { N := c.N
        gates := odInsert c.gates (T.toNat, key) g
        TAs := key.foldl (fun s A => setAdd s (T.toNat, A)) c.TAs
        Ts := if T.toNat ∈ c.Ts then c.Ts
              else (c.Ts ++ [T.toNat]).mergeSort (· ≤ ·) } := by
  unfold Circuit.addGate
  rw [if_neg (by omega), if_neg (by simp [hlen])]
  rw [show (key.findSome? (fun A =>
      if (T.toNat, A) ∈ c.TAs then some "circuit location is already occupied"
      else if c.N ≤ A then some "No qubit location"
      else none)) = none from List.findSome?_eq_none_iff.mpr (fun A hA => by
    rw [if_neg (hfree A hA), if_neg (not_le.mpr (hrange A hA))])]

theorem odInsert_fresh {β : Type} {l : List ((ℕ × List ℕ) × β)} {k : ℕ × List ℕ} {v : β}
    (h : ∀ e ∈ l, e.1 ≠ k) : odInsert l k v = l ++ [(k, v)] := by
  unfold odInsert
  rw [if_neg]
  simp only [List.any_eq_true, decide_eq_true_eq, not_exists, not_and]
  intro e he
  exact h e he

theorem setAdd_mem {β : Type} [DecidableEq β] {l : List β} {x y : β} :
    x ∈ setAdd l y ↔ x ∈ l ∨ x = y := by
  unfold setAdd
  split
  · constructor
    · exact Or.inl
    · rintro (h | rfl)
      · exact h
      · assumption
  · simp

theorem foldl_setAdd_mem {key : List ℕ} {Tn : ℕ} :
    ∀ {s0 : List (ℕ × ℕ)} {p : ℕ × ℕ},
    (p ∈ key.foldl (fun s A => setAdd s (Tn, A)) s0 ↔ p ∈ s0 ∨ ∃ A ∈ key, p = (Tn, A)) := by
  induction key with
  | nil => simp
  | cons B key ih =>
    intro s0 p
    rw [List.foldl_cons, ih, setAdd_mem]
    simp only [List.mem_cons]
    constructor
    · rintro ((h | h) | ⟨A, hA, rfl⟩)
      · exact Or.inl h
      · exact Or.inr ⟨B, Or.inl rfl, h⟩
      · exact Or.inr ⟨A, Or.inr hA, rfl⟩
    · rintro (h | ⟨A, (rfl | hA), rfl⟩)
      · exact Or.inl (Or.inl h)
      · exact Or.inl (Or.inr rfl)
      · exact Or.inr ⟨A, hA, rfl⟩

theorem mergeSort_pairwise_lt {l : List ℕ} (hnd : l.Nodup) :
    (l.mergeSort (· ≤ ·)).Pairwise (· < ·) := by
  have hs : (l.mergeSort (· ≤ ·)).Pairwise (fun a b : ℕ => (decide (a ≤ b)) = true) :=
    @List.sorted_mergeSort ℕ (fun a b : ℕ => decide (a ≤ b))
      (by intro a b c hab hbc; simp only [decide_eq_true_eq] at *; omega)
      (by intro a b; simp only [Bool.or_eq_true, decide_eq_true_eq]; omega) l
  have hnd2 : (l.mergeSort (· ≤ ·)).Nodup :=
    (List.mergeSort_perm l _).nodup_iff.mpr hnd
  have := hs.and hnd2
  apply this.imp
  intro a b hab
  simp only [decide_eq_true_eq] at hab
  omega

theorem sorted_getLast?_eq {l : List ℕ} (hs : l.Pairwise (· < ·)) {M : ℕ}
    (hM : M ∈ l) (hmax : ∀ x ∈ l, x ≤ M) : l.getLast? = some M := by
  induction l with
  | nil => cases hM
  | cons a as ih =>
    cases as with
    | nil =>
      simp only [List.mem_singleton] at hM
      rw [hM]
      rfl
    | cons b bs =>
      rw [List.getLast?_cons_cons]
      have hma : M ∈ b :: bs := by
        rcases List.mem_cons.mp hM with rfl | h
        · exfalso
          have hb : M < b := (List.pairwise_cons.mp hs).1 b (List.mem_cons_self _ _)
          have := hmax b (List.mem_cons.mpr (Or.inr (List.mem_cons_self _ _)))
          omega
        · exact h
      exact ih (List.pairwise_cons.mp hs).2 hma
        (fun x hx => hmax x (List.mem_cons.mpr (Or.inr hx)))

theorem sorted_mem_le_getLast {l : List ℕ} (hs : l.Pairwise (· < ·)) {M : ℕ}
    (hlast : l.getLast? = some M) : ∀ x ∈ l, x ≤ M := by
  induction l with
  | nil => intro x hx; cases hx
  | cons a as ih =>
    cases as with
    | nil =>
      intro x hx
      simp only [List.mem_singleton] at hx
      subst hx
      have h2 : ([x] : List ℕ).getLast? = some x := rfl
      rw [h2] at hlast
      have : M = x := (Option.some.inj hlast).symm
      omega
    | cons b bs =>
      rw [List.getLast?_cons_cons] at hlast
      intro x hx
      rcases List.mem_cons.mp hx with rfl | h
      · have hxb : x < b := (List.pairwise_cons.mp hs).1 b (List.mem_cons_self _ _)
        have hbM : b ≤ M :=
          ih (List.pairwise_cons.mp hs).2 hlast b (List.mem_cons_self _ _)
        omega
      · exact ih (List.pairwise_cons.mp hs).2 hlast x h

/-- A fold of `add_gate` over a list of `(time, key) × gate` requests. -/
def addReqs (c0 : Circuit α) (rs : List ((ℤ × List ℕ) × Gate α)) :
    Except String (Circuit α) :=
  rs.foldlM (fun (acc : Circuit α) (r : (ℤ × List ℕ) × Gate α) =>
    acc.addGate r.1.1 r.1.2 r.2) c0

/-- Invariant tying an accumulator circuit to the requests already added,
starting from the empty circuit. -/
def ReqInv (N : ℕ) (done : List ((ℤ × List ℕ) × Gate α)) (acc : Circuit α) : Prop :=
  acc.N = N
  ∧ acc.gates = done.map (fun r => ((r.1.1.toNat, r.1.2), r.2))
  ∧ (∀ p : ℕ × ℕ, p ∈ acc.TAs ↔ ∃ r ∈ done, p.1 = r.1.1.toNat ∧ p.2 ∈ r.1.2)
  ∧ (∀ T : ℕ, T ∈ acc.Ts ↔ ∃ r ∈ done, T = r.1.1.toNat)
  ∧ acc.Ts.Pairwise (· < ·)

/-- Property bundle required of each request. -/
def ReqOk (N : ℕ) (r : (ℤ × List ℕ) × Gate α) : Prop :=
  0 ≤ r.1.1 ∧ r.1.2.length = r.2.N ∧ r.1.2 ≠ [] ∧ ∀ A ∈ r.1.2, A < N

/-- Requests at equal times touch disjoint qubits. -/
def ReqDisj (r s : (ℤ × List ℕ) × Gate α) : Prop :=
  r.1.1 = s.1.1 → ∀ A ∈ r.1.2, A ∉ s.1.2

theorem addReqs_go {N : ℕ} :
    ∀ (rs done : List ((ℤ × List ℕ) × Gate α)) (acc : Circuit α),
    ReqInv N done acc →
    (∀ r ∈ done ++ rs, ReqOk N r) →
    (done ++ rs).Pairwise ReqDisj →
    ∃ c', addReqs acc rs = .ok c' ∧ ReqInv N (done ++ rs) c' := by
  intro rs
  induction rs with
  | nil =>
    intro done acc hinv _ _
    exact ⟨acc, rfl, by simpa using hinv⟩
  | cons r rs ih =>
    intro done acc hinv hok hdisj
    obtain ⟨hN, hgates, hTAs, hTs, hTsSorted⟩ := hinv
    have hrok : ReqOk N r := hok r (by simp)
    obtain ⟨hT0, hlen, hne, hrange⟩ := hrok
    -- the step succeeds
    have hfree : ∀ A ∈ r.1.2, (r.1.1.toNat, A) ∉ acc.TAs := by
      intro A hA hmem
      obtain ⟨s, hs, hTeq, hAmem⟩ := (hTAs _).mp hmem
      have hsok : ReqOk N s := hok s (List.mem_append_left _ hs)
      have hTeq' : s.1.1 = r.1.1 := by
        have h0s : 0 ≤ s.1.1 := hsok.1
        have h1 : s.1.1.toNat = r.1.1.toNat := hTeq.symm
        omega
      have hdisj' : ReqDisj s r := by
        have := List.pairwise_append.mp hdisj
        exact this.2.2 s hs r (by simp)
      exact hdisj' hTeq' A hAmem hA
    have hstep := addGate_ok (c := acc) (g := r.2) hT0 hlen hfree
      (by rw [hN]; exact hrange)
    rw [show addReqs acc (r :: rs)
        = (acc.addGate r.1.1 r.1.2 r.2).bind (fun acc2 => addReqs acc2 rs) from rfl]
    rw [hstep, ebind_ok2]
    -- the new accumulator satisfies the invariant for done ++ [r]
    have hkeyfresh : ∀ e ∈ acc.gates, e.1 ≠ (r.1.1.toNat, r.1.2) := by
      intro e he heq
      rw [hgates] at he
      obtain ⟨s, hs, rfl⟩ := List.mem_map.mp he
      obtain ⟨A, hA⟩ := exists_mem_of_ne_nil' (hok s (List.mem_append_left _ hs)).2.2.1
      have heq' : (s.1.1.toNat, s.1.2) = (r.1.1.toNat, r.1.2) := heq
      obtain ⟨hTeq, hkeq⟩ := Prod.mk.inj heq'
      have hTeq' : s.1.1 = r.1.1 := by
        have h0s : 0 ≤ s.1.1 := (hok s (List.mem_append_left _ hs)).1
        omega
      have hdisj' : ReqDisj s r := by
        have := List.pairwise_append.mp hdisj
        exact this.2.2 s hs r (by simp)
      exact hdisj' hTeq' A hA (hkeq ▸ hA)
    have hinv' : ReqInv N (done ++ [r])
        { N := acc.N
          gates := odInsert acc.gates (r.1.1.toNat, r.1.2) r.2
          TAs := r.1.2.foldl (fun s A => setAdd s (r.1.1.toNat, A)) acc.TAs
          Ts := if r.1.1.toNat ∈ acc.Ts then acc.Ts
                else (acc.Ts ++ [r.1.1.toNat]).mergeSort (· ≤ ·) } := by
      refine ⟨hN, ?_, ?_, ?_, ?_⟩
      · rw [odInsert_fresh hkeyfresh, hgates, List.map_append]
        rfl
      · intro p
        rw [foldl_setAdd_mem, hTAs]
        constructor
        · rintro (⟨s, hs, h1, h2⟩ | ⟨A, hA, rfl⟩)
          · exact ⟨s, List.mem_append_left _ hs, h1, h2⟩
          · exact ⟨r, List.mem_append_right _ (by simp), rfl, hA⟩
        · rintro ⟨s, hs, h1, h2⟩
          rcases List.mem_append.mp hs with hs | hs
          · exact Or.inl ⟨s, hs, h1, h2⟩
          · simp only [List.mem_singleton] at hs
            subst hs
            exact Or.inr ⟨p.2, h2, by rw [← h1]⟩
      · intro T
        split
        · rename_i hmem
          rw [hTs]
          constructor
          · rintro ⟨s, hs, rfl⟩
            exact ⟨s, List.mem_append_left _ hs, rfl⟩
          · rintro ⟨s, hs, rfl⟩
            rcases List.mem_append.mp hs with hs | hs
            · exact ⟨s, hs, rfl⟩
            · simp only [List.mem_singleton] at hs
              subst hs
              exact (hTs _).mp hmem
        · rw [List.mem_mergeSort, List.mem_append, hTs]
          simp only [List.mem_singleton]
          constructor
          · rintro (⟨s, hs, rfl⟩ | rfl)
            · exact ⟨s, List.mem_append_left _ hs, rfl⟩
            · exact ⟨r, List.mem_append_right _ (by simp), rfl⟩
          · rintro ⟨s, hs, rfl⟩
            rcases List.mem_append.mp hs with hs | hs
            · exact Or.inl ⟨s, hs, rfl⟩
            · simp only [List.mem_singleton] at hs
              subst hs
              exact Or.inr rfl
      · split
        · exact hTsSorted
        · rename_i hmem
          apply mergeSort_pairwise_lt
          rw [List.nodup_append]
          refine ⟨hTsSorted.imp (fun {a b} h => Nat.ne_of_lt h), List.nodup_singleton _, ?_⟩
          intro a ha hb
          simp only [List.mem_singleton] at hb
          exact hmem (hb ▸ ha)
    have := ih (done ++ [r]) _ hinv'
      (by intro s hs; exact hok s (by simpa [List.append_assoc] using hs))
      (by rw [List.append_assoc]; simpa using hdisj)
    obtain ⟨c', hc', hinv''⟩ := this
    exact ⟨c', hc', by rwa [List.append_assoc] at hinv''⟩

/-- Folding `add_gate` over pairwise-compatible requests starting from the
empty circuit succeeds, and the result is characterized exactly. -/
theorem addReqs_ok {N : ℕ} (rs : List ((ℤ × List ℕ) × Gate α))
    (hok : ∀ r ∈ rs, ReqOk N r) (hdisj : rs.Pairwise ReqDisj) :
    ∃ c', addReqs (Circuit.empty α N) rs = .ok c' ∧ ReqInv N rs c' := by
  have h0 : ReqInv N [] (Circuit.empty α N) := by
    refine ⟨rfl, rfl, ?_, ?_, ?_⟩
    · intro p
      constructor
      · intro h
        cases h
      · rintro ⟨s, hs, -⟩
        cases hs
    · intro T
      constructor
      · intro h
        cases h
      · rintro ⟨s, hs, -⟩
        cases hs
    · exact List.Pairwise.nil
  obtain ⟨c', h1, h2⟩ := addReqs_go rs [] (Circuit.empty α N) h0 hok hdisj
  exact ⟨c', h1, h2⟩

/-! ## Claim theorems -/

/-- **C3.**  `add_gate(T, key, gate)` fails exactly when `T < 0`, or the key
length differs from the gate's arity, or some `(T, qubit)` slot named by
`key` is already occupied, or some qubit index in `key` is `≥ N`.  All
checks precede every update in `add_gate`, so a failing call leaves the
circuit — its `gates` mapping, `TAs` occupancy set and `Ts` moment list —
unchanged: in this embedding a failing call produces only an error value
and no circuit at all. -/
theorem addGate_fails_iff {α : Type} (c : Circuit α) (T : ℤ) (key : List ℕ) (g : Gate α) :
    exceptFailed (c.addGate T key g) = true
      ↔ T < 0 ∨ key.length ≠ g.N
          ∨ (∃ A ∈ key, (T.toNat, A) ∈ c.TAs) ∨ (∃ A ∈ key, c.N ≤ A) := by
  unfold Circuit.addGate
  by_cases h1 : T < 0
  · rw [if_pos h1]
    simp only [exceptFailed, true_iff]
    exact Or.inl h1
  · rw [if_neg h1]
    by_cases h2 : key.length ≠ g.N
    · rw [if_pos h2]
      simp only [exceptFailed, true_iff]
      exact Or.inr (Or.inl h2)
    · rw [if_neg h2]
      rcases hfs : key.findSome? (fun A =>
          if (T.toNat, A) ∈ c.TAs then some "circuit location is already occupied"
          else if c.N ≤ A then some "No qubit location"
          else none) with _ | msg
      · rw [List.findSome?_eq_none_iff] at hfs
        refine iff_of_false (by simp [exceptFailed]) ?_
        rintro (h | h | ⟨A, hm, hA⟩ | ⟨A, hm, hA⟩)
        · exact h1 h
        · exact h2 h
        · have := hfs A hm
          rw [if_pos hA] at this
          cases this
        · have := hfs A hm
          by_cases hA1 : (T.toNat, A) ∈ c.TAs
          · rw [if_pos hA1] at this
            cases this
          · rw [if_neg hA1, if_pos hA] at this
            cases this
      · refine iff_of_true rfl ?_
        obtain ⟨A, hmA, hfa⟩ := List.exists_of_findSome?_eq_some hfs
        by_cases hA1 : (T.toNat, A) ∈ c.TAs
        · exact Or.inr (Or.inr (Or.inl ⟨A, hmA, hA1⟩))
        · rw [if_neg hA1] at hfa
          by_cases hA2 : c.N ≤ A
          · exact Or.inr (Or.inr (Or.inr ⟨A, hmA, hA2⟩))
          · rw [if_neg hA2] at hfa
            cases hfa

/-- **C10.**  On a circuit with no gates (`nmoment = 0`), `simulate` returns
its initial-state argument unchanged: the generator `simulate_steps` yields
no `(moment, state)` pairs, the loop variable of `simulate` is never bound,
and in particular `simulate()` with no initial state returns `None` — not
the `2^N` all-zero reference state, whose substitution for a `None`
argument happens only inside the generator body. -/
theorem simulate_empty_returns_input {α : Type} [CommRing α] (c : Circuit α)
    (h : c.nmoment = 0) (w? : Option (Vec α (2 ^ c.N))) :
    c.simulate w? = .ok w? := by
  unfold Circuit.simulate Circuit.simulateSteps
  rw [h]
  rfl

/-- Witness for C10 at the concrete empty 1-qubit circuit over `ℚ`,
with no initial state supplied: the result is `None`. -/
theorem simulate_empty_returns_input_witness :
    (Circuit.empty ℚ 1).nmoment = 0 ∧ (Circuit.empty ℚ 1).simulate none = .ok none :=
  ⟨rfl, simulate_empty_returns_input (Circuit.empty ℚ 1) rfl none⟩

/-- **C7.**  For a state vector of length `2^n`, a 4×4 matrix `U` and
distinct in-range qubit indices with `A > B`, `apply_gate_2(U, A, B)`
produces the same result as `apply_gate_2(U', B, A)` where `U'` is `U`
with its two input tensor legs and its two output tensor legs each
swapped pairwise (`einsum('ijkl->jilk')`, here `legSwap`); and
`apply_gate_2` fails whenever the two qubit indices are equal.  (The
Python shape checks on `U` and the two buffers are carried by the types
of the embedding, so a shape mismatch is not expressible.) -/
theorem applyGate2_swap_eq {α : Type} [CommRing α] {n : ℕ} (U : Matrix (Fin 4) (Fin 4) α)
    (A B : ℕ) (hB : B < A) (hA : A < n) (w : Vec α (2 ^ n)) :
    applyGate2 U A B w = applyGate2 (legSwap U) B A w
      ∧ ∀ C, C < n → applyGate2 U C C w = .error "A == B" := by
  constructor
  · have hL : applyGate2 U A B w
        = .ok (applyGate2Core (legSwap U) B A (by omega) (by omega) w) := by
      unfold applyGate2
      rw [dif_neg (by omega : ¬ n ≤ A), dif_neg (by omega : ¬ n ≤ B),
        dif_neg (by omega : ¬ A = B), dif_pos hB]
    have hR : applyGate2 (legSwap U) B A w
        = .ok (applyGate2Core (legSwap U) B A (by omega) (by omega) w) := by
      unfold applyGate2
      rw [dif_neg (by omega : ¬ n ≤ B), dif_neg (by omega : ¬ n ≤ A),
        dif_neg (by omega : ¬ B = A), dif_neg (by omega : ¬ A < B)]
    rw [hL, hR]
  · intro C hC
    unfold applyGate2
    rw [dif_neg (by omega : ¬ n ≤ C), dif_neg (by omega : ¬ n ≤ C), dif_pos rfl]

/-- Witness for C7: a concrete 4×4 matrix applied at qubits `(1, 0)` of a
two-qubit state over `ℚ`. -/
theorem applyGate2_swap_eq_witness :
    (0 : ℕ) < 1 ∧ (1 : ℕ) < 2
      ∧ (applyGate2 (Matrix.of ![![(1:ℚ),0,0,0], ![0,1,0,0], ![0,0,0,1], ![0,0,1,0]])
            1 0 (refState 2)
          = applyGate2 (legSwap (Matrix.of ![![(1:ℚ),0,0,0], ![0,1,0,0], ![0,0,0,1], ![0,0,1,0]]))
            0 1 (refState 2)
        ∧ ∀ C, C < 2 →
            applyGate2 (Matrix.of ![![(1:ℚ),0,0,0], ![0,1,0,0], ![0,0,0,1], ![0,0,1,0]])
              C C (refState 2) = .error "A == B") :=
  ⟨by decide, by decide,
    applyGate2_swap_eq (Matrix.of ![![(1:ℚ),0,0,0], ![0,1,0,0], ![0,0,0,1], ![0,0,1,0]])
      1 0 (by decide) (by decide) (refState 2)⟩

theorem hCircuit_built {N : ℕ} (hN : 1 ≤ N) :
    (Circuit.empty (Cx Q2) N).addGate 0 [0] Gate.H = .ok (hCircuit N) := by
  simp only [Circuit.addGate, Circuit.empty, Gate.H, hCircuit, odInsert, setAdd]
  rw [if_neg (by omega : ¬ (0:ℤ) < 0)]
  rw [if_neg (show ¬ ([0] : List ℕ).length ≠ 1 from by simp)]
  rw [show (([0] : List ℕ).findSome? (fun A =>
      if ((0:ℤ).toNat, A) ∈ ([] : List (ℕ × ℕ)) then some "circuit location is already occupied"
      else if N ≤ A then some "No qubit location"
      else none)) = none from by
    simp [List.findSome?, show ¬ N ≤ 0 from by omega]]
  rw [show (([] : List ℕ) ++ [Int.toNat 0]).mergeSort (fun x1 x2 => decide (x1 ≤ x2))
      = [Int.toNat 0] from List.mergeSort_singleton _]
  rfl

/-- Applying the Hadamard matrix at qubit 0 of the all-zero reference state
puts amplitude `1/√2` at flat indices `0` and `2^(N-1)` and `0` elsewhere. -/
theorem hadamard_core {N : ℕ} (h : 0 < N) :
    applyGate1Core matH 0 h (refState N)
      = fun x => if x.val = 0 ∨ x.val = 2 ^ (N - 1) then Cx.ofRe Q2.invSqrt2 else 0 := by
  have hpos : 0 < 2 ^ (N - 1) := Nat.pos_pow_of_pos _ (by omega)
  have h2 : 2 ^ N = 2 * 2 ^ (N - 1) := by rw [← pow_succ']; congr 1; omega
  funext x
  have hxlt : x.val < 2 ^ N := x.isLt
  unfold applyGate1Core refState
  rw [Fin.sum_univ_two]
  simp only [Nat.sub_zero, Fin.val_zero, Fin.val_one, Nat.zero_mul, Nat.one_mul, Nat.zero_add]
  have hdiv : x.val / 2 ^ N = 0 := Nat.div_eq_of_lt hxlt
  rw [hdiv]
  simp only [Nat.zero_mul, Nat.zero_add]
  rw [if_neg (show ¬ (2 ^ (N - 1) + x.val % 2 ^ (N - 1) = 0) from by omega)]
  rw [mul_zero, add_zero]
  by_cases hr : x.val % 2 ^ (N - 1) = 0
  · rw [if_pos hr, mul_one]
    have hcol : ∀ i : Fin 2, matH i 0 = Cx.ofRe Q2.invSqrt2 := by
      intro i
      fin_cases i <;> rfl
    rw [hcol]
    have hq : x.val / 2 ^ (N - 1) < 2 := by
      apply Nat.div_lt_of_lt_mul
      rw [Nat.mul_comm]
      omega
    have hdm := Nat.div_add_mod x.val (2 ^ (N - 1))
    have hcond : x.val = 0 ∨ x.val = 2 ^ (N - 1) := by
      rw [hr] at hdm
      obtain ⟨q, hq2, hdm2⟩ : ∃ q, q < 2 ∧ 2 ^ (N - 1) * q + 0 = x.val := ⟨_, hq, hdm⟩
      rcases (show q = 0 ∨ q = 1 from by omega) with h0 | h1
      · left
        rw [h0, Nat.mul_zero] at hdm2
        omega
      · right
        rw [h1, Nat.mul_one] at hdm2
        omega
    rw [if_pos hcond]
  · rw [if_neg hr, mul_zero]
    rw [if_neg ?_]
    rintro (h0 | h1)
    · exact hr (by rw [h0]; exact Nat.zero_mod _)
    · exact hr (by rw [h1]; exact Nat.mod_self _)

/-- **C2.**  For every `N ≥ 1`, building the `N`-qubit circuit with a single
Hadamard gate at qubit 0, moment 0 and simulating it from the default
all-zero initial state yields the state vector with amplitude `1/√2` at
basis indices `0` and `2^(N-1)` and `0` at every other index (qubit 0 is
the most significant bit of the basis-state index) — exactly, over the
exact scalars `Cx Q2`. -/
theorem hadamard_simulate {N : ℕ} (hN : 1 ≤ N) :
    ∃ c : Circuit (Cx Q2),
      (Circuit.empty (Cx Q2) N).addGate 0 [0] Gate.H = .ok c
      ∧ c.simulate none
        = .ok (some (fun x => if x.val = 0 ∨ x.val = 2 ^ (N - 1)
            then Cx.ofRe Q2.invSqrt2 else 0)) := by
  have h0N : 0 < N := by omega
  refine ⟨hCircuit N, hCircuit_built hN, ?_⟩
  have happ : applyGate1 (n := N) matH 0 (refState N)
      = .ok (applyGate1Core matH 0 h0N (refState N)) := by
    unfold applyGate1
    rw [dif_pos h0N]
  unfold Circuit.simulate
  rw [show ((none : Option (Vec (Cx Q2) (2 ^ (hCircuit N).N))).getD
      (refState (hCircuit N).N)) = refState N from rfl]
  rw [simulateSteps_eq_momScan]
  rw [show (hCircuit N).nmoment = 1 from rfl]
  rw [show List.range 1 = [0] from rfl]
  rw [show (hCircuit N).momScan [0] (refState N)
      = ((hCircuit N).momApply (refState N) 0).bind
          (fun w' => ((hCircuit N).momScan [] w').bind
            (fun rest => .ok ((0, w') :: rest))) from rfl]
  rw [show (hCircuit N).momApply (refState N) 0
      = (applyGate1 (n := N) matH 0 (refState N)).bind (fun w => pure w) from rfl]
  rw [happ]
  simp only [ebind_ok, ebind_ok2]
  rw [hadamard_core h0N]
  rfl

/-- Witness for C2 at `N = 2`. -/
theorem hadamard_simulate_witness :
    1 ≤ 2 ∧ ∃ c : Circuit (Cx Q2),
      (Circuit.empty (Cx Q2) 2).addGate 0 [0] Gate.H = .ok c
      ∧ c.simulate none
        = .ok (some (fun x => if x.val = 0 ∨ x.val = 2 ^ (2 - 1)
            then Cx.ofRe Q2.invSqrt2 else 0)) :=
  ⟨by decide, hadamard_simulate (by decide)⟩

theorem pdm_div {l i r Rp : ℕ} (hRp : 0 < Rp) (hi : i < 2) (hr : r < Rp) :
    ((l * 2 + i) * Rp + r) / (2 * Rp) = l := by
  have h1 : (l * 2 + i) * Rp + r = 2 * Rp * l + (i * Rp + r) := by ring
  rw [h1, Nat.mul_add_div (by omega)]
  have h2 : i * Rp ≤ 1 * Rp := Nat.mul_le_mul_right _ (by omega)
  rw [Nat.div_eq_of_lt (by omega)]
  omega

theorem pdm_mod {l i r Rp : ℕ} (hr : r < Rp) :
    ((l * 2 + i) * Rp + r) % Rp = r := by
  rw [show (l * 2 + i) * Rp + r = r + (l * 2 + i) * Rp from by ring,
    Nat.add_mul_mod_self_right]
  exact Nat.mod_eq_of_lt hr

theorem sum_sum_single_zero {R : Type} [CommRing R] {L M : ℕ} (hL : 0 < L) (hM : 0 < M)
    (f : Fin L → Fin M → R) (c : R)
    (hf : ∀ l r, f l r = if l.val = 0 ∧ r.val = 0 then c else 0) :
    (∑ l : Fin L, ∑ r : Fin M, f l r) = c := by
  rw [Finset.sum_eq_single (⟨0, hL⟩ : Fin L)]
  · rw [Finset.sum_eq_single (⟨0, hM⟩ : Fin M)]
    · rw [hf]
      simp
    · intro r _ hr
      rw [hf, if_neg]
      rintro ⟨-, hr0⟩
      exact hr (Fin.ext hr0)
    · intro hmem
      exact absurd (Finset.mem_univ _) hmem
  · intro l _ hl
    apply Finset.sum_eq_zero
    intro r _
    rw [hf, if_neg]
    rintro ⟨hl0, -⟩
    exact hl (Fin.ext hl0)
  · intro hmem
    exact absurd (Finset.mem_univ _) hmem

/-- At a general qubit `A`, the Hadamard applied to the all-zero state has
amplitude `1/√2` exactly where all bits off `A` vanish. -/
theorem hadamard_core_general {n A : ℕ} (hA : A < n) :
    applyGate1Core matH A hA (refState n)
      = fun x => if x.val / 2 ^ (n - A) = 0 ∧ x.val % 2 ^ (n - A - 1) = 0
          then Cx.ofRe Q2.invSqrt2 else 0 := by
  have hp1 : 0 < 2 ^ (n - A - 1) := Nat.pos_pow_of_pos _ (by omega)
  have hp2 : 0 < 2 ^ (n - A) := Nat.pos_pow_of_pos _ (by omega)
  funext x
  unfold applyGate1Core refState
  rw [Fin.sum_univ_two]
  simp only [Fin.val_zero, Fin.val_one, Nat.zero_mul, Nat.one_mul, Nat.add_zero]
  rw [if_neg (show ¬ (x.val / 2 ^ (n - A) * 2 ^ (n - A) + 2 ^ (n - A - 1)
      + x.val % 2 ^ (n - A - 1) = 0) from by omega)]
  rw [mul_zero, add_zero]
  have hcol : ∀ i : Fin 2, matH i 0 = Cx.ofRe Q2.invSqrt2 := by
    intro i
    fin_cases i <;> rfl
  by_cases hc : x.val / 2 ^ (n - A) = 0 ∧ x.val % 2 ^ (n - A - 1) = 0
  · rw [if_pos hc]
    rw [if_pos (by rw [hc.1, Nat.zero_mul, Nat.zero_add, hc.2])]
    rw [mul_one, hcol]
  · rw [if_neg hc]
    rw [if_neg ?_, mul_zero]
    intro heq
    have h1 : x.val / 2 ^ (n - A) * 2 ^ (n - A) = 0 ∧ x.val % 2 ^ (n - A - 1) = 0 := by
      omega
    have h2 : x.val / 2 ^ (n - A) = 0 := by
      rcases Nat.mul_eq_zero.mp h1.1 with h | h
      · exact h
      · omega
    exact hc ⟨h2, h1.2⟩

theorem pdm_refState {n A : ℕ} (hA : A < n) :
    compute1pdm (R := Q2) (refState n) (refState n) A
      = .ok (Matrix.of fun i j => if i.val = 0 ∧ j.val = 0 then 1 else 0) := by
  have hLpos : 0 < 2 ^ A := Nat.pos_pow_of_pos _ (by omega)
  have hMpos : 0 < 2 ^ (n - A - 1) := Nat.pos_pow_of_pos _ (by omega)
  unfold compute1pdm
  rw [dif_pos hA]
  congr 1
  funext i j
  rw [Matrix.of_apply, Matrix.of_apply]
  by_cases hij : i.val = 0 ∧ j.val = 0
  · rw [if_pos hij]
    apply sum_sum_single_zero hLpos hMpos
    intro l r
    unfold refState
    dsimp only
    by_cases hlr : l.val = 0 ∧ r.val = 0
    · rw [if_pos hlr]
      rw [if_pos (show (l.val * 2 + i.val) * 2 ^ (n - A - 1) + r.val = 0 from by
          rw [hlr.1, hij.1, hlr.2]; simp),
        if_pos (show (l.val * 2 + j.val) * 2 ^ (n - A - 1) + r.val = 0 from by
          rw [hlr.1, hij.2, hlr.2]; simp)]
      show Cx.conj 1 * 1 = 1
      rw [mul_one]
      ext <;> rfl
    · rw [if_neg hlr]
      have hkey : ∀ k : ℕ, k < 2 → ((l.val * 2 + k) * 2 ^ (n - A - 1) + r.val = 0 → False) := by
        intro k hk heq
        have h1 : (l.val * 2 + k) * 2 ^ (n - A - 1) = 0 ∧ r.val = 0 := by omega
        rcases Nat.mul_eq_zero.mp h1.1 with h | h
        · exact hlr ⟨by omega, h1.2⟩
        · omega
      rw [if_neg (hkey i.val i.isLt), if_neg (hkey j.val j.isLt)]
      show Cx.conj 0 * 0 = 0
      rw [mul_zero]
  · rw [if_neg hij]
    apply Finset.sum_eq_zero
    intro l _
    apply Finset.sum_eq_zero
    intro r _
    unfold refState
    dsimp only
    rcases (show ¬ i.val = 0 ∨ ¬ j.val = 0 from by tauto) with hi | hj
    · rw [if_neg (show ¬ ((l.val * 2 + i.val) * 2 ^ (n - A - 1) + r.val = 0) from by
        intro heq
        have h1 : (l.val * 2 + i.val) * 2 ^ (n - A - 1) = 0 := by omega
        rcases Nat.mul_eq_zero.mp h1 with h | h
        · exact hi (by omega)
        · omega)]
      show Cx.conj 0 * _ = 0
      rw [Cx.conj_zero, zero_mul]
    · rw [if_neg (show ¬ ((l.val * 2 + j.val) * 2 ^ (n - A - 1) + r.val = 0) from by
        intro heq
        have h1 : (l.val * 2 + j.val) * 2 ^ (n - A - 1) = 0 := by omega
        rcases Nat.mul_eq_zero.mp h1 with h | h
        · exact hj (by omega)
        · omega)]
      rw [mul_zero]

theorem pdm_hadamard {n A : ℕ} (hA : A < n) :
    compute1pdm (R := Q2) (applyGate1Core matH A hA (refState n))
        (applyGate1Core matH A hA (refState n)) A
      = .ok (Matrix.of fun _ _ => Cx.ofRe ⟨1/2, 0⟩) := by
  have hLpos : 0 < 2 ^ A := Nat.pos_pow_of_pos _ (by omega)
  have hMpos : 0 < 2 ^ (n - A - 1) := Nat.pos_pow_of_pos _ (by omega)
  have e2R : (2:ℕ) ^ (n - A) = 2 * 2 ^ (n - A - 1) := by
    rw [← pow_succ']
    congr 1
    omega
  unfold compute1pdm
  rw [dif_pos hA]
  congr 1
  funext i j
  rw [Matrix.of_apply, Matrix.of_apply]
  rw [hadamard_core_general hA]
  apply sum_sum_single_zero hLpos hMpos
  intro l r
  dsimp only
  have hdm : ∀ k : ℕ, k < 2 →
      (((l.val * 2 + k) * 2 ^ (n - A - 1) + r.val) / 2 ^ (n - A) = l.val
        ∧ ((l.val * 2 + k) * 2 ^ (n - A - 1) + r.val) % 2 ^ (n - A - 1) = r.val) := by
    intro k hk
    constructor
    · rw [e2R]
      exact pdm_div hMpos hk r.isLt
    · exact pdm_mod r.isLt
  by_cases hlr : l.val = 0 ∧ r.val = 0
  · have hci : ((l.val * 2 + i.val) * 2 ^ (n - A - 1) + r.val) / 2 ^ (n - A) = 0
        ∧ ((l.val * 2 + i.val) * 2 ^ (n - A - 1) + r.val) % 2 ^ (n - A - 1) = 0 := by
      rw [(hdm i.val i.isLt).1, (hdm i.val i.isLt).2]
      exact hlr
    have hcj : ((l.val * 2 + j.val) * 2 ^ (n - A - 1) + r.val) / 2 ^ (n - A) = 0
        ∧ ((l.val * 2 + j.val) * 2 ^ (n - A - 1) + r.val) % 2 ^ (n - A - 1) = 0 := by
      rw [(hdm j.val j.isLt).1, (hdm j.val j.isLt).2]
      exact hlr
    rw [if_pos hlr, if_pos hci, if_pos hcj]
    rw [Cx.conj_ofRe, Cx.ofRe_mul, Q2.invSqrt2_mul_self]
  · have hcj : ¬(((l.val * 2 + j.val) * 2 ^ (n - A - 1) + r.val) / 2 ^ (n - A) = 0
        ∧ ((l.val * 2 + j.val) * 2 ^ (n - A - 1) + r.val) % 2 ^ (n - A - 1) = 0) := by
      rw [(hdm j.val j.isLt).1, (hdm j.val j.isLt).2]
      exact hlr
    rw [if_neg hlr, if_neg hcj, mul_zero]

/-- **C9.**  For every `N ≥ 1` and in-range qubit `A`: `compute_pauli_1` on
the all-zero computational basis state returns `[I,X,Y,Z] = [1,0,0,1]`, and
on the state obtained by acting with a Hadamard gate on qubit `A` of the
all-zero state it returns `[1,1,0,0]` at qubit `A`. -/
theorem pauli1_zero_and_hadamard {n A : ℕ} (hA : A < n) :
    computePauli1 (R := Q2) (refState n) A = .ok ![1, 0, 0, 1]
    ∧ ∃ hw, applyGate1 matH A (refState n) = .ok hw
        ∧ computePauli1 hw A = .ok ![1, 1, 0, 0] := by
  constructor
  · unfold computePauli1
    rw [pdm_refState hA]
    rw [emap_ok]
    congr 1
    funext k
    fin_cases k
    · show ((1 : Cx Q2) + 0).re = 1
      simp
    · show ((0 : Cx Q2) + 0).re = 0
      simp
    · show ((0 : Cx Q2) - 0).im = 0
      simp
    · show ((1 : Cx Q2) - 0).re = 1
      simp
  · refine ⟨applyGate1Core matH A hA (refState n), ?_, ?_⟩
    · unfold applyGate1
      rw [dif_pos hA]
    · unfold computePauli1
      rw [pdm_hadamard hA]
      rw [emap_ok]
      congr 1
      have hhalf : (⟨(2:ℚ)⁻¹, 0⟩ : Q2) + ⟨(2:ℚ)⁻¹, 0⟩ = 1 := by
        ext <;> norm_num
      have hzero : (⟨1/2, 0⟩ : Q2) - ⟨1/2, 0⟩ = (0 : Q2) := by
        show (⟨1/2, 0⟩ : Q2) + -⟨1/2, 0⟩ = (0 : Q2)
        ext <;> norm_num
      funext k
      fin_cases k <;>
        simp [Matrix.of_apply, Cx.ofRe, hhalf, hzero]

/-- Witness for C9 at `n = 2`, `A = 1`. -/
theorem pauli1_zero_and_hadamard_witness :
    (1 : ℕ) < 2
    ∧ (computePauli1 (R := Q2) (refState 2) 1 = .ok ![1, 0, 0, 1]
        ∧ ∃ hw, applyGate1 matH 1 (refState 2) = .ok hw
            ∧ computePauli1 hw 1 = .ok ![1, 1, 0, 0]) :=
  ⟨by decide, pauli1_zero_and_hadamard (by decide)⟩

/-- For a circuit whose gate keys are well-formed, whose memoized `Ts` is
sorted and covers the gate times, and whose same-moment gates touch
disjoint qubits, `reversed` succeeds and is characterized exactly: the
result re-adds every gate, in insertion order and with the gate object
unchanged, at moment `nmoment - 1 - T`. -/
theorem nmoment_of_getLast {c : Circuit α} {M : ℕ}
    (h : c.Ts.getLast? = some M) : c.nmoment = M + 1 := by
  unfold Circuit.nmoment
  rw [h]

theorem reversed_ok (c : Circuit α)
    (hg : ∀ e ∈ c.gates, e.1.2 ≠ [] ∧ ∀ A ∈ e.1.2, A < c.N)
    (hlen : ∀ e ∈ c.gates, e.1.2.length = e.2.N)
    (hpw : c.gates.Pairwise (fun e f => e.1.1 = f.1.1 → ∀ A ∈ e.1.2, A ∉ f.1.2))
    (hTsmem : ∀ e ∈ c.gates, e.1.1 ∈ c.Ts)
    (hsorted : c.Ts.Pairwise (· < ·)) :
    ∃ c1, c.reversed = .ok c1
      ∧ c1.N = c.N
      ∧ c1.gates = c.gates.map (fun e => ((c.nmoment - 1 - e.1.1, e.1.2), e.2))
      ∧ (∀ T : ℕ, T ∈ c1.Ts ↔ ∃ e ∈ c.gates, T = c.nmoment - 1 - e.1.1)
      ∧ c1.Ts.Pairwise (· < ·) := by
  have hmax : ∀ e ∈ c.gates, e.1.1 < c.nmoment := by
    intro e he
    have h1 := hTsmem e he
    obtain ⟨M, hM⟩ : ∃ M, c.Ts.getLast? = some M := by
      cases hl : c.Ts.getLast? with
      | none => exact absurd (List.getLast?_eq_none_iff.mp hl) (List.ne_nil_of_mem h1)
      | some M => exact ⟨M, rfl⟩
    have hle := sorted_mem_le_getLast hsorted hM e.1.1 h1
    have hnm : c.nmoment = M + 1 := nmoment_of_getLast hM
    omega
  have hrev : c.reversed = addReqs (Circuit.empty α c.N)
      (c.gates.map (fun e => (((c.nmoment : ℤ) - e.1.1 - 1, e.1.2), e.2))) := by
    unfold Circuit.reversed addReqs
    rw [List.foldlM_map]
  have hok : ∀ r ∈ c.gates.map (fun e => (((c.nmoment : ℤ) - e.1.1 - 1, e.1.2), e.2)),
      ReqOk c.N r := by
    intro r hr
    obtain ⟨e, he, rfl⟩ := List.mem_map.mp hr
    have h1 := hmax e he
    refine ⟨?_, hlen e he, (hg e he).1, (hg e he).2⟩
    show (0 : ℤ) ≤ (c.nmoment : ℤ) - (e.1.1 : ℤ) - 1
    omega
  have hdisj : (c.gates.map (fun e => (((c.nmoment : ℤ) - e.1.1 - 1, e.1.2), e.2))).Pairwise
      ReqDisj := by
    rw [List.pairwise_map]
    apply hpw.imp_of_mem
    intro a b ha hb hR hTeq
    have h1 := hmax a ha
    have h2 := hmax b hb
    have hTeq2 : (c.nmoment : ℤ) - (a.1.1 : ℤ) - 1 = (c.nmoment : ℤ) - (b.1.1 : ℤ) - 1 := hTeq
    exact hR (by omega)
  obtain ⟨c1, hc1, hN, hgates, hTAs, hTsIff, hTsSorted⟩ :=
    addReqs_ok (N := c.N) _ hok hdisj
  refine ⟨c1, by rw [hrev]; exact hc1, hN, ?_, ?_, hTsSorted⟩
  · rw [hgates, List.map_map]
    apply List.map_congr_left
    intro e he
    have h1 := hmax e he
    show ((((c.nmoment : ℤ) - e.1.1 - 1).toNat, e.1.2), e.2) = _
    have h2 : ((c.nmoment : ℤ) - e.1.1 - 1).toNat = c.nmoment - 1 - e.1.1 := by omega
    rw [h2]
  · intro T
    rw [hTsIff]
    constructor
    · rintro ⟨r, hr, rfl⟩
      obtain ⟨e, he, rfl⟩ := List.mem_map.mp hr
      have h1 := hmax e he
      refine ⟨e, he, ?_⟩
      show ((c.nmoment : ℤ) - (e.1.1 : ℤ) - 1).toNat = c.nmoment - 1 - e.1.1
      omega
    · rintro ⟨e, he, rfl⟩
      refine ⟨_, List.mem_map_of_mem _ he, ?_⟩
      have h1 := hmax e he
      show c.nmoment - 1 - e.1.1 = ((c.nmoment : ℤ) - (e.1.1 : ℤ) - 1).toNat
      omega

/-- **C5.**  For a well-formed circuit with a gate at moment 0, `reversed`
relabels every gate's moment `T` to `nmoment - 1 - T`, keeping the key and
the gate object (and hence its unitary) unchanged, and applying `reversed`
twice restores every gate to its original `(time, qubit-tuple)` placement —
indeed the original `gates` mapping, entries and order included. -/
theorem reversed_twice (c : Circuit α) (hwf : c.WF)
    (h0 : ∃ e ∈ c.gates, e.1.1 = 0) :
    ∃ c1 c2, c.reversed = .ok c1 ∧ c1.reversed = .ok c2
      ∧ c1.gates = c.gates.map (fun e => ((c.nmoment - 1 - e.1.1, e.1.2), e.2))
      ∧ c2.N = c.N ∧ c2.gates = c.gates := by
  obtain ⟨-, hent, hpw, -, -, -, hsorted, -, hTsmem⟩ := hwf
  have hg : ∀ e ∈ c.gates, e.1.2 ≠ [] ∧ ∀ A ∈ e.1.2, A < c.N := by
    intro e he
    obtain ⟨h1, h2, -, h4, -⟩ := hent e he
    exact ⟨by intro hnil; rw [hnil] at h1; simp at h1; omega, h4⟩
  have hlen : ∀ e ∈ c.gates, e.1.2.length = e.2.N := fun e he => (hent e he).1
  have hmax : ∀ e ∈ c.gates, e.1.1 < c.nmoment := by
    intro e he
    have h1 := hTsmem e he
    obtain ⟨M, hM⟩ : ∃ M, c.Ts.getLast? = some M := by
      cases hl : c.Ts.getLast? with
      | none => exact absurd (List.getLast?_eq_none_iff.mp hl) (List.ne_nil_of_mem h1)
      | some M => exact ⟨M, rfl⟩
    have hle := sorted_mem_le_getLast hsorted hM e.1.1 h1
    have hnm : c.nmoment = M + 1 := nmoment_of_getLast hM
    omega
  obtain ⟨c1, hc1, hN1, hg1, hT1, hs1⟩ := reversed_ok c hg hlen hpw hTsmem hsorted
  obtain ⟨e0, he0, hT0⟩ := h0
  have hnm_pos : 0 < c.nmoment := by
    have := hmax e0 he0
    omega
  have hlast : c1.Ts.getLast? = some (c.nmoment - 1) := by
    apply sorted_getLast?_eq hs1
    · exact (hT1 _).mpr ⟨e0, he0, by omega⟩
    · intro x hx
      obtain ⟨e, he, rfl⟩ := (hT1 x).mp hx
      omega
  have hnm1 : c1.nmoment = c.nmoment := by
    rw [nmoment_of_getLast hlast]
    omega
  have hg' : ∀ e ∈ c1.gates, e.1.2 ≠ [] ∧ ∀ A ∈ e.1.2, A < c1.N := by
    intro e' he'
    rw [hg1] at he'
    obtain ⟨e, he, rfl⟩ := List.mem_map.mp he'
    exact ⟨(hg e he).1, by rw [hN1]; exact (hg e he).2⟩
  have hlen' : ∀ e ∈ c1.gates, e.1.2.length = e.2.N := by
    intro e' he'
    rw [hg1] at he'
    obtain ⟨e, he, rfl⟩ := List.mem_map.mp he'
    exact hlen e he
  have hpw' : c1.gates.Pairwise (fun e f => e.1.1 = f.1.1 → ∀ A ∈ e.1.2, A ∉ f.1.2) := by
    rw [hg1, List.pairwise_map]
    apply hpw.imp_of_mem
    intro a b ha hb hR hTeq
    have h1 := hmax a ha
    have h2 := hmax b hb
    have hTeq2 : c.nmoment - 1 - a.1.1 = c.nmoment - 1 - b.1.1 := hTeq
    exact hR (by omega)
  have hTsmem' : ∀ e ∈ c1.gates, e.1.1 ∈ c1.Ts := by
    intro e' he'
    rw [hg1] at he'
    obtain ⟨e, he, rfl⟩ := List.mem_map.mp he'
    exact (hT1 _).mpr ⟨e, he, rfl⟩
  obtain ⟨c2, hc2, hN2, hg2, -, -⟩ := reversed_ok c1 hg' hlen' hpw' hTsmem' hs1
  refine ⟨c1, c2, hc1, hc2, hg1, by rw [hN2, hN1], ?_⟩
  rw [hg2, hnm1, hg1, List.map_map]
  rw [show c.gates.map ((fun e : (ℕ × List ℕ) × Gate α =>
        ((c.nmoment - 1 - e.1.1, e.1.2), e.2))
      ∘ (fun e : (ℕ × List ℕ) × Gate α => ((c.nmoment - 1 - e.1.1, e.1.2), e.2)))
      = c.gates.map (fun e => e) from List.map_congr_left (fun e he => by
    have h1 := hmax e he
    show ((c.nmoment - 1 - (c.nmoment - 1 - e.1.1), e.1.2), e.2) = e
    have h2 : c.nmoment - 1 - (c.nmoment - 1 - e.1.1) = e.1.1 := by omega
    rw [h2])]
  exact List.map_id' c.gates

/-- Witness for C5 at the one-gate Hadamard circuit on one qubit. -/
theorem reversed_twice_witness :
    ∃ c1 c2, (hCircuit 1).reversed = .ok c1 ∧ c1.reversed = .ok c2
      ∧ c1.gates = (hCircuit 1).gates.map
          (fun e => (((hCircuit 1).nmoment - 1 - e.1.1, e.1.2), e.2))
      ∧ c2.N = (hCircuit 1).N ∧ c2.gates = (hCircuit 1).gates :=
  reversed_twice (hCircuit 1)
    ⟨by decide, by decide, by decide, by decide, by decide, by decide, by decide,
      by decide, by decide⟩
    ⟨((0, [0]), Gate.H), List.mem_cons_self _ _, rfl⟩

/-! ### Order-independence of `param_keys` (C6)

`param_keys` flattens the gate parameters in insertion order and then
stably sorts by the `(T, qubit-tuple)` prefix.  The comparator never looks
at the parameter name, so ties are broken by input position; since tied
triples always come from one single gate (gate keys are distinct), the
output is independent of gate insertion order. -/

theorem listLE_refl (x : List ℕ) : listLE x x = true := by
  induction x with
  | nil => rfl
  | cons a xs ih => simp [listLE, ih]

theorem listLE_total (x y : List ℕ) : listLE x y = true ∨ listLE y x = true := by
  induction x generalizing y with
  | nil => exact Or.inl rfl
  | cons a xs ih =>
    cases y with
    | nil => exact Or.inr rfl
    | cons b ys =>
      rcases Nat.lt_trichotomy a b with h | h | h
      · left
        simp [listLE, h]
      · subst h
        rcases ih ys with h2 | h2
        · left
          simp [listLE, h2]
        · right
          simp [listLE, h2]
      · right
        simp [listLE, h]

theorem listLE_trans {x y z : List ℕ} (h1 : listLE x y = true) (h2 : listLE y z = true) :
    listLE x z = true := by
  induction x generalizing y z with
  | nil => rfl
  | cons a xs ih =>
    cases y with
    | nil => simp [listLE] at h1
    | cons b ys =>
      cases z with
      | nil => simp [listLE] at h2
      | cons c zs =>
        simp only [listLE, Bool.or_eq_true, Bool.and_eq_true, decide_eq_true_eq,
          beq_iff_eq] at h1 h2 ⊢
        rcases h1 with h1 | ⟨rfl, h1⟩
        · rcases h2 with h2 | ⟨rfl, h2⟩
          · exact Or.inl (by omega)
          · exact Or.inl h1
        · rcases h2 with h2 | ⟨rfl, h2⟩
          · exact Or.inl h2
          · exact Or.inr ⟨rfl, ih h1 h2⟩

theorem listLE_antisymm {x y : List ℕ} (h1 : listLE x y = true) (h2 : listLE y x = true) :
    x = y := by
  induction x generalizing y with
  | nil =>
    cases y with
    | nil => rfl
    | cons b ys => simp [listLE] at h2
  | cons a xs ih =>
    cases y with
    | nil => simp [listLE] at h1
    | cons b ys =>
      simp only [listLE, Bool.or_eq_true, Bool.and_eq_true, decide_eq_true_eq,
        beq_iff_eq] at h1 h2
      rcases h1 with h1 | ⟨rfl, h1⟩
      · rcases h2 with h2 | ⟨h2, -⟩ <;> omega
      · rcases h2 with h2 | ⟨-, h2⟩
        · omega
        · rw [ih h1 h2]

theorem keyLE_refl (x : ℕ × List ℕ) : keyLE x x = true := by
  simp [keyLE, listLE_refl]

theorem keyLE_total (x y : ℕ × List ℕ) : keyLE x y = true ∨ keyLE y x = true := by
  rcases Nat.lt_trichotomy x.1 y.1 with h | h | h
  · left
    simp [keyLE, h]
  · rcases listLE_total x.2 y.2 with h2 | h2
    · left
      simp [keyLE, h, h2]
    · right
      simp [keyLE, h.symm, h2]
  · right
    simp [keyLE, h]

theorem keyLE_trans {x y z : ℕ × List ℕ} (h1 : keyLE x y = true) (h2 : keyLE y z = true) :
    keyLE x z = true := by
  simp only [keyLE, Bool.or_eq_true, Bool.and_eq_true, decide_eq_true_eq,
    beq_iff_eq] at h1 h2 ⊢
  rcases h1 with h1 | ⟨hxy, h1⟩
  · rcases h2 with h2 | ⟨hyz, h2⟩
    · exact Or.inl (by omega)
    · exact Or.inl (by omega)
  · rcases h2 with h2 | ⟨hyz, h2⟩
    · exact Or.inl (by omega)
    · exact Or.inr ⟨by omega, listLE_trans h1 h2⟩

theorem keyLE_antisymm {x y : ℕ × List ℕ} (h1 : keyLE x y = true) (h2 : keyLE y x = true) :
    x = y := by
  rcases x with ⟨x1, x2⟩
  rcases y with ⟨y1, y2⟩
  simp only [keyLE, Bool.or_eq_true, Bool.and_eq_true, decide_eq_true_eq,
    beq_iff_eq] at h1 h2
  have hn : x1 = y1 := by
    rcases h1 with h1 | ⟨h1, -⟩ <;> rcases h2 with h2 | ⟨h2, -⟩ <;> omega
  subst hn
  have hl : x2 = y2 := by
    rcases h1 with h1 | ⟨-, h1⟩
    · omega
    · rcases h2 with h2 | ⟨-, h2⟩
      · omega
      · exact listLE_antisymm h1 h2
  rw [hl]

/-- The `(T, qubit-tuple)` sort-key prefix of a parameter triple. -/
def tripleKey (x : ℕ × List ℕ × String) : ℕ × List ℕ := (x.1, x.2.1)

/-- The `param_keys` comparator: Python `(x[0], x[1]) <= (y[0], y[1])`. -/
def tripLE (x y : ℕ × List ℕ × String) : Bool := keyLE (tripleKey x) (tripleKey y)

theorem tripLE_trans : ∀ (a b c : ℕ × List ℕ × String),
    tripLE a b = true → tripLE b c = true → tripLE a c = true :=
  fun _ _ _ => keyLE_trans

theorem tripLE_total : ∀ (a b : ℕ × List ℕ × String), (tripLE a b || tripLE b a) = true := by
  intro a b
  rcases keyLE_total (tripleKey a) (tripleKey b) with h | h <;> simp [tripLE, h]

/-- A sorted list of parameter triples is determined by its key groups:
the comparator only sees `tripleKey`, and it is antisymmetric there. -/
theorem sorted_groups_unique :
    ∀ {out1 out2 : List (ℕ × List ℕ × String)},
    out1.Pairwise (fun x y => tripLE x y = true) →
    out2.Pairwise (fun x y => tripLE x y = true) →
    (∀ κ : ℕ × List ℕ, out1.filter (fun x => tripleKey x == κ)
        = out2.filter (fun x => tripleKey x == κ)) →
    out1 = out2 := by
  intro out1
  induction out1 with
  | nil =>
    intro out2 _ _ hg
    cases out2 with
    | nil => rfl
    | cons b t2 =>
      have h := hg (tripleKey b)
      rw [List.filter_nil, List.filter_cons, if_pos (by simp)] at h
      exact absurd h (by simp)
  | cons a t1 ih =>
    intro out2 hs1 hs2 hg
    cases out2 with
    | nil =>
      have h := hg (tripleKey a)
      rw [List.filter_nil, List.filter_cons, if_pos (by simp)] at h
      exact absurd h (by simp)
    | cons b t2 =>
      have hab : a = b := by
        cases hbeq : (tripleKey b == tripleKey a) with
        | true =>
          have h := hg (tripleKey a)
          rw [List.filter_cons, List.filter_cons, if_pos (by simp), if_pos hbeq] at h
          exact (List.cons.inj h).1
        | false =>
          exfalso
          have hbeq2 : (tripleKey a == tripleKey b) = false := by
            rw [beq_eq_false_iff_ne] at hbeq ⊢
            exact fun h => hbeq h.symm
          have h1 := hg (tripleKey a)
          rw [List.filter_cons, List.filter_cons, if_pos (by simp),
            if_neg (by rw [hbeq]; exact Bool.false_ne_true)] at h1
          have ha2 : a ∈ t2 := by
            apply List.mem_of_mem_filter (p := fun x => tripleKey x == tripleKey a)
            rw [← h1]
            exact List.mem_cons_self _ _
          have hba : tripLE b a = true := (List.pairwise_cons.mp hs2).1 a ha2
          have h2 := hg (tripleKey b)
          rw [List.filter_cons, List.filter_cons,
            if_neg (by rw [hbeq2]; exact Bool.false_ne_true), if_pos (by simp)] at h2
          have hb1 : b ∈ t1 := by
            apply List.mem_of_mem_filter (p := fun x => tripleKey x == tripleKey b)
            rw [h2]
            exact List.mem_cons_self _ _
          have hab2 : tripLE a b = true := (List.pairwise_cons.mp hs1).1 b hb1
          have hk : tripleKey a = tripleKey b := keyLE_antisymm hab2 hba
          rw [beq_eq_false_iff_ne] at hbeq
          exact hbeq hk.symm
      subst hab
      have htails : t1 = t2 := by
        apply ih (List.pairwise_cons.mp hs1).2 (List.pairwise_cons.mp hs2).2
        intro kk
        have h := hg kk
        rw [List.filter_cons, List.filter_cons] at h
        by_cases hc : (tripleKey a == kk) = true
        · rw [if_pos hc, if_pos hc] at h
          exact (List.cons.inj h).2
        · rw [if_neg hc, if_neg hc] at h
          exact h
      rw [htails]

/-- Stability of `mergeSort` on key groups: for each key value, the
subsequence of triples carrying that key is preserved verbatim. -/
theorem filter_mergeSort_key (l : List (ℕ × List ℕ × String)) (κ : ℕ × List ℕ) :
    (l.mergeSort tripLE).filter (fun x => tripleKey x == κ)
      = l.filter (fun x => tripleKey x == κ) := by
  have hGpw : (l.filter (fun x => tripleKey x == κ)).Pairwise
      (fun a b => tripLE a b = true) := by
    apply List.pairwise_of_forall_mem_list
    intro a ha b hb
    have ha2 : tripleKey a = κ := by
      have := List.of_mem_filter ha
      rwa [beq_iff_eq] at this
    have hb2 : tripleKey b = κ := by
      have := List.of_mem_filter hb
      rwa [beq_iff_eq] at this
    show keyLE (tripleKey a) (tripleKey b) = true
    rw [ha2, hb2]
    exact keyLE_refl κ
  have hsub : (l.filter (fun x => tripleKey x == κ)).Sublist (l.mergeSort tripLE) :=
    List.sublist_mergeSort tripLE_trans tripLE_total hGpw (List.filter_sublist l)
  have hperm : ((l.mergeSort tripLE).filter (fun x => tripleKey x == κ)).Perm
      (l.filter (fun x => tripleKey x == κ)) :=
    (List.mergeSort_perm l tripLE).filter _
  have hsub2 : (l.filter (fun x => tripleKey x == κ)).Sublist
      ((l.mergeSort tripLE).filter (fun x => tripleKey x == κ)) := by
    have h := hsub.filter (fun x => tripleKey x == κ)
    rwa [List.filter_eq_self.mpr
      (fun x hx => List.of_mem_filter (p := fun x => tripleKey x == κ) hx)] at h
  exact (hsub2.eq_of_length hperm.length_eq.symm).symm

/-- Per-gate parameter triples, in the gate parameter order. -/
def tripsOf (e : (ℕ × List ℕ) × Gate α) : List (ℕ × List ℕ × String) :=
  e.2.params.map (fun p => (e.1.1, e.1.2, p.1))

theorem filter_flatMap_trips (gs : List ((ℕ × List ℕ) × Gate α)) (κ : ℕ × List ℕ) :
    (gs.flatMap tripsOf).filter (fun x => tripleKey x == κ)
      = (gs.filter (fun e => e.1 == κ)).flatMap tripsOf := by
  induction gs with
  | nil => rfl
  | cons e gs ih =>
    rw [List.flatMap_cons, List.filter_append, ih, List.filter_cons]
    have hcase : (tripsOf e).filter (fun x => tripleKey x == κ)
        = if (e.1 == κ) = true then tripsOf e else [] := by
      split
      · rename_i h
        apply List.filter_eq_self.mpr
        intro x hx
        simp only [tripsOf, List.mem_map] at hx
        obtain ⟨p, hp, rfl⟩ := hx
        exact h
      · rename_i h
        apply List.filter_eq_nil_iff.mpr
        intro x hx
        simp only [tripsOf, List.mem_map] at hx
        obtain ⟨p, hp, rfl⟩ := hx
        exact h
    rw [hcase]
    split
    · rw [List.flatMap_cons]
    · rw [List.nil_append]

/-- Same gate content and distinct gate keys force equal key groups. -/
theorem filter_key_eq_of_perm {gs1 gs2 : List ((ℕ × List ℕ) × Gate α)}
    (hperm : gs1.Perm gs2) (hnd : (gs1.map (fun e => e.1)).Nodup) (κ : ℕ × List ℕ) :
    gs1.filter (fun e => e.1 == κ) = gs2.filter (fun e => e.1 == κ) := by
  have hp := hperm.filter (fun e => e.1 == κ)
  have hndf : ((gs1.filter (fun e => e.1 == κ)).map (fun e => e.1)).Nodup :=
    List.Nodup.sublist (List.Sublist.map _ (List.filter_sublist gs1)) hnd
  rcases hF : gs1.filter (fun e => e.1 == κ) with _ | ⟨a, _ | ⟨b, F⟩⟩
  · rw [hF] at hp
    rw [hF]
    exact (List.perm_nil.mp hp.symm).symm
  · rw [hF] at hp
    rw [hF]
    exact (List.perm_singleton.mp hp.symm).symm
  · exfalso
    rw [hF] at hndf
    have ha : a ∈ gs1.filter (fun e => e.1 == κ) := by
      rw [hF]
      exact List.mem_cons_self _ _
    have hb : b ∈ gs1.filter (fun e => e.1 == κ) := by
      rw [hF]
      exact List.mem_cons.mpr (Or.inr (List.mem_cons_self _ _))
    have h1 : (a.1 == κ) = true := List.of_mem_filter (p := fun e : (ℕ × List ℕ) × Gate α => e.1 == κ) ha
    have h2 : (b.1 == κ) = true := List.of_mem_filter (p := fun e : (ℕ × List ℕ) × Gate α => e.1 == κ) hb
    rw [beq_iff_eq] at h1 h2
    simp only [List.map_cons, List.nodup_cons, List.mem_cons] at hndf
    exact hndf.1 (Or.inl (h1.trans h2.symm))

/-- **C6.**  `param_keys` is canonical: for every well-formed circuit it
returns the `(time, qubit-tuple, parameter-name)` triples sorted by the
`(time, qubit-tuple)` prefix, and two circuits holding the same gate
placements (the same `gates` entries, in any insertion order) have
identical `param_keys`. -/
theorem paramKeys_order_independent (c1 c2 : Circuit α) (hwf : c1.WF)
    (hperm : c1.gates.Perm c2.gates) :
    c1.paramKeys.Pairwise (fun x y => keyLE (x.1, x.2.1) (y.1, y.2.1) = true)
      ∧ c1.paramKeys = c2.paramKeys := by
  obtain ⟨-, hent, hpw, -, -, -, -, -, -⟩ := hwf
  have hnd : (c1.gates.map (fun e => e.1)).Nodup := by
    rw [List.Nodup, List.pairwise_map]
    apply hpw.imp_of_mem
    intro a b ha hb hR heq
    obtain ⟨h1, h2, -, -, -⟩ := hent a ha
    obtain ⟨A, hA⟩ := exists_mem_of_ne_nil' (show a.1.2 ≠ [] by
      intro hnil
      rw [hnil] at h1
      simp at h1
      omega)
    have hT := congrArg Prod.fst heq
    have hK := congrArg Prod.snd heq
    exact hR hT A hA (hK ▸ hA)
  constructor
  · exact List.sorted_mergeSort tripLE_trans tripLE_total _
  · show (c1.gates.flatMap tripsOf).mergeSort tripLE
      = (c2.gates.flatMap tripsOf).mergeSort tripLE
    apply sorted_groups_unique
      (List.sorted_mergeSort tripLE_trans tripLE_total _)
      (List.sorted_mergeSort tripLE_trans tripLE_total _)
    intro kk
    rw [filter_mergeSort_key, filter_mergeSort_key, filter_flatMap_trips,
      filter_flatMap_trips, filter_key_eq_of_perm hperm hnd kk]

/-- A one-qubit gate carrying a mutable parameter. -/
def gParam : Gate (Cx Q2) :=
  { N := 1, U := matH, params := [("theta", 0)], name := "Rx" }

/-- Two gates at moment 0 on qubits 0 and 1, added in one order… -/
def cOrderA : Circuit (Cx Q2) :=
  { N := 2, gates := [((0, [0]), gParam), ((0, [1]), gParam)],
    Ts := [0], TAs := [(0, 0), (0, 1)] }

/-- …and in the other order. -/
def cOrderB : Circuit (Cx Q2) :=
  { N := 2, gates := [((0, [1]), gParam), ((0, [0]), gParam)],
    Ts := [0], TAs := [(0, 1), (0, 0)] }

/-- Witness for C6 on the two insertion orders above. -/
theorem paramKeys_order_independent_witness :
    cOrderA.paramKeys.Pairwise (fun x y => keyLE (x.1, x.2.1) (y.1, y.2.1) = true)
      ∧ cOrderA.paramKeys = cOrderB.paramKeys :=
  paramKeys_order_independent cOrderA cOrderB
    ⟨by decide, by decide, by decide, by decide, by decide, by decide, by decide,
      by decide, by decide⟩
    (List.Perm.swap _ _ _)

/-! ### The ping-pong buffer discipline of `simulate_steps` (C8)

`simulate_steps` copies the caller-supplied array (`np.array(wfn, dtype)`),
copies again into `wfn1` (`np.copy`), allocates a zero buffer `wfn2`
(`np.zeros_like`), and then each `apply_gate_1` / `apply_gate_2` call
writes only into the current `wfn2` buffer (`np.einsum(..., out=wfn2v)`)
before the two buffer references are swapped.  The heap is a list of
buffers indexed by allocation order; the caller's array is one of the
pre-existing buffers. -/

/-- Read buffer `i` of a heap. -/
def hget {m : ℕ} (heap : List (Vec α m)) (i : ℕ) : Vec α m :=
  heap.getD i (fun _ => 0)

theorem hget_set_ne {m : ℕ} (heap : List (Vec α m)) {j i : ℕ} (h : j ≠ i)
    (v : Vec α m) : hget (heap.set j v) i = hget heap i := by
  unfold hget
  rw [List.getD_eq_getElem?_getD, List.getD_eq_getElem?_getD, List.getElem?_set_ne h]

theorem hget_append {m : ℕ} (heap l : List (Vec α m)) {i : ℕ} (h : i < heap.length) :
    hget (heap ++ l) i = hget heap i := by
  unfold hget
  rw [List.getD_eq_getElem?_getD, List.getD_eq_getElem?_getD, List.getElem?_append_left h]

/-- `Circuit.simulate_steps` at the buffer level.  `heap0` is the heap of
pre-existing arrays and `uid` the index of the caller's initial state.
The run allocates the dtype-cast copy, the `wfn1` working copy and the
`wfn2` zero buffer, then folds over the moments, each gate writing its
result into the `wfn2` buffer and swapping the two buffer indices; the
final heap and buffer indices are returned.  (`simulate` drives this same
loop to completion, so one model covers both entry points.) -/
def Circuit.simulateStepsBuf (c : Circuit α) (heap0 : List (Vec α (2 ^ c.N)))
    (uid : ℕ) : Except String (List (Vec α (2 ^ c.N)) × ℕ × ℕ) :=
  (List.range c.nmoment).foldlM
    (fun (st : List (Vec α (2 ^ c.N)) × ℕ × ℕ) (T : ℕ) =>
      (c.momentGates T).foldlM
        (fun (st : List (Vec α (2 ^ c.N)) × ℕ × ℕ) (e : (ℕ × List ℕ) × Gate α) =>
          match applyGateEntry e.1.2 e.2 (hget st.1 st.2.1) with
          | .ok v => .ok (st.1.set st.2.2 v, st.2.2, st.2.1)
          | .error msg => .error msg)
        st)
    (((heap0 ++ [hget heap0 uid])
          ++ [hget (heap0 ++ [hget heap0 uid]) heap0.length])
        ++ [(fun _ => 0 : Vec α (2 ^ c.N))],
      heap0.length + 1, heap0.length + 2)

/-- Both working-buffer indices point above the pre-existing heap, and the
pre-existing buffers still hold their original contents. -/
def BufInv {m : ℕ} (heap0 : List (Vec α m)) (st : List (Vec α m) × ℕ × ℕ) : Prop :=
  heap0.length ≤ st.2.1 ∧ heap0.length ≤ st.2.2
    ∧ ∀ i < heap0.length, hget st.1 i = hget heap0 i

theorem foldlM_except_inv {β σ : Type} {f : σ → β → Except String σ} {P : σ → Prop}
    (hstep : ∀ s e, P s → ∀ t, f s e = .ok t → P t) :
    ∀ (l : List β) (s : σ), P s → ∀ t, l.foldlM f s = .ok t → P t := by
  intro l
  induction l with
  | nil =>
    intro s hP t h
    rw [List.foldlM_nil] at h
    cases h
    exact hP
  | cons e l ih =>
    intro s hP t h
    rw [List.foldlM_cons] at h
    cases hfe : f s e with
    | error msg =>
      rw [hfe, ebind_error] at h
      exact absurd h (by simp)
    | ok s1 =>
      rw [hfe, ebind_ok] at h
      exact ih s1 (hstep s e hP s1 hfe) t h

/-- **C8.**  The engine never writes into any pre-existing buffer: after a
complete (fully consumed) run of the `simulate_steps` loop — and hence
also of `simulate`, which drives the same loop — every array that existed
before the call, in particular the caller's initial state `heap0[uid]`,
still holds its original contents.  All writes go to the two freshly
allocated working buffers. -/
theorem simulateSteps_preserves_input (c : Circuit α)
    (heap0 : List (Vec α (2 ^ c.N))) (uid : ℕ)
    (st' : List (Vec α (2 ^ c.N)) × ℕ × ℕ)
    (hrun : c.simulateStepsBuf heap0 uid = .ok st') :
    ∀ i < heap0.length, hget st'.1 i = hget heap0 i := by
  have hstepInner : ∀ (st : List (Vec α (2 ^ c.N)) × ℕ × ℕ)
      (e : (ℕ × List ℕ) × Gate α), BufInv heap0 st → ∀ t,
      (match applyGateEntry e.1.2 e.2 (hget st.1 st.2.1) with
        | Except.ok v => Except.ok (st.1.set st.2.2 v, st.2.2, st.2.1)
        | Except.error msg => Except.error msg) = Except.ok t → BufInv heap0 t := by
    intro st e hP t h
    cases happ : applyGateEntry e.1.2 e.2 (hget st.1 st.2.1) with
    | error msg =>
      rw [happ] at h
      exact absurd h (by simp)
    | ok v =>
      rw [happ] at h
      cases h
      refine ⟨hP.2.1, hP.1, ?_⟩
      intro i hi
      rw [hget_set_ne st.1 (by have := hP.2.1; omega) v]
      exact hP.2.2 i hi
  have hstepOuter : ∀ (st : List (Vec α (2 ^ c.N)) × ℕ × ℕ) (T : ℕ),
      BufInv heap0 st → ∀ t,
      (c.momentGates T).foldlM
        (fun (st : List (Vec α (2 ^ c.N)) × ℕ × ℕ) (e : (ℕ × List ℕ) × Gate α) =>
          match applyGateEntry e.1.2 e.2 (hget st.1 st.2.1) with
          | Except.ok v => Except.ok (st.1.set st.2.2 v, st.2.2, st.2.1)
          | Except.error msg => Except.error msg)
        st = Except.ok t → BufInv heap0 t := by
    intro st T hP t h
    exact foldlM_except_inv hstepInner (c.momentGates T) st hP t h
  have hInit : BufInv heap0
      (((heap0 ++ [hget heap0 uid]) ++ [hget (heap0 ++ [hget heap0 uid]) heap0.length])
          ++ [(fun _ => 0 : Vec α (2 ^ c.N))],
        heap0.length + 1, heap0.length + 2) := by
    refine ⟨Nat.le_add_right _ 1, Nat.le_add_right _ 2, ?_⟩
    intro i hi
    rw [hget_append _ _ (by simp; omega), hget_append _ _ (by simp; omega),
      hget_append _ _ hi]
  have hfin := foldlM_except_inv hstepOuter (List.range c.nmoment) _ hInit st'
    (by exact hrun)
  exact hfin.2.2

/-- Witness for C8: the Hadamard circuit run from a one-buffer heap holding
the reference state leaves that buffer intact. -/
theorem simulateSteps_preserves_input_witness :
    ∃ st', (hCircuit 1).simulateStepsBuf [refState 1] 0 = .ok st'
      ∧ hget st'.1 0 = hget [refState (α := Cx Q2) 1] 0 :=
  ⟨_, by rfl, simulateSteps_preserves_input (hCircuit 1) [refState 1] 0 _ (by rfl) 0
    (by decide)⟩

/-! ### Compression step 2: 1-into-2-body absorption (C4)

The middle block of `Circuit.compressed` (quasar.py): build the
`plan[A][T]` table (1 for a 1-body gate, `2`/`-2` for the first/second
qubit of a 2-body gate), then for every 2-body gate scan each of its
qubits backward for the nearest preceding non-blocked 1-body gate
(absorbed on the left via `np.kron` with the identity), and — only when
`max(abs(plan[q][T+1:nmoment])) == 1`, i.e. when the qubit sees no 2-body
activity at any later moment — absorb the first following 1-body gate on
the right.  Absorbed gates are recorded in `jammed_gates` and skipped by
the final re-add loop. -/

/-- `np.kron` of two 2×2 blocks. -/
def kron2 (X Y : Matrix (Fin 2) (Fin 2) α) : Matrix (Fin 4) (Fin 4) α :=
  Matrix.of (fun i j =>
    X ⟨i.val / 2, by have := i.isLt; omega⟩ ⟨j.val / 2, by have := j.isLt; omega⟩
      * Y ⟨i.val % 2, by omega⟩ ⟨j.val % 2, by omega⟩)

/-- The unitary of a gate known to be 1-body (identity otherwise; the
compressor only reads it behind a `plan` value of `1`). -/
def Gate.asU1 (g : Gate α) : Matrix (Fin 2) (Fin 2) α :=
  match g with
  | ⟨1, U, _, _⟩ => U
  | _ => 1

/-- The unitary of a gate known to be 2-body (identity otherwise). -/
def Gate.asU2 (g : Gate α) : Matrix (Fin 4) (Fin 4) α :=
  match g with
  | ⟨2, U, _, _⟩ => U
  | _ => 1

/-- The `plan` table: `plan A T` is 1 under a 1-body gate, 2 under the
first qubit and -2 under the second qubit of a 2-body gate, else 0.
Each gate writes its cells in turn, the second qubit after the first. -/
def planStep (plan : ℕ → ℕ → ℤ) (e : (ℕ × List ℕ) × Gate α) : ℕ → ℕ → ℤ :=
  if e.2.N = 1 then
    fun A T => if A = e.1.2.headD 0 ∧ T = e.1.1 then 1 else plan A T
  else if e.2.N = 2 then
    fun A T =>
      if A = e.1.2.tail.headD 0 ∧ T = e.1.1 then -2
      else if A = e.1.2.headD 0 ∧ T = e.1.1 then 2
      else plan A T
  else plan

def planOf (gs : List ((ℕ × List ℕ) × Gate α)) : ℕ → ℕ → ℤ :=
  gs.foldl planStep (fun _ _ => 0)

/-- The backward scan `for T2 in range(T-1,-1,-1)`: stop at the first
nonzero plan cell; absorb only if it is a 1-body cell. -/
def scanJam1 (plan : ℕ → ℤ) (T : ℕ) : Option ℕ :=
  match (List.range T).reverse.find? (fun T2 => plan T2 ≠ 0) with
  | some T2 => if plan T2 = 1 then some T2 else none
  | none => none

/-- The right-side guard and scan:
`T+1 < nmoment and max(abs(plan[q][T2]) for T2 in range(T+1, nmoment)) == 1`,
then the first `T3` with `plan[q][T3] == 1`. -/
def rightJamIdx (plan : ℕ → ℤ) (T nm : ℕ) : Option ℕ :=
  if T + 1 < nm
      ∧ (∀ T2 ∈ List.range' (T + 1) (nm - (T + 1)), (plan T2).natAbs ≤ 1)
      ∧ (∃ T2 ∈ List.range' (T + 1) (nm - (T + 1)), (plan T2).natAbs = 1) then
    (List.range' (T + 1) (nm - (T + 1))).find? (fun T2 => plan T2 = 1)
  else none

/-- One 2-body gate of pass 2: the four absorption scans (left `A`, left
`B`, right `A`, right `B`, in source order), the resulting composite
unitary, and the keys of the absorbed 1-body gates. -/
def jamsOfGate (c1 : Circuit α) (nm : ℕ) (e : (ℕ × List ℕ) × Gate α) :
    Matrix (Fin 4) (Fin 4) α × List (ℕ × List ℕ) :=
  let T := e.1.1
  let A := e.1.2.headD 0
  let B := e.1.2.tail.headD 0
  let lA := scanJam1 (planOf c1.gates A) T
  let lB := scanJam1 (planOf c1.gates B) T
  let rA := rightJamIdx (planOf c1.gates A) T nm
  let rB := rightJamIdx (planOf c1.gates B) T nm
  let W0 := e.2.asU2
  let W1 := match lA with
    | some T2 => W0 * kron2 (((c1.gate T2 [A]).getD (Gate.U1 1)).asU1) 1
    | none => W0
  let W2 := match lB with
    | some T2 => W1 * kron2 1 (((c1.gate T2 [B]).getD (Gate.U1 1)).asU1)
    | none => W1
  let W3 := match rA with
    | some T2 => kron2 (((c1.gate T2 [A]).getD (Gate.U1 1)).asU1) 1 * W2
    | none => W2
  let W4 := match rB with
    | some T2 => kron2 1 (((c1.gate T2 [B]).getD (Gate.U1 1)).asU1) * W3
    | none => W3
  (W4, lA.toList.map (fun T2 => (T2, [A])) ++ lB.toList.map (fun T2 => (T2, [B]))
    ++ rA.toList.map (fun T2 => (T2, [A])) ++ rB.toList.map (fun T2 => (T2, [B])))

/-- Compression step 2 (`nm` is the enclosing `compressed()`'s
`self.nmoment`): rebuild the circuit with every 2-body gate replaced by
its jammed composite, then re-add the 1-body gates whose keys were not
absorbed. -/
def compressPass2 (c1 : Circuit α) (nm : ℕ) : Except String (Circuit α) :=
  if c1.gates.all (fun e => e.2.N == 1 || e.2.N == 2) then
    (c1.gates.filter (fun e => e.2.N == 2)).foldlM
        (fun acc (e : (ℕ × List ℕ) × Gate α) =>
          acc.addGate (e.1.1 : ℤ) e.1.2 (Gate.U2 (jamsOfGate c1 nm e).1))
        (Circuit.empty α c1.N)
      >>= fun c2 =>
    (c1.gates.filter (fun e => e.2.N == 1)).foldlM
        (fun acc (e : (ℕ × List ℕ) × Gate α) =>
          if e.1 ∈ (c1.gates.filter (fun f => f.2.N == 2)).flatMap
              (fun f => (jamsOfGate c1 nm f).2) then .ok acc
          else acc.addGate (e.1.1 : ℤ) e.1.2 e.2)
        c2
  else .error "N > 2"

/-- The X gate, used to exhibit a non-identity absorption. -/
def matX : Matrix (Fin 2) (Fin 2) (Cx Q2) :=
  Matrix.of ![![0, 1], ![1, 0]]

/-- 2-body at moment 0, a 1-body on qubit 0 at moment 1, 2-body at
moment 2: the following 1-body gate on qubit 0 is adjacent to the first
2-body gate and not separated from it by any 2-body activity, yet more
2-body activity exists later on the qubit. -/
def cex : Circuit (Cx Q2) :=
  { N := 2,
    gates := [((0, [0, 1]), Gate.U2 1), ((1, [0]), Gate.U1 matX),
      ((2, [0, 1]), Gate.U2 1)],
    Ts := [0, 1, 2],
    TAs := [(0, 0), (0, 1), (1, 0), (2, 0), (2, 1)] }

theorem find?_range'_first {p : ℕ → Bool} :
    ∀ {n s x : ℕ}, (List.range' s n).find? p = some x →
      p x = true ∧ s ≤ x ∧ x < s + n ∧ ∀ y, s ≤ y → y < x → p y = false := by
  intro n
  induction n with
  | zero =>
    intro s x h
    cases h
  | succ n ih =>
    intro s x h
    rw [List.range'_succ s n 1, List.find?_cons] at h
    cases hp : p s with
    | true =>
      rw [hp] at h
      have h2 : some s = some x := h
      cases h2
      exact ⟨hp, Nat.le_refl s, by omega, fun y hy1 hy2 => absurd (hy1.trans_lt hy2)
        (lt_irrefl s)⟩
    | false =>
      rw [hp] at h
      have h2 : (List.range' (s + 1) n).find? p = some x := h
      obtain ⟨h1, hge, hlt, hmin⟩ := ih h2
      refine ⟨h1, by omega, by omega, ?_⟩
      intro y hy1 hy2
      rcases Nat.eq_or_lt_of_le hy1 with rfl | hy
      · exact hp
      · exact hmin y (by omega) hy2

theorem planOf_aux (gs : List ((ℕ × List ℕ) × Gate α)) :
    ∀ p0 : ℕ → ℕ → ℤ,
    (∀ A T, p0 A T = 0 ∨ p0 A T = 1 ∨ p0 A T = 2 ∨ p0 A T = -2) →
    ∀ A T, (gs.foldl planStep p0) A T = 0 ∨ (gs.foldl planStep p0) A T = 1
      ∨ (gs.foldl planStep p0) A T = 2 ∨ (gs.foldl planStep p0) A T = -2 := by
  induction gs with
  | nil =>
    intro p0 h0 A T
    exact h0 A T
  | cons e gs ih =>
    intro p0 h0 A T
    rw [List.foldl_cons]
    apply ih
    intro A T
    unfold planStep
    by_cases h1 : e.2.N = 1
    · rw [if_pos h1]
      by_cases hc : A = e.1.2.headD 0 ∧ T = e.1.1
      · rw [if_pos hc]
        exact Or.inr (Or.inl rfl)
      · rw [if_neg hc]
        exact h0 A T
    · rw [if_neg h1]
      by_cases h2 : e.2.N = 2
      · rw [if_pos h2]
        by_cases hc : A = e.1.2.tail.headD 0 ∧ T = e.1.1
        · rw [if_pos hc]
          exact Or.inr (Or.inr (Or.inr rfl))
        · rw [if_neg hc]
          by_cases hc2 : A = e.1.2.headD 0 ∧ T = e.1.1
          · rw [if_pos hc2]
            exact Or.inr (Or.inr (Or.inl rfl))
          · rw [if_neg hc2]
            exact h0 A T
      · rw [if_neg h2]
        exact h0 A T

theorem planOf_values (gs : List ((ℕ × List ℕ) × Gate α)) (A T : ℕ) :
    planOf gs A T = 0 ∨ planOf gs A T = 1 ∨ planOf gs A T = 2 ∨ planOf gs A T = -2 :=
  planOf_aux gs _ (fun _ _ => Or.inl rfl) A T

theorem scanJam1_lt {plan : ℕ → ℤ} {T T2 : ℕ} (h : scanJam1 plan T = some T2) :
    T2 < T := by
  unfold scanJam1 at h
  cases hf : (List.range T).reverse.find? (fun T2 => decide (plan T2 ≠ 0)) with
  | none =>
    rw [hf] at h
    cases h
  | some T3 =>
    rw [hf] at h
    have h2 : (if plan T3 = 1 then some T3 else none) = some T2 := h
    by_cases hp : plan T3 = 1
    · rw [if_pos hp] at h2
      cases h2
      have hm := List.mem_of_find?_eq_some hf
      rw [List.mem_reverse, List.mem_range] at hm
      exact hm
    · rw [if_neg hp] at h2
      cases h2

theorem rightJamIdx_some {plan : ℕ → ℤ} {T nm T2 : ℕ}
    (hvals : ∀ t, plan t = 0 ∨ plan t = 1 ∨ plan t = 2 ∨ plan t = -2)
    (h : rightJamIdx plan T nm = some T2) :
    T + 1 < nm ∧ (∀ t, T < t → t < nm → plan t ≠ 2 ∧ plan t ≠ -2)
      ∧ plan T2 = 1 ∧ T < T2 ∧ T2 < nm
      ∧ ∀ t, T < t → t < T2 → plan t ≠ 1 := by
  unfold rightJamIdx at h
  split at h
  case isTrue hcond =>
    obtain ⟨hlt, hall, -⟩ := hcond
    obtain ⟨hp, hge, hlt2, hmin⟩ := find?_range'_first h
    have hnm : T + 1 + (nm - (T + 1)) = nm := by omega
    refine ⟨hlt, ?_, by simpa using hp, by omega, by omega, ?_⟩
    · intro t ht1 ht2
      have habs := hall t (List.mem_range'_1.mpr ⟨by omega, by omega⟩)
      constructor
      · intro heq
        rw [heq] at habs
        exact absurd habs (by decide)
      · intro heq
        rw [heq] at habs
        exact absurd habs (by decide)
    · intro t ht1 ht2
      have hfy := hmin t (by omega) ht2
      simpa using hfy
  case isFalse => cases h

theorem rightJamIdx_of_clear {plan : ℕ → ℤ} {T nm : ℕ}
    (hvals : ∀ t, plan t = 0 ∨ plan t = 1 ∨ plan t = 2 ∨ plan t = -2)
    (hlt : T + 1 < nm)
    (hno2 : ∀ t, T < t → t < nm → plan t ≠ 2 ∧ plan t ≠ -2)
    (hone : ∃ t, T < t ∧ t < nm ∧ plan t = 1) :
    ∃ T2, rightJamIdx plan T nm = some T2 := by
  obtain ⟨t1, ht1, ht2, ht3⟩ := hone
  unfold rightJamIdx
  rw [if_pos]
  · have : ∃ x ∈ List.range' (T + 1) (nm - (T + 1)),
        (fun T2 => decide (plan T2 = 1)) x = true :=
      ⟨t1, List.mem_range'_1.mpr ⟨by omega, by omega⟩, by simpa using ht3⟩
    have hsome := List.find?_isSome.mpr this
    cases hf : (List.range' (T + 1) (nm - (T + 1))).find? (fun T2 => decide (plan T2 = 1)) with
    | none =>
      rw [hf] at hsome
      cases hsome
    | some T2 => exact ⟨T2, rfl⟩
  · refine ⟨hlt, ?_, ?_⟩
    · intro t hm
      rw [List.mem_range'_1] at hm
      rcases hvals t with h0 | h0 | h0 | h0 <;> rw [h0] <;> first
        | decide
        | (exact absurd h0 ((hno2 t (by omega) (by omega)).1))
        | (exact absurd h0 ((hno2 t (by omega) (by omega)).2))
    · exact ⟨t1, List.mem_range'_1.mpr ⟨by omega, by omega⟩, by rw [ht3]; decide⟩

/-- **C4 (corrected).**  In compression step 2, for a 2-body gate at
`(T, [A, B])` the right-side absorption on qubit `A` fires exactly when
some later moment holds a 1-body gate on `A` AND no later moment at all
(up to `nmoment`) holds 2-body activity on `A` — not merely when no
2-body activity intervenes before the nearest following 1-body gate, as
the specification states; when it fires, the gate absorbed is the
nearest following 1-body gate on `A`. -/
theorem compress2_right_fold_iff (c1 : Circuit α) (nm T A B : ℕ) (g : Gate α)
    (hAB : A ≠ B) :
    ((∃ T2, T < T2 ∧ (T2, [A]) ∈ (jamsOfGate c1 nm ((T, [A, B]), g)).2)
        ↔ (T + 1 < nm
            ∧ (∀ T2, T < T2 → T2 < nm →
                planOf c1.gates A T2 ≠ 2 ∧ planOf c1.gates A T2 ≠ -2)
            ∧ ∃ T2, T < T2 ∧ T2 < nm ∧ planOf c1.gates A T2 = 1))
      ∧ ∀ T2, T < T2 → (T2, [A]) ∈ (jamsOfGate c1 nm ((T, [A, B]), g)).2 →
          planOf c1.gates A T2 = 1
            ∧ ∀ T3, T < T3 → T3 < T2 → planOf c1.gates A T3 ≠ 1 := by
  have hmem : ∀ T2, (T2, [A]) ∈ (jamsOfGate c1 nm ((T, [A, B]), g)).2
      ↔ (scanJam1 (planOf c1.gates A) T = some T2
          ∨ rightJamIdx (planOf c1.gates A) T nm = some T2) := by
    intro T2
    show (T2, [A]) ∈
        (scanJam1 (planOf c1.gates A) T).toList.map (fun t => (t, [A]))
          ++ (scanJam1 (planOf c1.gates B) T).toList.map (fun t => (t, [B]))
          ++ (rightJamIdx (planOf c1.gates A) T nm).toList.map (fun t => (t, [A]))
          ++ (rightJamIdx (planOf c1.gates B) T nm).toList.map (fun t => (t, [B]))
        ↔ _
    simp only [List.mem_append, List.mem_map, Option.mem_toList, Option.mem_def]
    constructor
    · rintro (((⟨t, ht, heq⟩ | ⟨t, ht, heq⟩) | ⟨t, ht, heq⟩) | ⟨t, ht, heq⟩)
      · obtain ⟨h1, h2⟩ := Prod.mk.inj heq
        subst h1
        exact Or.inl ht
      · obtain ⟨h1, h2⟩ := Prod.mk.inj heq
        exact absurd (List.cons.inj h2.symm).1 hAB
      · obtain ⟨h1, h2⟩ := Prod.mk.inj heq
        subst h1
        exact Or.inr ht
      · obtain ⟨h1, h2⟩ := Prod.mk.inj heq
        exact absurd (List.cons.inj h2.symm).1 hAB
    · rintro (h | h)
      · exact Or.inl (Or.inl (Or.inl ⟨T2, h, rfl⟩))
      · exact Or.inl (Or.inr ⟨T2, h, rfl⟩)
  constructor
  · constructor
    · rintro ⟨T2, hT2, hm⟩
      rcases (hmem T2).mp hm with h | h
      · exact absurd (scanJam1_lt h) (by omega)
      · obtain ⟨h1, h2, h3, h4, h5, h6⟩ :=
          rightJamIdx_some (planOf_values c1.gates A) h
        exact ⟨h1, h2, T2, h4, h5, h3⟩
    · rintro ⟨h1, h2, h3⟩
      obtain ⟨T2, hT2⟩ :=
        rightJamIdx_of_clear (planOf_values c1.gates A) h1 h2 h3
      obtain ⟨-, -, -, h4, -, -⟩ :=
        rightJamIdx_some (planOf_values c1.gates A) hT2
      exact ⟨T2, h4, (hmem T2).mpr (Or.inr hT2)⟩
  · intro T2 hT2 hm
    rcases (hmem T2).mp hm with h | h
    · exact absurd (scanJam1_lt h) (by omega)
    · obtain ⟨-, -, h3, -, -, h6⟩ :=
        rightJamIdx_some (planOf_values c1.gates A) h
      exact ⟨h3, h6⟩

/-- Witness for C4 at the first 2-body gate of `cex` on qubit 0: the
characterization holds there (both sides of the equivalence are false —
a later 1-body gate exists at moment 1 but moment 2 holds 2-body
activity on the qubit). -/
theorem compress2_right_fold_iff_witness :
    (0 : ℕ) ≠ 1
    ∧ (((∃ T2, 0 < T2 ∧ (T2, [0]) ∈ (jamsOfGate cex 3 ((0, [0, 1]), Gate.U2 1)).2)
        ↔ (0 + 1 < 3
            ∧ (∀ T2, 0 < T2 → T2 < 3 →
                planOf cex.gates 0 T2 ≠ 2 ∧ planOf cex.gates 0 T2 ≠ -2)
            ∧ ∃ T2, 0 < T2 ∧ T2 < 3 ∧ planOf cex.gates 0 T2 = 1))
      ∧ ∀ T2, 0 < T2 → (T2, [0]) ∈ (jamsOfGate cex 3 ((0, [0, 1]), Gate.U2 1)).2 →
          planOf cex.gates 0 T2 = 1
            ∧ ∀ T3, 0 < T3 → T3 < T2 → planOf cex.gates 0 T3 ≠ 1) :=
  ⟨by decide, compress2_right_fold_iff cex 3 0 0 1 (Gate.U2 1) (by decide)⟩

/-- **C4, counterexample to the stated rule.**  In `cex`, the nearest
following 1-body gate on qubit 0 after the 2-body gate at moment 0 sits
at moment 1 (`plan` value 1) with no intervening 2-body activity, yet
pass 2 leaves the moment-0 gate's unitary untouched because qubit 0 sees
2-body activity at moment 2 (`plan` value 2); the 1-body gate is instead
absorbed on the left into the moment-2 gate, and the predicted right
fold `kron(X, I) · U` differs from the untouched `U`. -/
theorem compress2_not_nearest :
    planOf cex.gates 0 1 = 1
    ∧ planOf cex.gates 0 2 = 2
    ∧ (∃ c', compressPass2 cex cex.nmoment = .ok c'
        ∧ c'.gate 0 [0, 1] = some (Gate.U2 1)
        ∧ c'.gate 2 [0, 1]
            = some (Gate.U2 ((1 : Matrix (Fin 4) (Fin 4) (Cx Q2)) * kron2 matX 1))
        ∧ c'.gate 1 [0] = none)
    ∧ kron2 matX (1 : Matrix (Fin 2) (Fin 2) (Cx Q2)) * (1 : Matrix (Fin 4) (Fin 4) (Cx Q2))
        ≠ (1 : Matrix (Fin 4) (Fin 4) (Cx Q2)) := by
  refine ⟨rfl, rfl, ⟨_, rfl, rfl, rfl, rfl⟩, ?_⟩
  intro h
  rw [Matrix.mul_one] at h
  have h2 : kron2 matX (1 : Matrix (Fin 2) (Fin 2) (Cx Q2)) 0 0
      = (1 : Matrix (Fin 4) (Fin 4) (Cx Q2)) 0 0 := by rw [h]
  have hL : kron2 matX (1 : Matrix (Fin 2) (Fin 2) (Cx Q2)) 0 0 = 0 := by
    show matX 0 0 * (1 : Matrix (Fin 2) (Fin 2) (Cx Q2)) 0 0 = 0
    rw [show matX 0 0 = 0 from rfl, zero_mul]
  have hR : (1 : Matrix (Fin 4) (Fin 4) (Cx Q2)) 0 0 = 1 := Matrix.one_apply_eq 0
  rw [hL, hR] at h2
  have h3 := congrArg (fun z : Cx Q2 => z.re.a) h2
  norm_num at h3

/-! ### Algebra of gate application (towards C1)

Fusion, commutation and absorption identities for `bApply1` / `bApply2`,
the bit-level forms of `apply_gate_1` / `apply_gate_2`.  These are the
semantic content of the compressor's `np.dot` / `np.kron` /
`einsum('ijkl->jilk')` manipulations. -/

theorem sum_pairFin (g : Fin 4 → α) :
    ∑ p : Fin 4, g p = ∑ k : Fin 2, ∑ l : Fin 2, g (pairFin k l) := by
  rw [Fin.sum_univ_four, Fin.sum_univ_two (f := fun k => ∑ l : Fin 2, g (pairFin k l))]
  rw [Fin.sum_univ_two, Fin.sum_univ_two]
  have h00 : pairFin 0 0 = (0 : Fin 4) := rfl
  have h01 : pairFin 0 1 = (1 : Fin 4) := rfl
  have h10 : pairFin 1 0 = (2 : Fin 4) := rfl
  have h11 : pairFin 1 1 = (3 : Fin 4) := rfl
  rw [h00, h01, h10, h11]
  ring

theorem bApply1_comp {n : ℕ} (U V : Matrix (Fin 2) (Fin 2) α) (A : Fin n)
    (f : (Fin n → Fin 2) → α) :
    bApply1 U A (bApply1 V A f) = bApply1 (U * V) A f := by
  funext b
  unfold bApply1
  simp only [Function.update_same, Function.update_idem, Finset.mul_sum]
  rw [Finset.sum_comm]
  apply Finset.sum_congr rfl
  intro k _
  rw [Matrix.mul_apply, Finset.sum_mul]
  apply Finset.sum_congr rfl
  intro j _
  ring

theorem bApply1_comm {n : ℕ} (U V : Matrix (Fin 2) (Fin 2) α) (A B : Fin n)
    (hAB : A ≠ B) (f : (Fin n → Fin 2) → α) :
    bApply1 U A (bApply1 V B f) = bApply1 V B (bApply1 U A f) := by
  funext b
  unfold bApply1
  simp only [Function.update_noteq (Ne.symm hAB), Function.update_noteq hAB,
    Finset.mul_sum]
  rw [Finset.sum_comm]
  apply Finset.sum_congr rfl
  intro k _
  apply Finset.sum_congr rfl
  intro j _
  rw [Function.update_comm hAB]
  ring

theorem pairFin_00 : pairFin 0 0 = (0 : Fin 4) := rfl

theorem pairFin_01 : pairFin 0 1 = (1 : Fin 4) := rfl

theorem pairFin_10 : pairFin 1 0 = (2 : Fin 4) := rfl

theorem pairFin_11 : pairFin 1 1 = (3 : Fin 4) := rfl

theorem update2_absorb {n : ℕ} {A B : Fin n} (hAB : A ≠ B) (b : Fin n → Fin 2)
    (k l k2 l2 : Fin 2) :
    Function.update (Function.update
        (Function.update (Function.update b A k) B l) A k2) B l2
      = Function.update (Function.update b A k2) B l2 := by
  funext x
  rcases eq_or_ne x B with rfl | hxB
  · simp only [Function.update_same]
  · rcases eq_or_ne x A with rfl | hxA
    · simp only [Function.update_noteq hAB, Function.update_same]
    · simp only [Function.update_noteq hxA, Function.update_noteq hxB]

theorem bApply2_comp {n : ℕ} (U V : Matrix (Fin 4) (Fin 4) α) (A B : Fin n)
    (hAB : A ≠ B) (f : (Fin n → Fin 2) → α) :
    bApply2 U A B (bApply2 V A B f) = bApply2 (U * V) A B f := by
  funext b
  unfold bApply2
  simp only [Function.update_same, Function.update_noteq hAB,
    Function.update_noteq (Ne.symm hAB), update2_absorb hAB, Matrix.mul_apply]
  simp only [Fin.sum_univ_two, Fin.sum_univ_four, pairFin_00, pairFin_01,
    pairFin_10, pairFin_11]
  ring

theorem kron2_pairFin (X Y : Matrix (Fin 2) (Fin 2) α) (i j k l : Fin 2) :
    kron2 X Y (pairFin i j) (pairFin k l) = X i k * Y j l := by
  unfold kron2 pairFin
  rw [Matrix.of_apply]
  have hi := i.isLt
  have hj := j.isLt
  have hk := k.isLt
  have hl := l.isLt
  congr 1
  · congr 1 <;> apply Fin.ext <;> simp only <;> omega
  · congr 1 <;> apply Fin.ext <;> simp only <;> omega

theorem bApply2_swap {n : ℕ} (U : Matrix (Fin 4) (Fin 4) α) (A B : Fin n)
    (hAB : A ≠ B) (f : (Fin n → Fin 2) → α) :
    bApply2 (legSwap U) B A f = bApply2 U A B f := by
  funext b
  unfold bApply2
  simp only [legSwap_pairFin, Function.update_comm (Ne.symm hAB)]
  simp only [Fin.sum_univ_two]
  ring

theorem bApply2_kron_left {n : ℕ} (V : Matrix (Fin 2) (Fin 2) α) (A B : Fin n)
    (hAB : A ≠ B) (f : (Fin n → Fin 2) → α) :
    bApply2 (kron2 V 1) A B f = bApply1 V A f := by
  funext b
  unfold bApply2 bApply1
  simp only [kron2_pairFin, Matrix.one_apply, mul_ite, mul_one, mul_zero,
    ite_mul, zero_mul]
  rw [show (∑ k : Fin 2, ∑ l : Fin 2,
      if b B = l then V (b A) k * f (Function.update (Function.update b A k) B l)
      else 0)
    = ∑ k : Fin 2, V (b A) k
        * f (Function.update (Function.update b A k) B (b B)) from
    Finset.sum_congr rfl (fun k _ => by
      rw [Finset.sum_ite_eq]
      exact if_pos (Finset.mem_univ _))]
  apply Finset.sum_congr rfl
  intro k _
  rw [show b B = (Function.update b A k) B from
      (Function.update_noteq (Ne.symm hAB) _ _).symm,
    Function.update_eq_self]

theorem bApply2_kron_right {n : ℕ} (V : Matrix (Fin 2) (Fin 2) α) (A B : Fin n)
    (f : (Fin n → Fin 2) → α) :
    bApply2 (kron2 1 V) A B f = bApply1 V B f := by
  funext b
  unfold bApply2 bApply1
  simp only [kron2_pairFin, Matrix.one_apply, mul_ite, mul_one, mul_zero,
    ite_mul, zero_mul, one_mul]
  rw [show (∑ k : Fin 2, ∑ l : Fin 2,
      if b A = k then V (b B) l * f (Function.update (Function.update b A k) B l)
      else 0)
    = ∑ k : Fin 2, if b A = k then
        ∑ l : Fin 2, V (b B) l * f (Function.update (Function.update b A k) B l)
      else 0 from
    Finset.sum_congr rfl (fun k _ => by split <;> simp)]
  rw [Finset.sum_ite_eq, if_pos (Finset.mem_univ _)]
  simp only [Function.update_eq_self]

theorem bApply1_bApply2_comm {n : ℕ} (U : Matrix (Fin 2) (Fin 2) α)
    (V : Matrix (Fin 4) (Fin 4) α) (C A B : Fin n) (hCA : C ≠ A) (hCB : C ≠ B)
    (f : (Fin n → Fin 2) → α) :
    bApply1 U C (bApply2 V A B f) = bApply2 V A B (bApply1 U C f) := by
  funext b
  have hupd3 : ∀ (j k l : Fin 2),
      Function.update (Function.update (Function.update b C j) A k) B l
        = Function.update (Function.update (Function.update b A k) B l) C j := by
    intro j k l
    funext x
    rcases eq_or_ne x B with rfl | hxB
    · simp only [Function.update_same, Function.update_noteq (Ne.symm hCB)]
    · rcases eq_or_ne x A with rfl | hxA
      · simp only [Function.update_noteq hxB, Function.update_same,
          Function.update_noteq (Ne.symm hCA)]
      · rcases eq_or_ne x C with rfl | hxC
        · simp only [Function.update_noteq hCA, Function.update_noteq hCB,
            Function.update_same]
        · simp only [Function.update_noteq hxA, Function.update_noteq hxB,
            Function.update_noteq hxC]
  unfold bApply1 bApply2
  simp only [Function.update_noteq (Ne.symm hCA), Function.update_noteq (Ne.symm hCB),
    Function.update_noteq hCA, Function.update_noteq hCB, hupd3]
  simp only [Fin.sum_univ_two]
  ring

theorem bApply2_bApply2_comm {n : ℕ} (U V : Matrix (Fin 4) (Fin 4) α)
    (C D A B : Fin n) (hCA : C ≠ A) (hCB : C ≠ B) (hDA : D ≠ A) (hDB : D ≠ B)
    (f : (Fin n → Fin 2) → α) :
    bApply2 U C D (bApply2 V A B f) = bApply2 V A B (bApply2 U C D f) := by
  funext b
  have hupd4 : ∀ (j m k l : Fin 2),
      Function.update (Function.update
          (Function.update (Function.update b C j) D m) A k) B l
        = Function.update (Function.update
          (Function.update (Function.update b A k) B l) C j) D m := by
    intro j m k l
    funext x
    rcases eq_or_ne x B with rfl | hxB
    · simp only [Function.update_same, Function.update_noteq (Ne.symm hCB),
        Function.update_noteq (Ne.symm hDB)]
    · rcases eq_or_ne x A with rfl | hxA
      · simp only [Function.update_noteq hxB, Function.update_same,
          Function.update_noteq (Ne.symm hCA), Function.update_noteq (Ne.symm hDA)]
      · rcases eq_or_ne x D with rfl | hxD
        · simp only [Function.update_noteq hDA, Function.update_noteq hDB,
            Function.update_same]
        · rcases eq_or_ne x C with rfl | hxC
          · simp only [Function.update_noteq hCA, Function.update_noteq hCB,
              Function.update_noteq hxD, Function.update_same]
          · simp only [Function.update_noteq hxA, Function.update_noteq hxB,
              Function.update_noteq hxC, Function.update_noteq hxD]
  unfold bApply2
  simp only [Function.update_noteq (Ne.symm hCA), Function.update_noteq (Ne.symm hCB),
    Function.update_noteq (Ne.symm hDA), Function.update_noteq (Ne.symm hDB),
    Function.update_noteq hCA, Function.update_noteq hCB,
    Function.update_noteq hDA, Function.update_noteq hDB, hupd4]
  simp only [Fin.sum_univ_two]
  ring

/-! ### Op-level semantics and scheduling (towards C1)

A circuit entry `((T, key), gate)` acts on bit-assignment states through
`bop`; key-disjoint ops commute, and executing a moment-major schedule is
invariant under regroupings that preserve the relative order of
interfering ops. -/

/-- The action of one circuit entry on a bit-assignment state.  For a
2-body key `[A, B]` with `A > B` this is the same action `apply_gate_2`
realizes through the `ijkl->jilk` leg swap (`bApply2_swap`). -/
def bop {n : ℕ} (e : (ℕ × List ℕ) × Gate α) (f : (Fin n → Fin 2) → α) :
    (Fin n → Fin 2) → α :=
  match e.2, e.1.2 with
  | ⟨1, U, _, _⟩, [A] => if hA : A < n then bApply1 U ⟨A, hA⟩ f else f
  | ⟨2, U, _, _⟩, [A, B] =>
      if h : A < n ∧ B < n then bApply2 U ⟨A, h.1⟩ ⟨B, h.2⟩ f else f
  | _, _ => f

/-- An entry the simulator can apply: key length matches the arity, the
arity is 1 or 2, the qubits are distinct and in range. -/
def OpValid (n : ℕ) (e : (ℕ × List ℕ) × Gate α) : Prop :=
  e.1.2.length = e.2.N ∧ (e.2.N = 1 ∨ e.2.N = 2) ∧ e.1.2.Nodup ∧ ∀ A ∈ e.1.2, A < n

/-- On valid entries `apply_gate_1` / `apply_gate_2` (as dispatched by the
simulator loop) succeed and realize `bop`. -/
theorem applyGateEntry_bop {n : ℕ} (e : (ℕ × List ℕ) × Gate α) (hv : OpValid n e)
    (w : Vec α (2 ^ n)) :
    ∃ v, applyGateEntry e.1.2 e.2 w = .ok v ∧ trv v = bop (n := n) e (trv w) := by
  obtain ⟨⟨T, key⟩, N, U, params, name⟩ := e
  obtain ⟨hlen, harity, hnd, hrange⟩ := hv
  rcases harity with h1 | h2
  · subst h1
    match key, hlen with
    | [A], _ =>
      have hA : A < n := hrange A (by simp)
      refine ⟨applyGate1Core U A hA w, ?_, ?_⟩
      · show applyGate1 U A w = _
        rw [applyGate1, dif_pos hA]
      · rw [applyGate1Core_trv]
        show _ = if hA2 : A < n then bApply1 U ⟨A, hA2⟩ (trv w) else trv w
        rw [dif_pos hA]
  · subst h2
    match key, hlen with
    | [A, B], _ =>
      have hA : A < n := hrange A (by simp)
      have hB : B < n := hrange B (by simp)
      have hAB : A ≠ B := by
        simp only [List.nodup_cons, List.mem_singleton] at hnd
        exact hnd.1
      have hbop : bop (n := n) ((T, [A, B]), (⟨2, U, params, name⟩ : Gate α)) (trv w)
          = bApply2 U ⟨A, hA⟩ ⟨B, hB⟩ (trv w) := by
        show (if h : A < n ∧ B < n then bApply2 U ⟨A, h.1⟩ ⟨B, h.2⟩ (trv w) else trv w)
          = _
        rw [dif_pos ⟨hA, hB⟩]
      show ∃ v, applyGate2 U A B w = .ok v ∧ _
      unfold applyGate2
      rw [dif_neg (by omega), dif_neg (by omega), dif_neg hAB]
      by_cases hBA : B < A
      · rw [dif_pos hBA]
        refine ⟨_, rfl, ?_⟩
        rw [hbop, applyGate2Core_trv]
        exact bApply2_swap U ⟨A, hA⟩ ⟨B, hB⟩
          (fun hEq => hAB (congrArg Fin.val hEq)) (trv w)
      · rw [dif_neg hBA]
        refine ⟨_, rfl, ?_⟩
        rw [hbop, applyGate2Core_trv]

/-- Execution of a list of entries, first entry applied first. -/
def bexec {n : ℕ} (l : List ((ℕ × List ℕ) × Gate α))
    (f : (Fin n → Fin 2) → α) : (Fin n → Fin 2) → α :=
  l.foldl (fun f e => bop e f) f

theorem bexec_nil {n : ℕ} (f : (Fin n → Fin 2) → α) : bexec [] f = f := rfl

theorem bexec_cons {n : ℕ} (e : (ℕ × List ℕ) × Gate α) (l) (f : (Fin n → Fin 2) → α) :
    bexec (e :: l) f = bexec l (bop e f) := rfl

theorem bexec_append {n : ℕ} (l1 l2 : List ((ℕ × List ℕ) × Gate α))
    (f : (Fin n → Fin 2) → α) : bexec (l1 ++ l2) f = bexec l2 (bexec l1 f) :=
  List.foldl_append _ _ _ _

/-- Entries touching disjoint qubit sets. -/
def opsDisjoint (e1 e2 : (ℕ × List ℕ) × Gate α) : Prop :=
  ∀ A ∈ e1.1.2, A ∉ e2.1.2

theorem opsDisjoint_symm {e1 e2 : (ℕ × List ℕ) × Gate α}
    (h : opsDisjoint e1 e2) : opsDisjoint e2 e1 :=
  fun A hA hA2 => h A hA2 hA

/-- Every entry acts as the identity, a 1-body application at a key
qubit, or a 2-body application at two key qubits. -/
theorem bop_cases {n : ℕ} (e : (ℕ × List ℕ) × Gate α) :
    (∀ f : (Fin n → Fin 2) → α, bop e f = f)
    ∨ (∃ (A : Fin n) (U : Matrix (Fin 2) (Fin 2) α), (A : ℕ) ∈ e.1.2
        ∧ ∀ f, bop e f = bApply1 U A f)
    ∨ (∃ (A B : Fin n) (U : Matrix (Fin 4) (Fin 4) α), (A : ℕ) ∈ e.1.2
        ∧ (B : ℕ) ∈ e.1.2 ∧ ∀ f, bop e f = bApply2 U A B f) := by
  obtain ⟨⟨T, key⟩, N, U, params, name⟩ := e
  match N, key with
  | 0, key => exact Or.inl (fun f => rfl)
  | 1, [] => exact Or.inl (fun f => rfl)
  | 1, [A] =>
    by_cases hA : A < n
    · refine Or.inr (Or.inl ⟨⟨A, hA⟩, U, by simp, fun f => ?_⟩)
      show (if hA2 : A < n then bApply1 U ⟨A, hA2⟩ f else f) = _
      rw [dif_pos hA]
    · refine Or.inl (fun f => ?_)
      show (if hA2 : A < n then bApply1 U ⟨A, hA2⟩ f else f) = f
      rw [dif_neg hA]
  | 1, A :: B :: rest => exact Or.inl (fun f => rfl)
  | 2, [] => exact Or.inl (fun f => rfl)
  | 2, [A] => exact Or.inl (fun f => rfl)
  | 2, [A, B] =>
    by_cases h : A < n ∧ B < n
    · refine Or.inr (Or.inr ⟨⟨A, h.1⟩, ⟨B, h.2⟩, U, by simp, by simp, fun f => ?_⟩)
      show (if h2 : A < n ∧ B < n then bApply2 U ⟨A, h2.1⟩ ⟨B, h2.2⟩ f else f) = _
      rw [dif_pos h]
    · refine Or.inl (fun f => ?_)
      show (if h2 : A < n ∧ B < n then bApply2 U ⟨A, h2.1⟩ ⟨B, h2.2⟩ f else f) = f
      rw [dif_neg h]
  | 2, A :: B :: C :: rest => exact Or.inl (fun f => rfl)
  | (M + 3), key => exact Or.inl (fun f => rfl)

/-- Key-disjoint entries commute. -/
theorem bop_comm {n : ℕ} (e1 e2 : (ℕ × List ℕ) × Gate α)
    (hd : opsDisjoint e1 e2) (f : (Fin n → Fin 2) → α) :
    bop e1 (bop e2 f) = bop e2 (bop e1 f) := by
  have hne : ∀ (A B : Fin n), (A : ℕ) ∈ e1.1.2 → (B : ℕ) ∈ e2.1.2 → A ≠ B :=
    fun A B hA hB hEq => hd A hA (by rw [congrArg Fin.val hEq]; exact hB)
  rcases bop_cases (n := n) e1 with h1 | ⟨A1, U1, hA1, h1⟩ | ⟨A1, B1, U1, hA1, hB1, h1⟩ <;>
    rcases bop_cases (n := n) e2 with h2 | ⟨A2, U2, hA2, h2⟩ | ⟨A2, B2, U2, hA2, hB2, h2⟩
  · simp only [h1, h2]
  · simp only [h1, h2]
  · simp only [h1, h2]
  · simp only [h1, h2]
  · simp only [h1, h2]
    exact bApply1_comm U1 U2 A1 A2 (hne A1 A2 hA1 hA2) f
  · simp only [h1, h2]
    exact (bApply1_bApply2_comm U1 U2 A1 A2 B2 (hne A1 A2 hA1 hA2)
      (hne A1 B2 hA1 hB2) f)
  · simp only [h1, h2]
  · simp only [h1, h2]
    exact (bApply1_bApply2_comm U2 U1 A2 A1 B1 (hne A1 A2 hA1 hA2).symm
      (hne B1 A2 hB1 hA2).symm f).symm
  · simp only [h1, h2]
    exact bApply2_bApply2_comm U1 U2 A1 B1 A2 B2 (hne A1 A2 hA1 hA2)
      (hne A1 B2 hA1 hB2) (hne B1 A2 hB1 hA2) (hne B1 B2 hB1 hB2) f

theorem foldl_extract_front {β σ : Type} (act : σ → β → σ)
    (Comm : β → β → Prop)
    (hComm : ∀ x y, Comm x y → ∀ s, act (act s x) y = act (act s y) x)
    (a : β) :
    ∀ (xs : List β), (∀ x ∈ xs, Comm a x) →
    ∀ (ys : List β) (s : σ),
      (xs ++ a :: ys).foldl act s = (a :: (xs ++ ys)).foldl act s := by
  intro xs
  induction xs with
  | nil =>
    intro _ ys s
    rfl
  | cons x xs ih =>
    intro h ys s
    rw [List.cons_append, List.foldl_cons,
      ih (fun y hy => h y (List.mem_cons_of_mem _ hy)) ys (act s x),
      List.foldl_cons, List.foldl_cons, List.cons_append, List.foldl_cons]
    rw [(hComm a x (h x (List.mem_cons_self _ _)) s).symm]

theorem foldl_filter_split {β σ : Type} (act : σ → β → σ)
    (Comm : β → β → Prop)
    (hComm : ∀ x y, Comm x y → ∀ s, act (act s x) y = act (act s y) x)
    (p : β → Bool) :
    ∀ (l : List β),
      l.Pairwise (fun x y => p x = false → p y = true → Comm x y) →
    ∀ s, l.foldl act s
      = (l.filter p ++ l.filter (fun x => ! p x)).foldl act s := by
  intro l
  induction l with
  | nil =>
    intro _ s
    rfl
  | cons a l ih =>
    intro hpw s
    obtain ⟨ha, hl⟩ := List.pairwise_cons.mp hpw
    rw [List.foldl_cons, ih hl (act s a), List.filter_cons, List.filter_cons]
    cases hp : p a with
    | true =>
      rw [if_pos rfl, if_neg (by decide), List.cons_append, List.foldl_cons]
    | false =>
      rw [if_neg (by decide), if_pos (by decide)]
      rw [foldl_extract_front act Comm hComm a (l.filter p)
        (fun x hx => ha x (List.mem_of_mem_filter hx) hp (List.of_mem_filter hx))
        (l.filter (fun x => ! p x)) s]
      rw [List.foldl_cons]

/-- Regrouping theorem: executing a tagged schedule equals executing the
groups in tag order, provided (1) whenever an entry precedes another with
a strictly smaller tag the two are key-disjoint, and (2) each tag class,
in schedule order, executes like its output segment. -/
theorem bexec_master {n : ℕ} :
    ∀ (m : ℕ) (tl : List (ℕ × ((ℕ × List ℕ) × Gate α)))
      (out : ℕ → List ((ℕ × List ℕ) × Gate α)),
    (∀ e ∈ tl, e.1 < m) →
    tl.Pairwise (fun a b => b.1 < a.1 → opsDisjoint a.2 b.2) →
    (∀ i, i < m → ∀ f : (Fin n → Fin 2) → α,
      bexec ((tl.filter (fun e => e.1 = i)).map Prod.snd) f = bexec (out i) f) →
    ∀ f : (Fin n → Fin 2) → α,
      bexec (tl.map Prod.snd) f = bexec ((List.range m).flatMap out) f := by
  have hfoldmap : ∀ (l : List (ℕ × ((ℕ × List ℕ) × Gate α)))
      (g : (Fin n → Fin 2) → α),
      bexec (l.map Prod.snd) g
        = l.foldl (fun f (e : ℕ × ((ℕ × List ℕ) × Gate α)) => bop e.2 f) g :=
    fun l g => List.foldl_map _ _ _ _
  have hComm : ∀ (x y : ℕ × ((ℕ × List ℕ) × Gate α)),
      opsDisjoint x.2 y.2 → ∀ s : (Fin n → Fin 2) → α,
      bop y.2 (bop x.2 s) = bop x.2 (bop y.2 s) :=
    fun x y hxy s => bop_comm y.2 x.2 (opsDisjoint_symm hxy) s
  intro m
  induction m with
  | zero =>
    intro tl out htag hpw hsem f
    cases tl with
    | nil => rfl
    | cons e tl => exact absurd (htag e (List.mem_cons_self _ _)) (by omega)
  | succ m ih =>
    intro tl out htag hpw hsem f
    rw [hfoldmap]
    rw [foldl_filter_split _ (fun a b => opsDisjoint a.2 b.2) hComm
      (fun e => decide (e.1 = 0)) tl
      (hpw.imp_of_mem (fun {a b} _ _ hR hfa hfb => by
        simp only [decide_eq_false_iff_not, decide_eq_true_eq] at hfa hfb
        exact hR (by omega)))
      f]
    rw [List.foldl_append]
    have h0 : (tl.filter (fun e => decide (e.1 = 0))).foldl
        (fun f (e : ℕ × ((ℕ × List ℕ) × Gate α)) => bop e.2 f) f
        = bexec (out 0) f := by
      rw [← hfoldmap]
      exact hsem 0 (by omega) f
    rw [h0]
    have hretag : ∀ (g : (Fin n → Fin 2) → α),
        (tl.filter (fun e => ! decide (e.1 = 0))).foldl
          (fun f (e : ℕ × ((ℕ × List ℕ) × Gate α)) => bop e.2 f) g
        = bexec (((tl.filter (fun e => ! decide (e.1 = 0))).map
            (fun e => (e.1 - 1, e.2))).map Prod.snd) g := by
      intro g
      rw [hfoldmap, List.foldl_map]
    rw [hretag]
    have hmain := ih ((tl.filter (fun e => ! decide (e.1 = 0))).map
        (fun e => (e.1 - 1, e.2))) (fun i => out (i + 1)) ?htag ?hpw ?hsem
    case htag =>
      intro e' he'
      obtain ⟨e, he, rfl⟩ := List.mem_map.mp he'
      have h1 := htag e (List.mem_of_mem_filter he)
      have h2 := List.of_mem_filter he
      simp only [Bool.not_eq_eq_eq_not, Bool.not_true, decide_eq_false_iff_not] at h2
      omega
    case hpw =>
      rw [List.pairwise_map]
      apply (hpw.filter _).imp_of_mem
      intro a b ha hb hR hlt
      have h2a := List.of_mem_filter ha
      have h2b := List.of_mem_filter hb
      simp only [Bool.not_eq_eq_eq_not, Bool.not_true, decide_eq_false_iff_not]
        at h2a h2b
      exact hR (by omega)
    case hsem =>
      intro i hi g
      have hfe : ((tl.filter (fun e => ! decide (e.1 = 0))).map
            (fun e => (e.1 - 1, e.2))).filter (fun e => decide (e.1 = i))
          = (tl.filter (fun e => decide (e.1 = i + 1))).map
            (fun e => (e.1 - 1, e.2)) := by
        rw [List.filter_map, List.filter_filter]
        rw [List.filter_congr (fun x _ => ?_)]
        show (((fun e => decide (e.1 = i)) ∘ (fun e => (e.1 - 1, e.2))) x
            && (! decide (x.1 = 0))) = decide (x.1 = i + 1)
        show (decide (x.1 - 1 = i) && ! decide (x.1 = 0)) = decide (x.1 = i + 1)
        rcases eq_or_ne x.1 (i + 1) with h | h
        · rw [h]
          simp
        · rcases eq_or_ne x.1 0 with h0 | h0
          · rw [h0]
            simp
          · have : x.1 - 1 ≠ i := by omega
            simp [this, h]
      rw [hfe, List.map_map]
      rw [List.map_congr_left (fun e _ =>
        (rfl : ((Prod.snd ∘ fun e : ℕ × ((ℕ × List ℕ) × Gate α) =>
          (e.1 - 1, e.2)) e) = e.2))]
      exact hsem (i + 1) (by omega) g
    rw [hmain (bexec (out 0) f)]
    rw [List.range_succ_eq_map, List.flatMap_cons, List.flatMap_map, bexec_append]

/-! ### Moment-major schedules and the simulator bridge (towards C1) -/

/-- The gates of `gs` regrouped moment-major: for each `T < nm`, the
gates of moment `T` in list order. -/
def tsort (gs : List ((ℕ × List ℕ) × Gate α)) (nm : ℕ) :
    List ((ℕ × List ℕ) × Gate α) :=
  (List.range nm).flatMap (fun T => gs.filter (fun e => e.1.1 == T))

/-- The schedule `simulate_steps` walks: moments `0, …, nmoment-1` in
order, each moment's gates in insertion order. -/
def Circuit.tseq (c : Circuit α) : List ((ℕ × List ℕ) × Gate α) :=
  tsort c.gates c.nmoment

theorem mem_tsort {gs : List ((ℕ × List ℕ) × Gate α)} {nm : ℕ}
    {e : (ℕ × List ℕ) × Gate α} (h : e ∈ tsort gs nm) : e ∈ gs ∧ e.1.1 < nm := by
  unfold tsort at h
  rw [List.mem_flatMap] at h
  obtain ⟨T, hT, he⟩ := h
  rw [List.mem_range] at hT
  have h1 := List.mem_of_mem_filter he
  have h2 := List.of_mem_filter he
  rw [beq_iff_eq] at h2
  exact ⟨h1, by omega⟩

theorem tsort_succ (gs : List ((ℕ × List ℕ) × Gate α)) (nm : ℕ) :
    tsort gs (nm + 1) = tsort gs nm ++ gs.filter (fun e => e.1.1 == nm) := by
  unfold tsort
  rw [List.range_succ, List.flatMap_append, List.flatMap_cons, List.flatMap_nil,
    List.append_nil]

theorem tsort_congr {gs gs' : List ((ℕ × List ℕ) × Gate α)} {nm : ℕ}
    (h : ∀ T < nm, gs.filter (fun e => e.1.1 == T) = gs'.filter (fun e => e.1.1 == T)) :
    tsort gs nm = tsort gs' nm := by
  unfold tsort
  unfold List.flatMap
  rw [List.map_congr_left (fun T hT => h T (List.mem_range.mp hT))]

theorem tsort_perm :
    ∀ (nm : ℕ) (gs : List ((ℕ × List ℕ) × Gate α)),
    (∀ e ∈ gs, e.1.1 < nm) → (tsort gs nm).Perm gs := by
  intro nm
  induction nm with
  | zero =>
    intro gs hlt
    cases gs with
    | nil => exact List.Perm.refl _
    | cons e gs => exact absurd (hlt e (List.mem_cons_self _ _)) (by omega)
  | succ nm ih =>
    intro gs hlt
    rw [tsort_succ]
    have hcongr : tsort gs nm = tsort (gs.filter (fun e => ! (e.1.1 == nm))) nm := by
      apply tsort_congr
      intro T hT
      rw [List.filter_filter]
      apply List.filter_congr
      intro e _
      rcases eq_or_ne e.1.1 T with h | h
      · have h2 : T ≠ nm := by omega
        simp [h, h2]
      · simp [h]
    rw [hcongr]
    have hperm1 := ih (gs.filter (fun e => ! (e.1.1 == nm)))
      (fun e he => by
        have h1 := hlt e (List.mem_of_mem_filter he)
        have h2 := List.of_mem_filter he
        simp only [Bool.not_eq_eq_eq_not, Bool.not_true, beq_eq_false_iff_ne] at h2
        omega)
    refine (hperm1.append (List.Perm.refl _)).trans ?_
    exact (List.perm_append_comm).trans (List.filter_append_perm _ gs)

theorem tsort_sorted (gs : List ((ℕ × List ℕ) × Gate α)) :
    ∀ nm : ℕ, (tsort gs nm).Pairwise (fun a b => a.1.1 ≤ b.1.1) := by
  intro nm
  induction nm with
  | zero => exact List.Pairwise.nil
  | succ nm ih =>
    rw [tsort_succ]
    rw [List.pairwise_append]
    refine ⟨ih, ?_, ?_⟩
    · apply List.pairwise_of_forall_mem_list
      intro a ha b hb
      have h1 := List.of_mem_filter ha
      have h2 := List.of_mem_filter hb
      rw [beq_iff_eq] at h1 h2
      omega
    · intro a ha b hb
      have h1 := (mem_tsort ha).2
      have h2 := List.of_mem_filter hb
      rw [beq_iff_eq] at h2
      omega

theorem tsort_filter_bucket (gs : List ((ℕ × List ℕ) × Gate α)) (nm T0 : ℕ)
    (hT0 : T0 < nm) :
    (tsort gs nm).filter (fun e => e.1.1 == T0) = gs.filter (fun e => e.1.1 == T0) := by
  induction nm with
  | zero => omega
  | succ nm ih =>
    rw [tsort_succ, List.filter_append]
    rcases eq_or_ne T0 nm with rfl | hne
    · have h1 : (tsort gs T0).filter (fun e => e.1.1 == T0) = [] := by
        rw [List.filter_eq_nil_iff]
        intro e he
        have := (mem_tsort he).2
        simp only [beq_iff_eq]
        omega
      have h2 : (gs.filter (fun e => e.1.1 == T0)).filter (fun e => e.1.1 == T0)
          = gs.filter (fun e => e.1.1 == T0) := by
        apply List.filter_eq_self.mpr
        intro e he
        exact List.of_mem_filter
          (p := fun e : (ℕ × List ℕ) × Gate α => e.1.1 == T0) he
      rw [h1, h2, List.nil_append]
    · have h1 : (gs.filter (fun e => e.1.1 == nm)).filter (fun e => e.1.1 == T0)
          = [] := by
        rw [List.filter_eq_nil_iff]
        intro e he
        have := List.of_mem_filter he
        rw [beq_iff_eq] at this
        simp only [beq_iff_eq]
        omega
      rw [h1, List.append_nil]
      exact ih (by omega)

/-- Folding the simulator's gate application over a list of valid entries
succeeds and realizes `bexec`. -/
theorem foldlM_entries_bexec {n : ℕ} :
    ∀ (l : List ((ℕ × List ℕ) × Gate α)), (∀ e ∈ l, OpValid n e) →
    ∀ w : Vec α (2 ^ n),
    ∃ v, l.foldlM (fun w (e : (ℕ × List ℕ) × Gate α) =>
        applyGateEntry e.1.2 e.2 w) w = .ok v
      ∧ trv v = bexec l (trv w) := by
  intro l
  induction l with
  | nil =>
    intro _ w
    exact ⟨w, rfl, rfl⟩
  | cons e l ih =>
    intro hv w
    obtain ⟨v1, hv1, htrv1⟩ := applyGateEntry_bop e (hv e (List.mem_cons_self _ _)) w
    obtain ⟨v, hfold, htrv⟩ := ih (fun x hx => hv x (List.mem_cons_of_mem _ hx)) v1
    refine ⟨v, ?_, ?_⟩
    · rw [List.foldlM_cons, hv1, ebind_ok, hfold]
    · rw [htrv, bexec_cons, htrv1]

/-- The full simulator run on a circuit of valid entries: it succeeds and
the final state is `bexec` of the moment-major schedule. -/
theorem simulate_bexec (c : Circuit α) (hv : ∀ e ∈ c.gates, OpValid c.N e)
    (w : Vec α (2 ^ c.N)) :
    ∃ w', ((List.range c.nmoment).foldlM c.momApply w) = .ok w'
      ∧ trv w' = bexec c.tseq (trv w) := by
  have hmom : ∀ (Ts : List ℕ) (w0 : Vec α (2 ^ c.N)),
      ∃ v, Ts.foldlM c.momApply w0 = .ok v
        ∧ trv v = bexec (Ts.flatMap c.momentGates) (trv w0) := by
    intro Ts
    induction Ts with
    | nil =>
      intro w0
      exact ⟨w0, rfl, rfl⟩
    | cons T Ts ih =>
      intro w0
      obtain ⟨v1, hv1, htrv1⟩ := foldlM_entries_bexec (c.momentGates T)
        (fun e he => hv e (List.mem_of_mem_filter he)) w0
      obtain ⟨v, hfold, htrv⟩ := ih v1
      refine ⟨v, ?_, ?_⟩
      · rw [List.foldlM_cons]
        show (c.momApply w0 T) >>= _ = _
        rw [show c.momApply w0 T = .ok v1 from hv1, ebind_ok, hfold]
      · rw [htrv, List.flatMap_cons, bexec_append, htrv1]
  exact hmom (List.range c.nmoment) w

/-! ### Rebuilt circuits: invariants of `add_gate` folds (towards C1) -/

/-- The working well-formedness invariant maintained by every compressor
pass: entries are valid one- or two-body ops, same-moment entries are
qubit-disjoint, and the memoized `Ts`/`TAs` agree with `gates`. -/
def CWF (c : Circuit α) : Prop :=
  (∀ e ∈ c.gates, OpValid c.N e)
  ∧ c.gates.Pairwise (fun e f => e.1.1 = f.1.1 → ∀ A ∈ e.1.2, A ∉ f.1.2)
  ∧ (∀ T ∈ c.Ts, ∃ e ∈ c.gates, e.1.1 = T)
  ∧ (∀ e ∈ c.gates, e.1.1 ∈ c.Ts)
  ∧ c.Ts.Pairwise (· < ·)
  ∧ (∀ p ∈ c.TAs, ∃ e ∈ c.gates, e.1.1 = p.1 ∧ p.2 ∈ e.1.2)
  ∧ (∀ e ∈ c.gates, ∀ A ∈ e.1.2, (e.1.1, A) ∈ c.TAs)

/-- A request that produces a valid 1- or 2-body entry. -/
def ReqGood (N : ℕ) (r : (ℤ × List ℕ) × Gate α) : Prop :=
  0 ≤ r.1.1 ∧ r.1.2.length = r.2.N ∧ (r.2.N = 1 ∨ r.2.N = 2) ∧ r.1.2.Nodup
    ∧ ∀ A ∈ r.1.2, A < N

theorem ReqGood.ok {N : ℕ} {r : (ℤ × List ℕ) × Gate α} (h : ReqGood N r) :
    ReqOk N r := by
  obtain ⟨h0, hlen, harity, -, hrange⟩ := h
  refine ⟨h0, hlen, ?_, hrange⟩
  intro hnil
  rw [hnil] at hlen
  simp at hlen
  omega

/-- `addReqs` from the empty circuit on good, slot-disjoint requests yields
a circuit satisfying the working invariant. -/
theorem addReqs_CWF {N : ℕ} (rs : List ((ℤ × List ℕ) × Gate α))
    (hgood : ∀ r ∈ rs, ReqGood N r) (hdisj : rs.Pairwise ReqDisj) :
    ∃ c', addReqs (Circuit.empty α N) rs = .ok c' ∧ ReqInv N rs c' ∧ CWF c' := by
  obtain ⟨c', hc', hinv⟩ := addReqs_ok rs (fun r hr => (hgood r hr).ok) hdisj
  obtain ⟨hN, hgates, hTAs, hTs, hsorted⟩ := hinv
  refine ⟨c', hc', ⟨hN, hgates, hTAs, hTs, hsorted⟩, ?_, ?_, ?_, ?_, hsorted, ?_, ?_⟩
  · intro e he
    rw [hgates] at he
    obtain ⟨r, hr, rfl⟩ := List.mem_map.mp he
    obtain ⟨-, hlen, harity, hnd, hrange⟩ := hgood r hr
    exact ⟨hlen, harity, hnd, by rw [hN]; exact hrange⟩
  · rw [hgates, List.pairwise_map]
    apply hdisj.imp_of_mem
    intro a b ha hb hR hTeq
    have hTeq2 : a.1.1.toNat = b.1.1.toNat := hTeq
    have h0a := (hgood a ha).1
    have h0b := (hgood b hb).1
    exact hR (by omega)
  · intro T hT
    obtain ⟨r, hr, rfl⟩ := (hTs T).mp hT
    refine ⟨((r.1.1.toNat, r.1.2), r.2), ?_, rfl⟩
    rw [hgates]
    exact List.mem_map_of_mem _ hr
  · intro e he
    rw [hgates] at he
    obtain ⟨r, hr, rfl⟩ := List.mem_map.mp he
    exact (hTs _).mpr ⟨r, hr, rfl⟩
  · intro p hp
    obtain ⟨r, hr, h1, h2⟩ := (hTAs p).mp hp
    refine ⟨((r.1.1.toNat, r.1.2), r.2), ?_, h1.symm, h2⟩
    rw [hgates]
    exact List.mem_map_of_mem _ hr
  · intro e he A hA
    rw [hgates] at he
    obtain ⟨r, hr, rfl⟩ := List.mem_map.mp he
    exact (hTAs _).mpr ⟨r, hr, rfl, hA⟩

theorem foldlM_congr_mem {β σ : Type} {f g : σ → β → Except String σ} :
    ∀ {l : List β}, (∀ s e, e ∈ l → f s e = g s e) →
    ∀ s, l.foldlM f s = l.foldlM g s := by
  intro l
  induction l with
  | nil =>
    intro _ s
    rfl
  | cons e l ih =>
    intro h s
    rw [List.foldlM_cons, List.foldlM_cons, h s e (List.mem_cons_self _ _)]
    cases g s e with
    | error msg => rfl
    | ok s2 =>
      rw [ebind_ok, ebind_ok]
      exact ih (fun s e he => h s e (List.mem_cons_of_mem _ he)) s2

/-! ### `nonredundant`: rank relabeling (towards C1) -/

theorem indexOf?_of_mem :
    ∀ {l : List ℕ} {T : ℕ}, T ∈ l →
    ∃ i, ∃ hi : i < l.length, List.indexOf? T l = some i ∧ l.get ⟨i, hi⟩ = T := by
  intro l
  induction l with
  | nil =>
    intro T h
    cases h
  | cons a l ih =>
    intro T h
    rw [List.indexOf?_cons]
    by_cases hT : a = T
    · subst hT
      rw [if_pos (by simp)]
      refine ⟨0, by simp, rfl, rfl⟩
    · rw [if_neg (by simp [hT])]
      rcases List.mem_cons.mp h with rfl | h2
      · exact absurd rfl hT
      · obtain ⟨i, hi, h1, h2⟩ := ih h2
        refine ⟨i + 1, by simpa using Nat.succ_lt_succ hi, ?_, ?_⟩
        · rw [h1]
          rfl
        · exact h2

theorem indexOf?_get :
    ∀ {l : List ℕ}, l.Nodup → ∀ {i : ℕ} (hi : i < l.length),
    List.indexOf? (l.get ⟨i, hi⟩) l = some i := by
  intro l
  induction l with
  | nil =>
    intro _ i hi
    simp at hi
  | cons a l ih =>
    intro hnd i hi
    obtain ⟨hna, hnd2⟩ := List.nodup_cons.mp hnd
    rw [List.indexOf?_cons]
    cases i with
    | zero => rw [if_pos (by simp)]
    | succ i =>
      have hi2 : i < l.length := by simpa using hi
      have hget : (a :: l).get ⟨i + 1, hi⟩ = l.get ⟨i, hi2⟩ := rfl
      rw [hget, if_neg (by
        simp only [beq_iff_eq]
        intro hEq
        exact hna (hEq ▸ List.get_mem l i hi2)), ih hnd2 hi2]
      rfl

/-- Rank of a time in the sorted distinct-time list. -/
def rankIn (l : List ℕ) (T : ℕ) : ℕ := (List.indexOf? T l).getD 0

theorem rankIn_spec {l : List ℕ} {T : ℕ} (h : T ∈ l) :
    ∃ hi : rankIn l T < l.length, l.get ⟨rankIn l T, hi⟩ = T := by
  obtain ⟨i, hi, h1, h2⟩ := indexOf?_of_mem h
  have : rankIn l T = i := by
    unfold rankIn
    rw [h1]
    rfl
  rw [this]
  exact ⟨hi, h2⟩

theorem rankIn_lt_length {l : List ℕ} {T : ℕ} (h : T ∈ l) :
    rankIn l T < l.length := (rankIn_spec h).1

theorem rankIn_strictMono {l : List ℕ} (hs : l.Pairwise (· < ·)) {T1 T2 : ℕ}
    (h1 : T1 ∈ l) (h2 : T2 ∈ l) (hlt : T1 < T2) : rankIn l T1 < rankIn l T2 := by
  obtain ⟨hi1, hg1⟩ := rankIn_spec h1
  obtain ⟨hi2, hg2⟩ := rankIn_spec h2
  rcases Nat.lt_trichotomy (rankIn l T1) (rankIn l T2) with h | h | h
  · exact h
  · rw [← hg1, ← hg2] at hlt
    rw [show (⟨rankIn l T1, hi1⟩ : Fin l.length) = ⟨rankIn l T2, hi2⟩ from
      Fin.ext h] at hlt
    omega
  · have := List.pairwise_iff_get.mp hs ⟨rankIn l T2, hi2⟩ ⟨rankIn l T1, hi1⟩ h
    rw [hg1, hg2] at this
    omega

theorem rankIn_mono {l : List ℕ} (hs : l.Pairwise (· < ·)) {T1 T2 : ℕ}
    (h1 : T1 ∈ l) (h2 : T2 ∈ l) (hle : T1 ≤ T2) : rankIn l T1 ≤ rankIn l T2 := by
  rcases Nat.eq_or_lt_of_le hle with rfl | hlt
  · exact le_refl _
  · exact le_of_lt (rankIn_strictMono hs h1 h2 hlt)

theorem rankIn_get {l : List ℕ} (hnd : l.Nodup) {i : ℕ} (hi : i < l.length) :
    rankIn l (l.get ⟨i, hi⟩) = i := by
  unfold rankIn
  rw [indexOf?_get hnd hi]
  rfl

theorem times_lt_nmoment {c : Circuit α} (hTs : c.Ts.Pairwise (· < ·))
    (hmem : ∀ e ∈ c.gates, e.1.1 ∈ c.Ts) : ∀ e ∈ c.gates, e.1.1 < c.nmoment := by
  intro e he
  have h1 := hmem e he
  obtain ⟨M, hM⟩ : ∃ M, c.Ts.getLast? = some M := by
    cases hl : c.Ts.getLast? with
    | none => exact absurd (List.getLast?_eq_none_iff.mp hl) (List.ne_nil_of_mem h1)
    | some M => exact ⟨M, rfl⟩
  have hle := sorted_mem_le_getLast hTs hM e.1.1 h1
  have hnm : c.nmoment = M + 1 := nmoment_of_getLast hM
  omega

theorem sorted_length_le {l : List ℕ} (hs : l.Pairwise (· < ·)) {nm : ℕ}
    (hb : ∀ x ∈ l, x < nm) : l.length ≤ nm := by
  have hnd : l.Nodup := hs.imp (fun h => Nat.ne_of_lt h)
  have h1 : l.toFinset ⊆ Finset.range nm :=
    fun x hx => Finset.mem_range.mpr (hb x (List.mem_toFinset.mp hx))
  have h2 := Finset.card_le_card h1
  rw [List.toFinset_card_of_nodup hnd] at h2
  simpa using h2

theorem bexec_map_retime {n : ℕ} (σ : ℕ → ℕ) (l : List ((ℕ × List ℕ) × Gate α))
    (f : (Fin n → Fin 2) → α) :
    bexec (n := n) (l.map (fun e => ((σ e.1.1, e.1.2), e.2))) f = bexec l f := by
  unfold bexec
  rw [List.foldl_map]
  have h : (fun (x : (Fin n → Fin 2) → α) (y : (ℕ × List ℕ) × Gate α) =>
      bop ((σ y.1.1, y.1.2), y.2) x) = fun f e => bop e f := by
    funext x y
    rfl
  rw [h]

/-- `nonredundant` as a fold of good requests: every time is relabeled to
its rank in the (already sorted) distinct-time list. -/
theorem nonredundant_eq_addReqs (c : Circuit α) (hTs : c.Ts.Pairwise (· < ·))
    (hmem : ∀ e ∈ c.gates, e.1.1 ∈ c.Ts) :
    c.nonredundant = addReqs (Circuit.empty α c.N)
      (c.gates.map (fun e => (((rankIn c.Ts e.1.1 : ℤ), e.1.2), e.2))) := by
  have hms : c.Ts.mergeSort (· ≤ ·) = c.Ts :=
    List.mergeSort_of_sorted (hTs.imp (fun h => by
      simp only [decide_eq_true_eq]
      omega))
  unfold Circuit.nonredundant addReqs
  rw [hms, List.foldlM_map]
  apply foldlM_congr_mem
  intro acc e he
  obtain ⟨i, hi, h1, h2⟩ := indexOf?_of_mem (hmem e he)
  rw [h1]
  have hr : rankIn c.Ts e.1.1 = i := by
    unfold rankIn
    rw [h1]
    rfl
  rw [hr]

/-- `nonredundant` on a well-formed circuit: succeeds, keeps the gate
count, compacts moments monotonically (new moment count = number of
occupied moments ≤ old moment count), preserves the invariant, and is
semantically equivalent on every state. -/
theorem nonredundant_spec (c : Circuit α) (hwf : CWF c) :
    ∃ c', c.nonredundant = .ok c'
      ∧ c'.N = c.N ∧ CWF c'
      ∧ c'.gates = c.gates.map
          (fun e => ((rankIn c.Ts e.1.1, e.1.2), e.2))
      ∧ c'.nmoment = c.Ts.length ∧ c.Ts.length ≤ c.nmoment
      ∧ ∀ f : (Fin c.N → Fin 2) → α,
          bexec (tsort c'.gates c'.nmoment) f = bexec c.tseq f := by
  obtain ⟨hent, hpw, hTsg, hgTs, hsorted, hTAsg, hgTAs⟩ := hwf
  have hnd : c.Ts.Nodup := hsorted.imp (fun h => Nat.ne_of_lt h)
  have hmax := times_lt_nmoment hsorted hgTs
  have hTslt : ∀ T ∈ c.Ts, T < c.nmoment := by
    intro T hT
    obtain ⟨e, he, rfl⟩ := hTsg T hT
    exact hmax e he
  have heq := nonredundant_eq_addReqs c hsorted hgTs
  have hgood : ∀ r ∈ c.gates.map
      (fun e => (((rankIn c.Ts e.1.1 : ℤ), e.1.2), e.2)), ReqGood c.N r := by
    intro r hr
    obtain ⟨e, he, rfl⟩ := List.mem_map.mp hr
    obtain ⟨hlen, harity, hknd, hrange⟩ := hent e he
    exact ⟨Int.natCast_nonneg _, hlen, harity, hknd, hrange⟩
  have hdisj : (c.gates.map
      (fun e => (((rankIn c.Ts e.1.1 : ℤ), e.1.2), e.2))).Pairwise ReqDisj := by
    rw [List.pairwise_map]
    apply hpw.imp_of_mem
    intro a b ha hb hR hTeq
    have hTeq2 : (rankIn c.Ts a.1.1 : ℤ) = (rankIn c.Ts b.1.1 : ℤ) := hTeq
    have hr : rankIn c.Ts a.1.1 = rankIn c.Ts b.1.1 := by omega
    obtain ⟨hia, hga⟩ := rankIn_spec (hgTs a ha)
    obtain ⟨hib, hgb⟩ := rankIn_spec (hgTs b hb)
    apply hR
    rw [← hga, ← hgb]
    congr 1
    exact Fin.ext hr
  obtain ⟨c', hc', hinv, hcwf⟩ := addReqs_CWF _ hgood hdisj
  obtain ⟨hN, hgates, hTAs2, hTs2, hsorted2⟩ := hinv
  have hgates2 : c'.gates = c.gates.map
      (fun e => ((rankIn c.Ts e.1.1, e.1.2), e.2)) := by
    rw [hgates, List.map_map]
    apply List.map_congr_left
    intro e _
    show (((rankIn c.Ts e.1.1 : ℤ).toNat, e.1.2), e.2) = _
    rw [Int.toNat_natCast]
  have hTs3 : ∀ T : ℕ, T ∈ c'.Ts ↔ T < c.Ts.length := by
    intro T
    rw [hTs2]
    constructor
    · rintro ⟨r, hr, rfl⟩
      obtain ⟨e, he, rfl⟩ := List.mem_map.mp hr
      have := rankIn_lt_length (hgTs e he)
      simpa using this
    · intro hT
      obtain ⟨e, he, hTe⟩ := hTsg (c.Ts.get ⟨T, hT⟩) (List.get_mem _ _ _)
      refine ⟨(((rankIn c.Ts e.1.1 : ℤ), e.1.2), e.2), List.mem_map_of_mem _ he, ?_⟩
      show T = (rankIn c.Ts e.1.1 : ℤ).toNat
      rw [hTe, rankIn_get hnd hT, Int.toNat_natCast]
  have hnm' : c'.nmoment = c.Ts.length := by
    cases hlen : c.Ts.length with
    | zero =>
      have hempty : c'.Ts = [] := by
        rw [List.eq_nil_iff_forall_not_mem]
        intro T hT
        have := (hTs3 T).mp hT
        omega
      unfold Circuit.nmoment
      rw [hempty]
      rfl
    | succ L =>
      have hlast : c'.Ts.getLast? = some L := by
        apply sorted_getLast?_eq hsorted2
        · exact (hTs3 L).mpr (by omega)
        · intro x hx
          have := (hTs3 x).mp hx
          omega
      rw [nmoment_of_getLast hlast]
  have hlenle : c.Ts.length ≤ c.nmoment := sorted_length_le hsorted hTslt
  refine ⟨c', by rw [heq]; exact hc', hN, hcwf, hgates2, hnm', hlenle, ?_⟩
  intro f
  have hmaster := bexec_master (n := c.N) c.Ts.length
    (c.tseq.map (fun e => (rankIn c.Ts e.1.1, e)))
    (fun i => c'.gates.filter (fun e => e.1.1 == i)) ?htag ?hpw ?hsem f
  case htag =>
    intro x hx
    obtain ⟨e, he, rfl⟩ := List.mem_map.mp hx
    exact rankIn_lt_length (hgTs e (mem_tsort he).1)
  case hpw =>
    rw [List.pairwise_map]
    apply (tsort_sorted c.gates c.nmoment).imp_of_mem
    intro a b ha hb hle hlt
    exact absurd (rankIn_mono hsorted (hgTs a (mem_tsort ha).1)
      (hgTs b (mem_tsort hb).1) hle) (by omega)
  case hsem =>
    intro i hi g
    show bexec (((c.tseq.map (fun e => (rankIn c.Ts e.1.1, e))).filter
        (fun e => e.1 = i)).map Prod.snd) g
      = bexec (c'.gates.filter (fun e => e.1.1 == i)) g
    have hTi := List.get_mem c.Ts i hi
    have hfe : ((c.tseq.map (fun e => (rankIn c.Ts e.1.1, e))).filter
          (fun e => e.1 = i)).map Prod.snd
        = c.gates.filter (fun e => e.1.1 == c.Ts.get ⟨i, hi⟩) := by
      rw [List.filter_map, List.map_map]
      rw [show (Prod.snd ∘ fun e : (ℕ × List ℕ) × Gate α =>
          (rankIn c.Ts e.1.1, e)) = id from rfl, List.map_id]
      rw [List.filter_congr (fun e he => ?_)]
      · exact tsort_filter_bucket c.gates c.nmoment _ (hTslt _ hTi)
      · show decide (rankIn c.Ts e.1.1 = i) = (e.1.1 == c.Ts.get ⟨i, hi⟩)
        have hmem := hgTs e (mem_tsort he).1
        rcases eq_or_ne e.1.1 (c.Ts.get ⟨i, hi⟩) with hcase | hcase
        · have h9 : rankIn c.Ts e.1.1 = i := by
            rw [hcase, rankIn_get hnd hi]
          rw [h9, hcase]
          simp
        · have h9 : rankIn c.Ts e.1.1 ≠ i := by
            intro hEq
            apply hcase
            obtain ⟨hia, hga⟩ := rankIn_spec hmem
            rw [← hga]
            congr 1
            exact Fin.ext hEq
          rw [decide_eq_false h9]
          exact (beq_eq_false_iff_ne.mpr hcase).symm
    rw [hfe]
    have hout : c'.gates.filter (fun e => e.1.1 == i)
        = (c.gates.filter (fun e => e.1.1 == c.Ts.get ⟨i, hi⟩)).map
            (fun e => ((rankIn c.Ts e.1.1, e.1.2), e.2)) := by
      rw [hgates2, List.filter_map]
      congr 1
      apply List.filter_congr
      intro e he
      show (rankIn c.Ts e.1.1 == i) = (e.1.1 == c.Ts.get ⟨i, hi⟩)
      have hmem := hgTs e he
      rcases eq_or_ne e.1.1 (c.Ts.get ⟨i, hi⟩) with hcase | hcase
      · have h9 : rankIn c.Ts e.1.1 = i := by
          rw [hcase, rankIn_get hnd hi]
        rw [h9, hcase]
        simp
      · have h9 : rankIn c.Ts e.1.1 ≠ i := by
          intro hEq
          apply hcase
          obtain ⟨hia, hga⟩ := rankIn_spec hmem
          rw [← hga]
          congr 1
          exact Fin.ext hEq
        rw [show (rankIn c.Ts e.1.1 == i) = false from beq_eq_false_iff_ne.mpr h9]
        exact (beq_eq_false_iff_ne.mpr hcase).symm
    rw [hout, bexec_map_retime]
  have hleft : (c.tseq.map (fun e => (rankIn c.Ts e.1.1, e))).map Prod.snd
      = c.tseq := by
    rw [List.map_map]
    rw [show (Prod.snd ∘ fun e : (ℕ × List ℕ) × Gate α =>
        (rankIn c.Ts e.1.1, e)) = id from rfl, List.map_id]
  rw [hleft] at hmaster
  rw [hmaster]
  show bexec (tsort c'.gates c'.nmoment) f
    = bexec ((List.range c.Ts.length).flatMap
        (fun i => c'.gates.filter (fun e => e.1.1 == i))) f
  rw [hnm']
  rfl

/-! ### Compression passes 1 and 3, and `compressed` itself -/

/-- One step of pass 1's per-qubit scan over the `plan` row of qubit `A`:
start or extend the current 1-body chain at a `plan` value of 1, and
place the accumulated chain at its start moment `Tstar` when hitting
2-body activity or the last moment. -/
def chainAbsorb (c1 : Circuit α) (A : ℕ)
    (st : List ((ℤ × List ℕ) × Gate α) × Option (ℕ × Matrix (Fin 2) (Fin 2) α))
    (T : ℕ) : List ((ℤ × List ℕ) × Gate α) × Option (ℕ × Matrix (Fin 2) (Fin 2) α) :=
  if planOf c1.gates A T = 1 then
    match st.2 with
    | none => (st.1, some (T, ((c1.gate T [A]).getD (Gate.U1 1)).asU1))
    | some (Tstar, W) =>
        (st.1, some (Tstar, ((c1.gate T [A]).getD (Gate.U1 1)).asU1 * W))
  else st

/-- At a 2-body cell, or at the last moment, the pending chain (if any) is
placed at its head moment. -/
def chainPlace (c1 : Circuit α) (nm A : ℕ)
    (st : List ((ℤ × List ℕ) × Gate α) × Option (ℕ × Matrix (Fin 2) (Fin 2) α))
    (T : ℕ) : List ((ℤ × List ℕ) × Gate α) × Option (ℕ × Matrix (Fin 2) (Fin 2) α) :=
  match st.2 with
  | some (Tstar, W) =>
      if planOf c1.gates A T = 2 ∨ planOf c1.gates A T = -2 ∨ T = nm - 1 then
        (st.1 ++ [(((Tstar : ℤ), [A]), Gate.U1 W)], none)
      else st
  | none => st

def chainStep (c1 : Circuit α) (nm A : ℕ)
    (st : List ((ℤ × List ℕ) × Gate α) × Option (ℕ × Matrix (Fin 2) (Fin 2) α))
    (T : ℕ) : List ((ℤ × List ℕ) × Gate α) × Option (ℕ × Matrix (Fin 2) (Fin 2) α) :=
  chainPlace c1 nm A (chainAbsorb c1 A st T) T

/-- The `add_gate` requests of pass 1: for each qubit in order, the fused
1-body chains; then every 2-body gate unchanged, in insertion order. -/
def pass1Reqs (c1 : Circuit α) (nm N : ℕ) : List ((ℤ × List ℕ) × Gate α) :=
  (List.range N).flatMap
      (fun A => ((List.range nm).foldl (chainStep c1 nm A) ([], none)).1)
    ++ (c1.gates.filter (fun e => e.2.N == 2)).map
      (fun e => (((e.1.1 : ℤ), e.1.2), e.2))

/-- Pass 1 (`compressed`, first block): jam consecutive 1-body gates. -/
def compressPass1 (c1 : Circuit α) (nm N : ℕ) : Except String (Circuit α) :=
  if c1.gates.all (fun e => e.2.N == 1 || e.2.N == 2) then
    addReqs (Circuit.empty α N) (pass1Reqs c1 nm N)
  else .error "N > 2"

/-- Pass 3's forward scan from `T+1`: collect the consecutive run of
2-body gates on the unordered pair `{A, B}` (with a transpose marker when
the key arrives as `(B, A)`), stopping at the first moment that touches
`A` or `B` otherwise. -/
def jamsFrom (c1 : Circuit α) (A B : ℕ) : List ℕ → List ((ℕ × List ℕ) × Gate α × Bool)
  | [] => []
  | T2 :: rest =>
    match c1.gate T2 [A, B] with
    | some g => ((T2, [A, B]), g, false) :: jamsFrom c1 A B rest
    | none =>
      match c1.gate T2 [B, A] with
      | some g => ((T2, [B, A]), g, true) :: jamsFrom c1 A B rest
      | none =>
        if (T2, A) ∈ c1.TAs ∨ (T2, B) ∈ c1.TAs then []
        else jamsFrom c1 A B rest

/-- The composite unitary of a 2-body run: later gates multiplied on the
left, transposed runs leg-swapped (`einsum('ijkl->jilk')`). -/
def runU (g : Gate α) (js : List ((ℕ × List ℕ) × Gate α × Bool)) :
    Matrix (Fin 4) (Fin 4) α :=
  js.foldl (fun W j => (if j.2.2 then legSwap j.2.1.asU2 else j.2.1.asU2) * W) g.asU2

/-- One step of pass 3's moment-major walk: start a run at each 2-body
gate not already consumed, emit its composite at the run's first moment,
and record every consumed key. -/
def pass3Step (c1 : Circuit α) (nm : ℕ)
    (st : List ((ℤ × List ℕ) × Gate α) × List (ℕ × List ℕ))
    (e : (ℕ × List ℕ) × Gate α) :
    List ((ℤ × List ℕ) × Gate α) × List (ℕ × List ℕ) :=
  if e.2.N = 2 then
    if e.1 ∈ st.2 then st
    else
      (st.1 ++ [(((e.1.1 : ℤ), [e.1.2.headD 0, e.1.2.tail.headD 0]),
          Gate.U2 (runU e.2 (jamsFrom c1 (e.1.2.headD 0) (e.1.2.tail.headD 0)
            (List.range' (e.1.1 + 1) (nm - (e.1.1 + 1))))))],
        st.2 ++ e.1 :: (jamsFrom c1 (e.1.2.headD 0) (e.1.2.tail.headD 0)
          (List.range' (e.1.1 + 1) (nm - (e.1.1 + 1)))).map (fun j => j.1))
  else st

/-- Pass 3 (`compressed`, third block): jam 2-body runs, then re-add the
unjammed 1-body gates. -/
def compressPass3 (c1 : Circuit α) (nm N : ℕ) : Except String (Circuit α) :=
  addReqs (Circuit.empty α N)
    (((tsort c1.gates c1.nmoment).foldl (pass3Step c1 nm) ([], [])).1
      ++ ((c1.gates.filter (fun e => e.2.N == 1)).filter
          (fun e => e.1 ∉ ((tsort c1.gates c1.nmoment).foldl
            (pass3Step c1 nm) ([], [])).2)).map
        (fun e => (((e.1.1 : ℤ), e.1.2), e.2)))

/-- `Circuit.compressed` (quasar.py): the three jamming passes followed by
`nonredundant`.  Every pass reads the original circuit's `nmoment` and `N`
(the Python `self`). -/
def Circuit.compressed (c : Circuit α) : Except String (Circuit α) :=
  (compressPass1 c c.nmoment c.N).bind (fun c1 =>
    (compressPass2 c1 c.nmoment).bind (fun c2 =>
      (compressPass3 c2 c.nmoment c.N).bind (fun c3 =>
        c3.nonredundant)))

/-! ### Slot uniqueness and the plan table under the working invariant -/

theorem slotRel_symm :
    Symmetric (fun e f : (ℕ × List ℕ) × Gate α =>
      e.1.1 = f.1.1 → ∀ A ∈ e.1.2, A ∉ f.1.2) := by
  intro e f h hT A hAf hAe
  exact h hT.symm A hAe hAf

theorem slot_unique {gs : List ((ℕ × List ℕ) × Gate α)}
    (hpw : gs.Pairwise (fun e f => e.1.1 = f.1.1 → ∀ A ∈ e.1.2, A ∉ f.1.2))
    {e f : (ℕ × List ℕ) × Gate α} (he : e ∈ gs) (hf : f ∈ gs) (hT : e.1.1 = f.1.1)
    {A : ℕ} (hAe : A ∈ e.1.2) (hAf : A ∈ f.1.2) : e = f := by
  by_contra hne
  exact hpw.forall slotRel_symm he hf hne hT A hAe hAf

theorem find?_slot {gs : List ((ℕ × List ℕ) × Gate α)}
    (hpw : gs.Pairwise (fun e f => e.1.1 = f.1.1 → ∀ A ∈ e.1.2, A ∉ f.1.2))
    {T : ℕ} {key : List ℕ} {g : Gate α}
    (hmem : ((T, key), g) ∈ gs) (hne : key ≠ []) :
    gs.find? (fun e => decide (e.1 = (T, key))) = some ((T, key), g) := by
  induction gs with
  | nil => cases hmem
  | cons e gs ih =>
    obtain ⟨q, hq⟩ := exists_mem_of_ne_nil' hne
    rw [List.find?_cons]
    by_cases he : e.1 = (T, key)
    · rw [show (decide (e.1 = (T, key))) = true from decide_eq_true he]
      rcases List.mem_cons.mp hmem with hcase | hmem2
      · rw [hcase]
      · have hrel := (List.pairwise_cons.mp hpw).1 ((T, key), g) hmem2
        have hT : e.1.1 = T := by rw [he]
        have hkey : e.1.2 = key := by rw [he]
        exact absurd (hrel hT q (by rw [hkey]; exact hq)) (by simp [hq])
    · rw [show (decide (e.1 = (T, key))) = false from decide_eq_false he]
      rcases List.mem_cons.mp hmem with hcase | hmem2
      · exact absurd (by rw [← hcase]) he
      · exact ih (List.pairwise_cons.mp hpw).2 hmem2

theorem gate_lookup {c1 : Circuit α}
    (hpw : c1.gates.Pairwise (fun e f => e.1.1 = f.1.1 → ∀ A ∈ e.1.2, A ∉ f.1.2))
    {T : ℕ} {key : List ℕ} {g : Gate α}
    (hmem : ((T, key), g) ∈ c1.gates) (hne : key ≠ []) :
    c1.gate T key = some g := by
  unfold Circuit.gate
  rw [find?_slot hpw hmem hne]
  rfl

theorem gate_lookup_none {c1 : Circuit α} {T : ℕ} {key : List ℕ}
    (h : ∀ g, ((T, key), g) ∉ c1.gates) : c1.gate T key = none := by
  unfold Circuit.gate
  rw [List.find?_eq_none.mpr]
  · rfl
  · intro e he hp
    have he1 : e.1 = (T, key) := of_decide_eq_true hp
    have : ((T, key), e.2) ∈ c1.gates := by rw [← he1]; exact he
    exact h e.2 this

theorem planStep_untouched (p0 : ℕ → ℕ → ℤ) (e : (ℕ × List ℕ) × Gate α) (A T : ℕ)
    (hlen : e.1.2.length = e.2.N)
    (h : e.1.1 = T → A ∉ e.1.2) :
    planStep p0 e A T = p0 A T := by
  unfold planStep
  by_cases h1 : e.2.N = 1
  · rw [if_pos h1]
    obtain ⟨q, hq⟩ : ∃ q, e.1.2 = [q] := List.length_eq_one.mp (by rw [hlen, h1])
    show (if A = e.1.2.headD 0 ∧ T = e.1.1 then 1 else p0 A T) = p0 A T
    rw [if_neg]
    rintro ⟨hA, hT⟩
    refine h hT.symm ?_
    rw [hq] at hA ⊢
    simp only [List.headD] at hA
    simp [hA]
  · rw [if_neg h1]
    by_cases h2 : e.2.N = 2
    · rw [if_pos h2]
      obtain ⟨q1, q2, hq⟩ : ∃ q1 q2, e.1.2 = [q1, q2] :=
        List.length_eq_two.mp (by rw [hlen, h2])
      show (if A = e.1.2.tail.headD 0 ∧ T = e.1.1 then -2
        else if A = e.1.2.headD 0 ∧ T = e.1.1 then 2 else p0 A T) = p0 A T
      rw [if_neg, if_neg]
      · rintro ⟨hA, hT⟩
        refine h hT.symm ?_
        rw [hq] at hA ⊢
        simp only [List.headD] at hA
        simp [hA]
      · rintro ⟨hA, hT⟩
        refine h hT.symm ?_
        rw [hq] at hA ⊢
        simp only [List.tail, List.headD] at hA
        simp [hA]
    · rw [if_neg h2]

theorem planFold_untouched (p0 : ℕ → ℕ → ℤ) (A T : ℕ) :
    ∀ gs : List ((ℕ × List ℕ) × Gate α),
    (∀ e ∈ gs, e.1.2.length = e.2.N) →
    (∀ e ∈ gs, e.1.1 = T → A ∉ e.1.2) →
    gs.foldl planStep p0 A T = p0 A T := by
  intro gs
  induction gs generalizing p0 with
  | nil => intro _ _; rfl
  | cons e gs ih =>
    intro hlen h
    rw [List.foldl_cons]
    rw [ih (planStep p0 e) (fun f hf => hlen f (List.mem_cons_of_mem _ hf))
      (fun f hf => h f (List.mem_cons_of_mem _ hf))]
    exact planStep_untouched p0 e A T (hlen e (List.mem_cons_self _ _))
      (h e (List.mem_cons_self _ _))

theorem planOf_gate1 {gs : List ((ℕ × List ℕ) × Gate α)} {T q : ℕ} {g : Gate α}
    (hlen : ∀ e ∈ gs, e.1.2.length = e.2.N)
    (hpw : gs.Pairwise (fun e f => e.1.1 = f.1.1 → ∀ A ∈ e.1.2, A ∉ f.1.2))
    (hmem : ((T, [q]), g) ∈ gs) (hN : g.N = 1) :
    planOf gs q T = 1 := by
  obtain ⟨l1, l2, hsplit⟩ := List.append_of_mem hmem
  subst hsplit
  unfold planOf
  rw [List.foldl_append, List.foldl_cons]
  have hpw2 := (List.pairwise_append.mp hpw).2.1
  have hrel := (List.pairwise_cons.mp hpw2).1
  rw [planFold_untouched _ q T l2 (fun f hf => hlen f (by simp [hf]))
    (fun f hf hfT => fun hq2 => (hrel f hf (by rw [hfT])) q (by simp) hq2)]
  show planStep (l1.foldl planStep (fun _ _ => 0)) ((T, [q]), g) q T = 1
  unfold planStep
  rw [if_pos (show (((T, [q]), g) : (ℕ × List ℕ) × Gate α).2.N = 1 from hN)]
  show (if q = [q].headD 0 ∧ T = T then 1
    else l1.foldl planStep (fun _ _ => 0) q T) = 1
  rw [if_pos ⟨rfl, rfl⟩]

theorem planOf_gate2A {gs : List ((ℕ × List ℕ) × Gate α)} {T q1 q2 : ℕ} {g : Gate α}
    (hlen : ∀ e ∈ gs, e.1.2.length = e.2.N)
    (hpw : gs.Pairwise (fun e f => e.1.1 = f.1.1 → ∀ A ∈ e.1.2, A ∉ f.1.2))
    (hmem : ((T, [q1, q2]), g) ∈ gs) (hN : g.N = 2) (hne : q1 ≠ q2) :
    planOf gs q1 T = 2 := by
  obtain ⟨l1, l2, hsplit⟩ := List.append_of_mem hmem
  subst hsplit
  unfold planOf
  rw [List.foldl_append, List.foldl_cons]
  have hpw2 := (List.pairwise_append.mp hpw).2.1
  have hrel := (List.pairwise_cons.mp hpw2).1
  rw [planFold_untouched _ q1 T l2 (fun f hf => hlen f (by simp [hf]))
    (fun f hf hfT => fun hq2 => (hrel f hf (by rw [hfT])) q1 (by simp) hq2)]
  show planStep (l1.foldl planStep (fun _ _ => 0)) ((T, [q1, q2]), g) q1 T = 2
  unfold planStep
  rw [if_neg (show ¬(((T, [q1, q2]), g) : (ℕ × List ℕ) × Gate α).2.N = 1 by
    rw [show (((T, [q1, q2]), g) : (ℕ × List ℕ) × Gate α).2.N = g.N from rfl, hN]
    decide)]
  rw [if_pos (show (((T, [q1, q2]), g) : (ℕ × List ℕ) × Gate α).2.N = 2 from hN)]
  show (if q1 = [q1, q2].tail.headD 0 ∧ T = T then -2
    else if q1 = [q1, q2].headD 0 ∧ T = T then 2
    else l1.foldl planStep (fun _ _ => 0) q1 T) = 2
  rw [if_neg, if_pos ⟨rfl, rfl⟩]
  rintro ⟨hA, -⟩
  exact hne (by simpa using hA)

theorem planOf_gate2B {gs : List ((ℕ × List ℕ) × Gate α)} {T q1 q2 : ℕ} {g : Gate α}
    (hlen : ∀ e ∈ gs, e.1.2.length = e.2.N)
    (hpw : gs.Pairwise (fun e f => e.1.1 = f.1.1 → ∀ A ∈ e.1.2, A ∉ f.1.2))
    (hmem : ((T, [q1, q2]), g) ∈ gs) (hN : g.N = 2) :
    planOf gs q2 T = -2 := by
  obtain ⟨l1, l2, hsplit⟩ := List.append_of_mem hmem
  subst hsplit
  unfold planOf
  rw [List.foldl_append, List.foldl_cons]
  have hpw2 := (List.pairwise_append.mp hpw).2.1
  have hrel := (List.pairwise_cons.mp hpw2).1
  rw [planFold_untouched _ q2 T l2 (fun f hf => hlen f (by simp [hf]))
    (fun f hf hfT => fun hq2 => (hrel f hf (by rw [hfT])) q2 (by simp) hq2)]
  show planStep (l1.foldl planStep (fun _ _ => 0)) ((T, [q1, q2]), g) q2 T = -2
  unfold planStep
  rw [if_neg (show ¬(((T, [q1, q2]), g) : (ℕ × List ℕ) × Gate α).2.N = 1 by
    rw [show (((T, [q1, q2]), g) : (ℕ × List ℕ) × Gate α).2.N = g.N from rfl, hN]
    decide)]
  rw [if_pos (show (((T, [q1, q2]), g) : (ℕ × List ℕ) × Gate α).2.N = 2 from hN)]
  show (if q2 = [q1, q2].tail.headD 0 ∧ T = T then -2
    else if q2 = [q1, q2].headD 0 ∧ T = T then 2
    else l1.foldl planStep (fun _ _ => 0) q2 T) = -2
  rw [if_pos ⟨rfl, rfl⟩]

theorem planOf_cases {gs : List ((ℕ × List ℕ) × Gate α)}
    (hval : ∀ e ∈ gs, e.1.2.length = e.2.N ∧ (e.2.N = 1 ∨ e.2.N = 2) ∧ e.1.2.Nodup)
    (hpw : gs.Pairwise (fun e f => e.1.1 = f.1.1 → ∀ A ∈ e.1.2, A ∉ f.1.2))
    (A T : ℕ) :
    ((∀ e ∈ gs, e.1.1 = T → A ∉ e.1.2) ∧ planOf gs A T = 0)
    ∨ (∃ g, ((T, [A]), g) ∈ gs ∧ g.N = 1 ∧ planOf gs A T = 1)
    ∨ (∃ B g, ((T, [A, B]), g) ∈ gs ∧ g.N = 2 ∧ A ≠ B ∧ planOf gs A T = 2)
    ∨ (∃ B g, ((T, [B, A]), g) ∈ gs ∧ g.N = 2 ∧ A ≠ B ∧ planOf gs A T = -2) := by
  by_cases hex : ∃ e ∈ gs, e.1.1 = T ∧ A ∈ e.1.2
  · obtain ⟨e, he, hT, hA⟩ := hex
    obtain ⟨hlen, harity, hnd⟩ := hval e he
    rcases harity with h1 | h2
    · obtain ⟨q, hq⟩ := List.length_eq_one.mp (hlen.trans (by rw [h1]))
      have hqA : e.1.2 = [A] := by
        rw [hq] at hA
        simp only [List.mem_singleton] at hA
        rw [hq, hA]
      have he2 : ((T, [A]), e.2) ∈ gs := by
        rw [show ((T, [A]), e.2) = e by rw [← hT, ← hqA]]
        exact he
      exact Or.inr (Or.inl ⟨e.2, he2, h1,
        planOf_gate1 (fun f hf => (hval f hf).1) hpw he2 h1⟩)
    · obtain ⟨q1, q2, hq⟩ := List.length_eq_two.mp (hlen.trans (by rw [h2]))
      have hne : q1 ≠ q2 := by
        rw [hq] at hnd
        simpa using (List.nodup_cons.mp hnd).1
      rw [hq] at hA
      simp only [List.mem_cons, List.mem_singleton, List.not_mem_nil, or_false] at hA
      rcases hA with hA1 | hA2
      · have hqA : e.1.2 = [A, q2] := by rw [hq, hA1]
        have he2 : ((T, [A, q2]), e.2) ∈ gs := by
          rw [show ((T, [A, q2]), e.2) = e by rw [← hT, ← hqA]]
          exact he
        refine Or.inr (Or.inr (Or.inl ⟨q2, e.2, he2, h2, ?_, ?_⟩))
        · rw [hA1]; exact hne
        · exact planOf_gate2A (fun f hf => (hval f hf).1) hpw he2 h2
            (by rw [hA1]; exact hne)
      · have hqA : e.1.2 = [q1, A] := by rw [hq, hA2]
        have he2 : ((T, [q1, A]), e.2) ∈ gs := by
          rw [show ((T, [q1, A]), e.2) = e by rw [← hT, ← hqA]]
          exact he
        refine Or.inr (Or.inr (Or.inr ⟨q1, e.2, he2, h2, ?_, ?_⟩))
        · rw [hA2]; exact fun hEq => hne hEq.symm
        · exact planOf_gate2B (fun f hf => (hval f hf).1) hpw he2 h2
  · have hno : ∀ e ∈ gs, e.1.1 = T → A ∉ e.1.2 :=
      fun e he hT hA => hex ⟨e, he, hT, hA⟩
    exact Or.inl ⟨hno, planFold_untouched _ A T gs (fun e he => (hval e he).1) hno⟩

theorem planOf_touch_ne_zero {gs : List ((ℕ × List ℕ) × Gate α)}
    (hval : ∀ e ∈ gs, e.1.2.length = e.2.N ∧ (e.2.N = 1 ∨ e.2.N = 2) ∧ e.1.2.Nodup)
    (hpw : gs.Pairwise (fun e f => e.1.1 = f.1.1 → ∀ A ∈ e.1.2, A ∉ f.1.2))
    {e : (ℕ × List ℕ) × Gate α} (he : e ∈ gs) {A : ℕ} (hA : A ∈ e.1.2) :
    planOf gs A e.1.1 ≠ 0 := by
  rcases planOf_cases hval hpw A e.1.1 with ⟨hno, -⟩ | ⟨g, -, -, hv⟩
    | ⟨B, g, -, -, -, hv⟩ | ⟨B, g, -, -, -, hv⟩
  · exact absurd hA (hno e he rfl)
  · rw [hv]; decide
  · rw [hv]; decide
  · rw [hv]; decide

theorem planOf_eq_one {gs : List ((ℕ × List ℕ) × Gate α)}
    (hval : ∀ e ∈ gs, e.1.2.length = e.2.N ∧ (e.2.N = 1 ∨ e.2.N = 2) ∧ e.1.2.Nodup)
    (hpw : gs.Pairwise (fun e f => e.1.1 = f.1.1 → ∀ A ∈ e.1.2, A ∉ f.1.2))
    {A T : ℕ} (h : planOf gs A T = 1) :
    ∃ g, ((T, [A]), g) ∈ gs ∧ g.N = 1 := by
  rcases planOf_cases hval hpw A T with ⟨-, hv⟩ | ⟨g, hm, hN, -⟩
    | ⟨B, g, -, -, -, hv⟩ | ⟨B, g, -, -, -, hv⟩
  · rw [h] at hv; cases hv
  · exact ⟨g, hm, hN⟩
  · rw [h] at hv; cases hv
  · rw [h] at hv; cases hv

theorem planOf_two_body {gs : List ((ℕ × List ℕ) × Gate α)}
    (hval : ∀ e ∈ gs, e.1.2.length = e.2.N ∧ (e.2.N = 1 ∨ e.2.N = 2) ∧ e.1.2.Nodup)
    (hpw : gs.Pairwise (fun e f => e.1.1 = f.1.1 → ∀ A ∈ e.1.2, A ∉ f.1.2))
    {A T : ℕ} (h : planOf gs A T = 2 ∨ planOf gs A T = -2) :
    ∃ e ∈ gs, e.1.1 = T ∧ A ∈ e.1.2 ∧ e.2.N = 2 := by
  rcases planOf_cases hval hpw A T with ⟨-, hv⟩ | ⟨g, -, -, hv⟩
    | ⟨B, g, hm, hN, -, -⟩ | ⟨B, g, hm, hN, -, -⟩
  · rcases h with h | h <;> (rw [h] at hv; cases hv)
  · rcases h with h | h <;> (rw [h] at hv; cases hv)
  · exact ⟨((T, [A, B]), g), hm, rfl, by simp, hN⟩
  · exact ⟨((T, [B, A]), g), hm, rfl, by simp, hN⟩

theorem planOf_gate_val {gs : List ((ℕ × List ℕ) × Gate α)}
    (hval : ∀ e ∈ gs, e.1.2.length = e.2.N ∧ (e.2.N = 1 ∨ e.2.N = 2) ∧ e.1.2.Nodup)
    (hpw : gs.Pairwise (fun e f => e.1.1 = f.1.1 → ∀ A ∈ e.1.2, A ∉ f.1.2))
    {e : (ℕ × List ℕ) × Gate α} (he : e ∈ gs) {A : ℕ} (hA : A ∈ e.1.2)
    (hN : e.2.N = 2) :
    planOf gs A e.1.1 = 2 ∨ planOf gs A e.1.1 = -2 := by
  rcases planOf_cases hval hpw A e.1.1 with ⟨hno, -⟩ | ⟨g, hm, hgN, -⟩
    | ⟨B, g, -, -, -, hv⟩ | ⟨B, g, -, -, -, hv⟩
  · exact absurd hA (hno e he rfl)
  · have := slot_unique hpw hm he rfl (by simp) hA
    rw [← this] at hN
    rw [show (((e.1.1, [A]), g) : (ℕ × List ℕ) × Gate α).2.N = g.N from rfl] at hN
    omega
  · exact Or.inl hv
  · exact Or.inr hv

theorem planOf_one_val {gs : List ((ℕ × List ℕ) × Gate α)}
    (hval : ∀ e ∈ gs, e.1.2.length = e.2.N ∧ (e.2.N = 1 ∨ e.2.N = 2) ∧ e.1.2.Nodup)
    (hpw : gs.Pairwise (fun e f => e.1.1 = f.1.1 → ∀ A ∈ e.1.2, A ∉ f.1.2))
    {e : (ℕ × List ℕ) × Gate α} (he : e ∈ gs) {A : ℕ} (hA : A ∈ e.1.2)
    (hN : e.2.N = 1) :
    planOf gs A e.1.1 = 1 := by
  obtain ⟨hlen, -, -⟩ := hval e he
  obtain ⟨q, hq⟩ := List.length_eq_one.mp (hlen.trans (by rw [hN]))
  have hqA : e.1.2 = [A] := by
    rw [hq] at hA
    simp only [List.mem_singleton] at hA
    rw [hq, hA]
  have he2 : ((e.1.1, [A]), e.2) ∈ gs := by
    rw [show ((e.1.1, [A]), e.2) = e by rw [← hqA]]
    exact he
  exact planOf_gate1 (fun f hf => (hval f hf).1) hpw he2 hN

theorem find?_rev_range {p : ℕ → Bool} :
    ∀ {T x : ℕ}, (List.range T).reverse.find? p = some x →
      p x = true ∧ x < T ∧ ∀ y, x < y → y < T → p y = false := by
  intro T
  induction T with
  | zero => intro x h; cases h
  | succ T ih =>
    intro x h
    rw [List.range_succ, List.reverse_append] at h
    simp only [List.reverse_singleton, List.singleton_append, List.find?_cons] at h
    cases hp : p T with
    | true =>
      rw [hp] at h
      cases h
      exact ⟨hp, by omega, fun y h1 h2 => by omega⟩
    | false =>
      rw [hp] at h
      obtain ⟨h1, h2, h3⟩ := ih h
      refine ⟨h1, by omega, fun y hy1 hy2 => ?_⟩
      rcases Nat.lt_or_ge y T with hy | hy
      · exact h3 y hy1 hy
      · rw [show y = T by omega]
        exact hp

theorem scanJam1_spec {plan : ℕ → ℤ} {T T2 : ℕ} (h : scanJam1 plan T = some T2) :
    plan T2 = 1 ∧ T2 < T ∧ ∀ y, T2 < y → y < T → plan y = 0 := by
  unfold scanJam1 at h
  cases hf : (List.range T).reverse.find? (fun T2 => decide (plan T2 ≠ 0)) with
  | none => rw [hf] at h; cases h
  | some T3 =>
    rw [hf] at h
    have h2 : (if plan T3 = 1 then some T3 else none) = some T2 := h
    by_cases hp : plan T3 = 1
    · rw [if_pos hp] at h2
      cases h2
      obtain ⟨-, hlt, hmin⟩ := find?_rev_range hf
      refine ⟨hp, hlt, fun y h1 h3 => ?_⟩
      have := hmin y h1 h3
      simpa using this
    · rw [if_neg hp] at h2
      cases h2

/-! ### Regrouping scaffold: execute a schedule group-by-group -/

/-- Index of the first entry carrying slot key `k`. -/
def slotIdx : List ((ℕ × List ℕ) × Gate α) → (ℕ × List ℕ) → ℕ
  | [], _ => 0
  | e :: l, k => if e.1 = k then 0 else slotIdx l k + 1

theorem slotIdx_spec {l : List ((ℕ × List ℕ) × Gate α)} {k : ℕ × List ℕ} {g : Gate α}
    (h : (k, g) ∈ l) :
    ∃ hi : slotIdx l k < l.length, (l.get ⟨slotIdx l k, hi⟩).1 = k := by
  induction l with
  | nil => cases h
  | cons e l ih =>
    by_cases he : e.1 = k
    · have h0 : slotIdx (e :: l) k = 0 := by rw [slotIdx, if_pos he]
      rw [h0]
      exact ⟨by simp, he⟩
    · have h1 : slotIdx (e :: l) k = slotIdx l k + 1 := by rw [slotIdx, if_neg he]
      have hk : (k, g) ∈ l := by
        rcases List.mem_cons.mp h with hcase | h2
        · exact absurd (by rw [← hcase]) he
        · exact h2
      obtain ⟨hi, hg⟩ := ih hk
      rw [h1]
      exact ⟨by simpa using hi, hg⟩

theorem slotIdx_get {l : List ((ℕ × List ℕ) × Gate α)}
    (hnd : l.Pairwise (fun u v => u.1 ≠ v.1)) :
    ∀ {i : ℕ} (hi : i < l.length), slotIdx l (l.get ⟨i, hi⟩).1 = i := by
  induction l with
  | nil => intro i hi; simp at hi
  | cons e l ih =>
    intro i hi
    match i with
    | 0 =>
      show slotIdx (e :: l) e.1 = 0
      rw [slotIdx, if_pos rfl]
    | j + 1 =>
      have hget : ((e :: l).get ⟨j + 1, hi⟩) = l.get ⟨j, by simpa using hi⟩ := rfl
      rw [hget, slotIdx, if_neg, ih (List.pairwise_cons.mp hnd).2]
      exact (List.pairwise_cons.mp hnd).1 _ (List.get_mem l j (by simpa using hi))

theorem slotIdx_time_mono {l : List ((ℕ × List ℕ) × Gate α)}
    (hs : l.Pairwise (fun u v => u.1.1 ≤ v.1.1))
    {k1 k2 : ℕ × List ℕ} {g1 g2 : Gate α}
    (h1 : (k1, g1) ∈ l) (h2 : (k2, g2) ∈ l) (ht : k1.1 < k2.1) :
    slotIdx l k1 < slotIdx l k2 := by
  obtain ⟨hi1, he1⟩ := slotIdx_spec h1
  obtain ⟨hi2, he2⟩ := slotIdx_spec h2
  by_contra hle
  have hle' : slotIdx l k2 ≤ slotIdx l k1 := Nat.le_of_not_lt hle
  rcases Nat.eq_or_lt_of_le hle' with heq | hlt
  · have hfin : (⟨slotIdx l k2, hi2⟩ : Fin l.length) = ⟨slotIdx l k1, hi1⟩ :=
      Fin.ext heq
    rw [hfin, he1] at he2
    rw [he2] at ht
    omega
  · have := (List.pairwise_iff_get.mp hs) ⟨_, hi2⟩ ⟨_, hi1⟩ hlt
    rw [he1, he2] at this
    omega

theorem take_one_drop {β : Type} (l : List β) (i : ℕ) (hi : i < l.length) :
    (l.drop i).take 1 = [l.get ⟨i, hi⟩] := by
  rw [List.drop_eq_getElem_cons hi]
  rfl

theorem flatMap_drop_take {β : Type} :
    ∀ (l : List β), (List.range l.length).flatMap (fun i => (l.drop i).take 1) = l := by
  intro l
  induction l with
  | nil => rfl
  | cons x l ih =>
    show (List.range (l.length + 1)).flatMap (fun i => ((x :: l).drop i).take 1) = x :: l
    rw [List.range_succ_eq_map, List.flatMap_cons, List.flatMap_map]
    show ((x :: l).drop 0).take 1
        ++ (List.range l.length).flatMap
            (fun i => ((x :: l).drop (Nat.succ i)).take 1) = x :: l
    rw [show (fun i => ((x :: l).drop (Nat.succ i)).take 1)
        = (fun i => (l.drop i).take 1) from rfl, ih]
    rfl

theorem not_opsDisjoint {e1 e2 : (ℕ × List ℕ) × Gate α} (h : ¬ opsDisjoint e1 e2) :
    ∃ q, q ∈ e1.1.2 ∧ q ∈ e2.1.2 := by
  unfold opsDisjoint at h
  by_contra hno
  exact h (fun A hA hA2 => hno ⟨A, hA, hA2⟩)

theorem tsort_mem_of {gs : List ((ℕ × List ℕ) × Gate α)} {nm : ℕ}
    {e : (ℕ × List ℕ) × Gate α} (he : e ∈ gs) (ht : e.1.1 < nm) : e ∈ tsort gs nm := by
  unfold tsort
  rw [List.mem_flatMap]
  exact ⟨e.1.1, List.mem_range.mpr ht, List.mem_filter.mpr ⟨he, by simp⟩⟩

theorem tseq_same_time_eq {c1 : Circuit α} (hcwf : CWF c1)
    {x y : (ℕ × List ℕ) × Gate α}
    (hx : x ∈ c1.tseq) (hy : y ∈ c1.tseq) (hnd : ¬ opsDisjoint x y)
    (ht : x.1.1 = y.1.1) : x = y := by
  obtain ⟨q, hq1, hq2⟩ := not_opsDisjoint hnd
  exact slot_unique hcwf.2.1 (mem_tsort hx).1 (mem_tsort hy).1 ht hq1 hq2

/-- Core regrouping theorem: a time-sorted schedule `src` may be replayed
as any time-sorted, slot-distinct schedule `out` of fused entries,
provided each `src` entry is owned by an `out` slot, ownership is
monotone along interference, and each `out` entry realizes exactly its
owned group. -/
theorem bexec_regroup {n : ℕ} (src out : List ((ℕ × List ℕ) × Gate α))
    (owner : (ℕ × List ℕ) × Gate α → ℕ × List ℕ)
    (hsrc_sorted : src.Pairwise (fun u v => u.1.1 ≤ v.1.1))
    (hout_nodup : out.Pairwise (fun u v => u.1 ≠ v.1))
    (hout_sorted : out.Pairwise (fun u v => u.1.1 ≤ v.1.1))
    (hpresent : ∀ z ∈ src, ∃ g, (owner z, g) ∈ out)
    (hmono : ∀ x ∈ src, ∀ y ∈ src, ¬ opsDisjoint x y → x.1.1 < y.1.1 →
        (owner x).1 < (owner y).1 ∨ owner x = owner y)
    (heq : ∀ x ∈ src, ∀ y ∈ src, ¬ opsDisjoint x y → x.1.1 = y.1.1 → x = y)
    (hsem : ∀ (i : ℕ) (hi : i < out.length), ∀ f0 : (Fin n → Fin 2) → α,
        bexec (src.filter (fun z => decide (owner z = (out.get ⟨i, hi⟩).1))) f0
          = bop (out.get ⟨i, hi⟩) f0) :
    ∀ f0 : (Fin n → Fin 2) → α, bexec src f0 = bexec out f0 := by
  intro f0
  have hmaster := bexec_master (n := n) out.length
      (src.map (fun z => (slotIdx out (owner z), z)))
      (fun i => (out.drop i).take 1) ?htag ?hpw ?hsem2 f0
  case htag =>
    intro x hx
    obtain ⟨z, hz, rfl⟩ := List.mem_map.mp hx
    obtain ⟨g, hg⟩ := hpresent z hz
    obtain ⟨hi, -⟩ := slotIdx_spec hg
    exact hi
  case hpw =>
    rw [List.pairwise_map]
    apply hsrc_sorted.imp_of_mem ?_
    intro a b ha hb hle hlt
    by_contra hnd
    rcases Nat.eq_or_lt_of_le hle with heqt | hltt
    · have hab := heq a ha b hb hnd heqt
      rw [hab] at hlt
      omega
    · rcases hmono a ha b hb hnd hltt with hlt2 | heq2
      · obtain ⟨ga, hga⟩ := hpresent a ha
        obtain ⟨gb, hgb⟩ := hpresent b hb
        have := slotIdx_time_mono hout_sorted hga hgb hlt2
        omega
      · rw [heq2] at hlt
        omega
  case hsem2 =>
    intro i hi g0
    have hconv : ((src.map (fun z => (slotIdx out (owner z), z))).filter
          (fun e => e.1 = i)).map Prod.snd
        = src.filter (fun z => decide (owner z = (out.get ⟨i, hi⟩).1)) := by
      rw [List.filter_map, List.map_map]
      rw [show (Prod.snd ∘ fun z : (ℕ × List ℕ) × Gate α =>
          (slotIdx out (owner z), z)) = id from rfl, List.map_id]
      apply List.filter_congr
      intro z hz
      show decide (slotIdx out (owner z) = i)
        = decide (owner z = (out.get ⟨i, hi⟩).1)
      obtain ⟨g, hg⟩ := hpresent z hz
      obtain ⟨hj, hjeq⟩ := slotIdx_spec hg
      rcases eq_or_ne (owner z) (out.get ⟨i, hi⟩).1 with hcase | hcase
      · have h9 : slotIdx out (owner z) = i := by
          rw [hcase, slotIdx_get hout_nodup hi]
        rw [h9, hcase]
        simp
      · have h9 : slotIdx out (owner z) ≠ i := by
          intro hEq
          apply hcase
          rw [← hjeq]
          have hfin : (⟨slotIdx out (owner z), hj⟩ : Fin out.length) = ⟨i, hi⟩ :=
            Fin.mk_eq_mk.mpr hEq
          rw [hfin]
        rw [decide_eq_false h9, decide_eq_false hcase]
    show bexec (((src.map (fun z => (slotIdx out (owner z), z))).filter
        (fun e => e.1 = i)).map Prod.snd) g0
      = bexec ((out.drop i).take 1) g0
    rw [hconv, take_one_drop out i hi]
    rw [hsem i hi g0]
    rfl
  have hl : (src.map (fun z => (slotIdx out (owner z), z))).map Prod.snd = src := by
    rw [List.map_map]
    rw [show (Prod.snd ∘ fun z : (ℕ × List ℕ) × Gate α =>
        (slotIdx out (owner z), z)) = id from rfl, List.map_id]
  rw [hl] at hmaster
  rw [hmaster, flatMap_drop_take]

/-! ### Filter shape utilities -/

theorem filter_eq_single {β : Type} {l : List β} {p : β → Bool} {x : β}
    (hpw : l.Pairwise (fun u v => p u = true → p v = true → False))
    (hx : x ∈ l) (hp : p x = true) : l.filter p = [x] := by
  induction l with
  | nil => cases hx
  | cons e l ih =>
    rw [List.filter_cons]
    rcases List.mem_cons.mp hx with hcase | hx2
    · subst hcase
      rw [if_pos hp]
      congr 1
      rw [List.filter_eq_nil_iff]
      intro z hz hpz
      exact (List.pairwise_cons.mp hpw).1 z hz hp hpz
    · cases hpe : p e with
      | true => exact absurd ((List.pairwise_cons.mp hpw).1 x hx2 hpe hp) id
      | false =>
        rw [if_neg (by simp [hpe])]
        exact ih (List.pairwise_cons.mp hpw).2 hx2

theorem filter_eq_pair {β : Type} {l : List β} {p : β → Bool} {x y : β}
    (hxy : x ≠ y)
    (hpw : l.Pairwise (fun u v => p u = true → p v = true → u ≠ v))
    (hx : x ∈ l) (hy : y ∈ l) (hpx : p x = true) (hpy : p y = true)
    (huniq : ∀ z ∈ l, p z = true → z = x ∨ z = y) :
    l.filter p = [x, y] ∨ l.filter p = [y, x] := by
  have hsub : ∀ z ∈ l.filter p, z = x ∨ z = y := by
    intro z hz
    exact huniq z (List.mem_of_mem_filter hz) (List.of_mem_filter hz)
  have hnd : (l.filter p).Pairwise (fun u v => u ≠ v) := by
    apply (hpw.filter p).imp_of_mem
    intro u v hu hv hR
    exact hR (List.of_mem_filter hu) (List.of_mem_filter hv)
  have hxm : x ∈ l.filter p := List.mem_filter.mpr ⟨hx, hpx⟩
  have hym : y ∈ l.filter p := List.mem_filter.mpr ⟨hy, hpy⟩
  match hfp : l.filter p, hnd, hsub with
  | [], _, _ =>
    rw [hfp] at hxm
    cases hxm
  | [a], _, _ =>
    rw [hfp] at hxm hym
    simp only [List.mem_singleton] at hxm hym
    exact absurd (hxm.trans hym.symm) hxy
  | a :: b :: c :: r, hnd2, hsub2 =>
    have ha := hsub2 a (by simp)
    have hb := hsub2 b (by simp)
    have hc := hsub2 c (by simp)
    have hab : a ≠ b := (List.pairwise_cons.mp hnd2).1 b (by simp)
    have hac : a ≠ c := (List.pairwise_cons.mp hnd2).1 c (by simp)
    have hbc : b ≠ c :=
      (List.pairwise_cons.mp (List.pairwise_cons.mp hnd2).2).1 c (by simp)
    rcases ha with rfl | rfl <;> rcases hb with rfl | rfl <;>
      rcases hc with h3 | h3 <;> first
      | exact absurd rfl hab
      | (rw [h3] at hac hbc; first | exact absurd rfl hac | exact absurd rfl hbc)
  | [a, b], hnd2, hsub2 =>
    have ha := hsub2 a (by simp)
    have hb := hsub2 b (by simp)
    have hab : a ≠ b := (List.pairwise_cons.mp hnd2).1 b (by simp)
    rcases ha with rfl | rfl
    · rcases hb with rfl | rfl
      · exact absurd rfl hab
      · exact Or.inl rfl
    · rcases hb with rfl | rfl
      · exact Or.inr rfl
      · exact absurd rfl hab

theorem filter_split_sorted {β : Type} {τ : β → ℕ} {p q : β → Bool} {tcut : ℕ} :
    ∀ {l : List β}, l.Pairwise (fun u v => τ u ≤ τ v) →
    (∀ z ∈ l, p z = true → τ z < tcut) →
    (∀ z ∈ l, q z = true → tcut ≤ τ z) →
    l.filter (fun z => p z || q z) = l.filter p ++ l.filter q := by
  intro l
  induction l with
  | nil => intro _ _ _; rfl
  | cons e l ih =>
    intro hs hp hq
    have hrec := ih (List.pairwise_cons.mp hs).2
      (fun z hz => hp z (List.mem_cons_of_mem _ hz))
      (fun z hz => hq z (List.mem_cons_of_mem _ hz))
    rw [List.filter_cons, List.filter_cons, List.filter_cons]
    cases hpe : p e with
    | true =>
      have hqe : q e = false := by
        cases hqe : q e with
        | false => rfl
        | true =>
          have h1 := hp e (List.mem_cons_self _ _) hpe
          have h2 := hq e (List.mem_cons_self _ _) hqe
          omega
      rw [if_pos (show (true || q e) = true from rfl),
        if_pos (show (true = true) from rfl),
        if_neg (show ¬ (q e = true) by simp [hqe]), hrec]
      rfl
    | false =>
      cases hqe : q e with
      | true =>
        have hfp : l.filter p = [] := by
          rw [List.filter_eq_nil_iff]
          intro z hz hpz
          have h1 := hp z (List.mem_cons_of_mem _ hz) hpz
          have h2 := hq e (List.mem_cons_self _ _) hqe
          have h3 := (List.pairwise_cons.mp hs).1 z hz
          omega
        rw [if_pos (show (false || true) = true from rfl),
          if_neg (show ¬ (false = true) by simp),
          if_pos (show (true = true) from rfl), hrec, hfp]
        rfl
      | false =>
        rw [if_neg (show ¬ ((false || false) = true) by simp),
          if_neg (show ¬ (false = true) by simp),
          if_neg (show ¬ (false = true) by simp), hrec]

theorem key1_shape {n : ℕ} {e : (ℕ × List ℕ) × Gate α} (hv : OpValid n e)
    (hN : e.2.N = 1) : ∃ q, e.1.2 = [q] ∧ q < n := by
  obtain ⟨hlen, -, -, hrange⟩ := hv
  obtain ⟨q, hq⟩ := List.length_eq_one.mp (hlen.trans (by rw [hN]))
  exact ⟨q, hq, hrange q (by rw [hq]; simp)⟩

theorem key2_shape {n : ℕ} {e : (ℕ × List ℕ) × Gate α} (hv : OpValid n e)
    (hN : e.2.N = 2) : ∃ A B, e.1.2 = [A, B] ∧ A ≠ B ∧ A < n ∧ B < n := by
  obtain ⟨hlen, -, hnd, hrange⟩ := hv
  obtain ⟨A, B, hq⟩ := List.length_eq_two.mp (hlen.trans (by rw [hN]))
  rw [hq] at hnd
  refine ⟨A, B, hq, by simpa using (List.nodup_cons.mp hnd).1,
    hrange A (by rw [hq]; simp), hrange B (by rw [hq]; simp)⟩

theorem bop_eq1 {n : ℕ} {e : (ℕ × List ℕ) × Gate α} {q : ℕ} (hkey : e.1.2 = [q])
    (hN : e.2.N = 1) (hq : q < n) (f : (Fin n → Fin 2) → α) :
    bop e f = bApply1 e.2.asU1 ⟨q, hq⟩ f := by
  obtain ⟨⟨T, key⟩, N, U, params, name⟩ := e
  have h2 : N = 1 := hN
  subst h2
  have h3 : key = [q] := hkey
  subst h3
  show (if hA : q < n then bApply1 U ⟨q, hA⟩ f else f) = _
  rw [dif_pos hq]
  rfl

theorem bop_eq2 {n : ℕ} {e : (ℕ × List ℕ) × Gate α} {A B : ℕ}
    (hkey : e.1.2 = [A, B]) (hN : e.2.N = 2) (hA : A < n) (hB : B < n)
    (f : (Fin n → Fin 2) → α) :
    bop e f = bApply2 e.2.asU2 ⟨A, hA⟩ ⟨B, hB⟩ f := by
  obtain ⟨⟨T, key⟩, N, U, params, name⟩ := e
  have h2 : N = 2 := hN
  subst h2
  have h3 : key = [A, B] := hkey
  subst h3
  show (if h : A < n ∧ B < n then bApply2 U ⟨A, h.1⟩ ⟨B, h.2⟩ f else f) = _
  rw [dif_pos ⟨hA, hB⟩]
  rfl

theorem bApply2_mulA_right {n : ℕ} (W : Matrix (Fin 4) (Fin 4) α)
    (V : Matrix (Fin 2) (Fin 2) α) (a b : Fin n) (hab : a ≠ b)
    (f : (Fin n → Fin 2) → α) :
    bApply2 (W * kron2 V 1) a b f = bApply2 W a b (bApply1 V a f) := by
  rw [← bApply2_comp W (kron2 V 1) a b hab, bApply2_kron_left V a b hab]

theorem bApply2_mulB_right {n : ℕ} (W : Matrix (Fin 4) (Fin 4) α)
    (V : Matrix (Fin 2) (Fin 2) α) (a b : Fin n) (hab : a ≠ b)
    (f : (Fin n → Fin 2) → α) :
    bApply2 (W * kron2 1 V) a b f = bApply2 W a b (bApply1 V b f) := by
  rw [← bApply2_comp W (kron2 1 V) a b hab, bApply2_kron_right V a b]

theorem bApply2_mulA_left {n : ℕ} (W : Matrix (Fin 4) (Fin 4) α)
    (V : Matrix (Fin 2) (Fin 2) α) (a b : Fin n) (hab : a ≠ b)
    (f : (Fin n → Fin 2) → α) :
    bApply2 (kron2 V 1 * W) a b f = bApply1 V a (bApply2 W a b f) := by
  rw [← bApply2_comp (kron2 V 1) W a b hab, bApply2_kron_left V a b hab]

theorem bApply2_mulB_left {n : ℕ} (W : Matrix (Fin 4) (Fin 4) α)
    (V : Matrix (Fin 2) (Fin 2) α) (a b : Fin n) (hab : a ≠ b)
    (f : (Fin n → Fin 2) → α) :
    bApply2 (kron2 1 V * W) a b f = bApply1 V b (bApply2 W a b f) := by
  rw [← bApply2_comp (kron2 1 V) W a b hab, bApply2_kron_right V a b]

theorem foldlM_skip {β σ : Type} (f : σ → β → Except String σ) (P : β → Prop)
    [DecidablePred P] :
    ∀ (l : List β) (s : σ),
    l.foldlM (fun acc e => if P e then .ok acc else f acc e) s
      = (l.filter (fun e => !decide (P e))).foldlM f s := by
  intro l
  induction l with
  | nil => intro s; rfl
  | cons e l ih =>
    intro s
    rw [List.foldlM_cons, List.filter_cons]
    by_cases hp : P e
    · rw [if_pos hp, show (!decide (P e)) = false by rw [decide_eq_true hp]; rfl]
      rw [if_neg (by simp)]
      show l.foldlM (fun acc e => if P e then .ok acc else f acc e) s = _
      exact ih s
    · rw [if_neg hp, show (!decide (P e)) = true by rw [decide_eq_false hp]; rfl]
      rw [if_pos rfl, List.foldlM_cons]
      cases hf : f s e with
      | error msg => rfl
      | ok s2 =>
        show l.foldlM (fun acc e => if P e then .ok acc else f acc e) s2
          = (l.filter (fun e => !decide (P e))).foldlM f s2
        exact ih s2

theorem length_filter_partition {β : Type} (l : List β) (p : β → Bool) :
    l.length = (l.filter p).length + (l.filter (fun e => !p e)).length := by
  have := (List.filter_append_perm p l).length_eq
  rw [List.length_append] at this
  omega

/-! ### Pass 2: output characterization -/

/-- The keys of every 1-body gate absorbed by some 2-body gate in pass 2. -/
def pass2Jammed (c1 : Circuit α) (nm : ℕ) : List (ℕ × List ℕ) :=
  (c1.gates.filter (fun f => f.2.N == 2)).flatMap (fun f => (jamsOfGate c1 nm f).2)

/-- The `add_gate` requests pass 2 issues, in order: the jammed composite
of each 2-body gate, then the surviving 1-body gates. -/
def pass2Reqs (c1 : Circuit α) (nm : ℕ) : List ((ℤ × List ℕ) × Gate α) :=
  (c1.gates.filter (fun e => e.2.N == 2)).map
      (fun e => (((e.1.1 : ℤ), e.1.2), Gate.U2 (jamsOfGate c1 nm e).1))
    ++ ((c1.gates.filter (fun e => e.2.N == 1)).filter
        (fun e => !decide (e.1 ∈ pass2Jammed c1 nm))).map
      (fun e => (((e.1.1 : ℤ), e.1.2), e.2))

theorem compressPass2_eq (c1 : Circuit α) (nm : ℕ)
    (h12 : c1.gates.all (fun e => e.2.N == 1 || e.2.N == 2) = true) :
    compressPass2 c1 nm = addReqs (Circuit.empty α c1.N) (pass2Reqs c1 nm) := by
  unfold compressPass2
  rw [if_pos h12]
  unfold pass2Reqs addReqs
  rw [List.foldlM_append, List.foldlM_map]
  apply bind_congr
  intro c2
  rw [List.foldlM_map]
  exact foldlM_skip (fun acc (e : (ℕ × List ℕ) × Gate α) =>
      acc.addGate (e.1.1 : ℤ) e.1.2 e.2)
    (fun e => e.1 ∈ (c1.gates.filter (fun f => f.2.N == 2)).flatMap
      (fun f => (jamsOfGate c1 nm f).2))
    (c1.gates.filter (fun e => e.2.N == 1)) c2

theorem cwf_all_arity {c1 : Circuit α} (hcwf : CWF c1) :
    c1.gates.all (fun e => e.2.N == 1 || e.2.N == 2) = true := by
  rw [List.all_eq_true]
  intro e he
  rcases (hcwf.1 e he).2.1 with h | h <;> rw [h] <;> rfl

theorem pass2_ok (c1 : Circuit α) (nm : ℕ) (hcwf : CWF c1) :
    ∃ c2, compressPass2 c1 nm = .ok c2
      ∧ c2.N = c1.N
      ∧ CWF c2
      ∧ c2.gates
        = (c1.gates.filter (fun e => e.2.N == 2)).map
            (fun e => (e.1, Gate.U2 (jamsOfGate c1 nm e).1))
          ++ (c1.gates.filter (fun e => e.2.N == 1)).filter
              (fun e => !decide (e.1 ∈ pass2Jammed c1 nm)) := by
  have hgood : ∀ r ∈ pass2Reqs c1 nm, ReqGood c1.N r := by
    intro r hr
    rcases List.mem_append.mp hr with h1 | h2
    · obtain ⟨e, he, rfl⟩ := List.mem_map.mp h1
      have hN : e.2.N = 2 := by
        have := List.of_mem_filter he
        rwa [beq_iff_eq] at this
      obtain ⟨hlen, -, hnd, hrange⟩ := hcwf.1 e (List.mem_of_mem_filter he)
      exact ⟨Int.natCast_nonneg _, by rw [hlen, hN]; rfl, Or.inr rfl, hnd, hrange⟩
    · obtain ⟨e, he, rfl⟩ := List.mem_map.mp h2
      have hN : e.2.N = 1 := by
        have := List.of_mem_filter (List.mem_of_mem_filter he)
        rwa [beq_iff_eq] at this
      obtain ⟨hlen, -, hnd, hrange⟩ := hcwf.1 e
        (List.mem_of_mem_filter (List.mem_of_mem_filter he))
      exact ⟨Int.natCast_nonneg _, hlen, Or.inl hN, hnd, hrange⟩
  have hdisj : (pass2Reqs c1 nm).Pairwise ReqDisj := by
    unfold pass2Reqs
    rw [List.pairwise_append]
    refine ⟨?_, ?_, ?_⟩
    · rw [List.pairwise_map]
      apply ((hcwf.2.1).filter _).imp_of_mem
      intro a b ha hb hR hT
      have hT2 : (a.1.1 : ℤ) = (b.1.1 : ℤ) := hT
      exact hR (by omega)
    · rw [List.pairwise_map]
      apply (((hcwf.2.1).filter _).filter _).imp_of_mem
      intro a b ha hb hR hT
      have hT2 : (a.1.1 : ℤ) = (b.1.1 : ℤ) := hT
      exact hR (by omega)
    · intro ra hra rb hrb
      obtain ⟨e, he, rfl⟩ := List.mem_map.mp hra
      obtain ⟨f, hf, rfl⟩ := List.mem_map.mp hrb
      have hNe : e.2.N = 2 := by
        have := List.of_mem_filter he
        rwa [beq_iff_eq] at this
      have hNf : f.2.N = 1 := by
        have := List.of_mem_filter (List.mem_of_mem_filter hf)
        rwa [beq_iff_eq] at this
      have hef : e ≠ f := fun hEq => by rw [hEq, hNf] at hNe; cases hNe
      intro hT
      have hT2 : (e.1.1 : ℤ) = (f.1.1 : ℤ) := hT
      exact (hcwf.2.1).forall slotRel_symm (List.mem_of_mem_filter he)
        (List.mem_of_mem_filter (List.mem_of_mem_filter hf)) hef (by omega)
  obtain ⟨c2, hc2, hinv, hcwf2⟩ := addReqs_CWF (pass2Reqs c1 nm) hgood hdisj
  obtain ⟨hN, hgates, -, -, -⟩ := hinv
  refine ⟨c2, ?_, hN, hcwf2, ?_⟩
  · rw [compressPass2_eq c1 nm (cwf_all_arity hcwf)]
    exact hc2
  · rw [hgates]
    unfold pass2Reqs
    rw [List.map_append, List.map_map, List.map_map]
    have h1 : (c1.gates.filter (fun e => e.2.N == 2)).map
        ((fun r : (ℤ × List ℕ) × Gate α => ((r.1.1.toNat, r.1.2), r.2))
          ∘ fun e : (ℕ × List ℕ) × Gate α =>
            (((e.1.1 : ℤ), e.1.2), Gate.U2 (jamsOfGate c1 nm e).1))
        = (c1.gates.filter (fun e => e.2.N == 2)).map
          (fun e => (e.1, Gate.U2 (jamsOfGate c1 nm e).1)) := by
      apply List.map_congr_left
      intro e he
      show (((e.1.1 : ℤ).toNat, e.1.2), Gate.U2 (jamsOfGate c1 nm e).1) = _
      rw [Int.toNat_natCast]
    have hid : ((fun r : (ℤ × List ℕ) × Gate α => ((r.1.1.toNat, r.1.2), r.2))
        ∘ fun e : (ℕ × List ℕ) × Gate α => (((e.1.1 : ℤ), e.1.2), e.2)) = id := by
      funext e
      show (((e.1.1 : ℤ).toNat, e.1.2), e.2) = e
      rw [Int.toNat_natCast]
    rw [h1, hid, List.map_id]

/-! ### Pass 2: absorption geometry -/

theorem jams2_eq (c1 : Circuit α) (nm : ℕ) (e : (ℕ × List ℕ) × Gate α) :
    (jamsOfGate c1 nm e).2
      = (scanJam1 (planOf c1.gates (e.1.2.headD 0)) e.1.1).toList.map
          (fun T2 => (T2, [e.1.2.headD 0]))
        ++ (scanJam1 (planOf c1.gates (e.1.2.tail.headD 0)) e.1.1).toList.map
          (fun T2 => (T2, [e.1.2.tail.headD 0]))
        ++ (rightJamIdx (planOf c1.gates (e.1.2.headD 0)) e.1.1 nm).toList.map
          (fun T2 => (T2, [e.1.2.headD 0]))
        ++ (rightJamIdx (planOf c1.gates (e.1.2.tail.headD 0)) e.1.1 nm).toList.map
          (fun T2 => (T2, [e.1.2.tail.headD 0])) := rfl

theorem mem_option_toList_map {β γ : Type} {o : Option β} {h : β → γ} {x : γ}
    (hm : x ∈ o.toList.map h) : ∃ a, o = some a ∧ x = h a := by
  cases o with
  | none => cases hm
  | some a =>
    refine ⟨a, rfl, ?_⟩
    simpa using hm

theorem jam_source {c1 : Circuit α} {nm : ℕ} {f : (ℕ × List ℕ) × Gate α}
    {A B : ℕ} (hkey : f.1.2 = [A, B])
    {k : ℕ × List ℕ} (h : k ∈ (jamsOfGate c1 nm f).2) :
    ∃ q t, k = (t, [q]) ∧ (q = A ∨ q = B)
      ∧ planOf c1.gates q t = 1
      ∧ ((t < f.1.1
            ∧ (∀ y, t < y → y < f.1.1 → planOf c1.gates q y = 0))
        ∨ (f.1.1 < t ∧ t < nm
            ∧ (∀ y, f.1.1 < y → y < t → planOf c1.gates q y ≠ 1)
            ∧ (∀ y, f.1.1 < y → y < nm →
                planOf c1.gates q y ≠ 2 ∧ planOf c1.gates q y ≠ -2))) := by
  rw [jams2_eq] at h
  have hA : f.1.2.headD 0 = A := by rw [hkey]; rfl
  have hB : f.1.2.tail.headD 0 = B := by rw [hkey]; rfl
  rw [hA, hB] at h
  rcases List.mem_append.mp h with h3 | hrB
  · rcases List.mem_append.mp h3 with h2 | hrA
    · rcases List.mem_append.mp h2 with hlA | hlB
      · obtain ⟨t, hscan, rfl⟩ := mem_option_toList_map hlA
        obtain ⟨hp, hlt2, hclean⟩ := scanJam1_spec hscan
        exact ⟨A, t, rfl, Or.inl rfl, hp, Or.inl ⟨hlt2, hclean⟩⟩
      · obtain ⟨t, hscan, rfl⟩ := mem_option_toList_map hlB
        obtain ⟨hp, hlt2, hclean⟩ := scanJam1_spec hscan
        exact ⟨B, t, rfl, Or.inr rfl, hp, Or.inl ⟨hlt2, hclean⟩⟩
    · obtain ⟨t, hscan, rfl⟩ := mem_option_toList_map hrA
      obtain ⟨-, hno2, hp, hlt2, hlt3, hmin⟩ :=
        rightJamIdx_some (fun t2 => planOf_values c1.gates A t2) hscan
      exact ⟨A, t, rfl, Or.inl rfl, hp, Or.inr ⟨hlt2, hlt3, hmin, hno2⟩⟩
  · obtain ⟨t, hscan, rfl⟩ := mem_option_toList_map hrB
    obtain ⟨-, hno2, hp, hlt2, hlt3, hmin⟩ :=
      rightJamIdx_some (fun t2 => planOf_values c1.gates B t2) hscan
    exact ⟨B, t, rfl, Or.inr rfl, hp, Or.inr ⟨hlt2, hlt3, hmin, hno2⟩⟩

theorem cwf_val {c1 : Circuit α} (hcwf : CWF c1) :
    ∀ e ∈ c1.gates, e.1.2.length = e.2.N ∧ (e.2.N = 1 ∨ e.2.N = 2)
      ∧ e.1.2.Nodup := by
  intro e he
  obtain ⟨h1, h2, h3, -⟩ := hcwf.1 e he
  exact ⟨h1, h2, h3⟩

theorem touch_of_jam_qubit {f : (ℕ × List ℕ) × Gate α} {A B q : ℕ}
    (hkey : f.1.2 = [A, B]) (hq : q = A ∨ q = B) : q ∈ f.1.2 := by
  rw [hkey]
  rcases hq with rfl | rfl <;> simp

theorem jams_unique {c1 : Circuit α} {nm : ℕ} (hcwf : CWF c1)
    (hlt : ∀ e ∈ c1.gates, e.1.1 < nm)
    {f g : (ℕ × List ℕ) × Gate α} (hf : f ∈ c1.gates) (hg : g ∈ c1.gates)
    (hNf : f.2.N = 2) (hNg : g.2.N = 2)
    {k : ℕ × List ℕ} (h1 : k ∈ (jamsOfGate c1 nm f).2)
    (h2 : k ∈ (jamsOfGate c1 nm g).2) : f = g := by
  obtain ⟨Af, Bf, hkf, -, -, -⟩ := key2_shape (hcwf.1 f hf) hNf
  obtain ⟨Ag, Bg, hkg, -, -, -⟩ := key2_shape (hcwf.1 g hg) hNg
  obtain ⟨q, t, hk, hqf, hp1, hform1⟩ := jam_source hkf h1
  obtain ⟨q2, t2, hk2, hqg, hp2, hform2⟩ := jam_source hkg h2
  have hkk : (t, [q]) = (t2, [q2]) := by rw [← hk, ← hk2]
  have ht : t = t2 := congrArg Prod.fst hkk
  have hq : q = q2 := by
    have := congrArg Prod.snd hkk
    simpa using this
  subst ht
  subst hq
  have hfq : q ∈ f.1.2 := touch_of_jam_qubit hkf hqf
  have hgq : q ∈ g.1.2 := touch_of_jam_qubit hkg hqg
  have hpf := planOf_gate_val (cwf_val hcwf) hcwf.2.1 hf hfq hNf
  have hpg := planOf_gate_val (cwf_val hcwf) hcwf.2.1 hg hgq hNg
  have hfnm := hlt f hf
  have hgnm := hlt g hg
  rcases hform1 with ⟨hlt1, hcl1⟩ | ⟨hgt1, -, -, hno1⟩ <;>
    rcases hform2 with ⟨hlt2, hcl2⟩ | ⟨hgt2, -, -, hno2⟩
  · rcases Nat.lt_trichotomy f.1.1 g.1.1 with hc | hc | hc
    · have := hcl2 f.1.1 hlt1 hc
      rcases hpf with h | h <;> (rw [h] at this; cases this)
    · exact slot_unique hcwf.2.1 hf hg hc hfq hgq
    · have := hcl1 g.1.1 hlt2 hc
      rcases hpg with h | h <;> (rw [h] at this; cases this)
  · have := hno2 f.1.1 (by omega) (by omega)
    rcases hpf with h | h
    · exact absurd h this.1
    · exact absurd h this.2
  · have := hno1 g.1.1 (by omega) (by omega)
    rcases hpg with h | h
    · exact absurd h this.1
    · exact absurd h this.2
  · rcases Nat.lt_trichotomy f.1.1 g.1.1 with hc | hc | hc
    · have := hno1 g.1.1 (by omega) (by omega)
      rcases hpg with h | h
      · exact absurd h this.1
      · exact absurd h this.2
    · exact slot_unique hcwf.2.1 hf hg hc hfq hgq
    · have := hno2 f.1.1 (by omega) (by omega)
      rcases hpf with h | h
      · exact absurd h this.1
      · exact absurd h this.2

/-- The slot of the pass-2 output gate a given input gate ends up in:
the enclosing 2-body composite for an absorbed 1-body gate, the gate's
own slot otherwise. -/
def pass2Owner (c1 : Circuit α) (nm : ℕ) (z : (ℕ × List ℕ) × Gate α) :
    ℕ × List ℕ :=
  match (c1.gates.filter (fun f => f.2.N == 2)).find?
      (fun f => decide (z.1 ∈ (jamsOfGate c1 nm f).2)) with
  | some f => f.1
  | none => z.1

theorem owner_absorbed {c1 : Circuit α} {nm : ℕ} (hcwf : CWF c1)
    (hlt : ∀ e ∈ c1.gates, e.1.1 < nm)
    {z f : (ℕ × List ℕ) × Gate α}
    (hf2 : f ∈ c1.gates.filter (fun f => f.2.N == 2))
    (hmem : z.1 ∈ (jamsOfGate c1 nm f).2) :
    pass2Owner c1 nm z = f.1 := by
  unfold pass2Owner
  cases hfind : (c1.gates.filter (fun f => f.2.N == 2)).find?
      (fun g => decide (z.1 ∈ (jamsOfGate c1 nm g).2)) with
  | none =>
    have := List.find?_eq_none.mp hfind f hf2
    rw [decide_eq_true_eq] at this
    exact absurd hmem this
  | some g =>
    have hgmem := List.mem_of_find?_eq_some hfind
    have hgp := List.find?_some hfind
    rw [decide_eq_true_eq] at hgp
    have hNg : g.2.N = 2 := by
      have := List.of_mem_filter hgmem
      rwa [beq_iff_eq] at this
    have hNf : f.2.N = 2 := by
      have := List.of_mem_filter hf2
      rwa [beq_iff_eq] at this
    rw [jams_unique hcwf hlt (List.mem_of_mem_filter hgmem)
      (List.mem_of_mem_filter hf2) hNg hNf hgp hmem]

theorem owner_self {c1 : Circuit α} {nm : ℕ} {z : (ℕ × List ℕ) × Gate α}
    (h : ∀ f ∈ c1.gates.filter (fun f => f.2.N == 2),
      z.1 ∉ (jamsOfGate c1 nm f).2) : pass2Owner c1 nm z = z.1 := by
  unfold pass2Owner
  have hn : (c1.gates.filter (fun f => f.2.N == 2)).find?
      (fun f => decide (z.1 ∈ (jamsOfGate c1 nm f).2)) = none := by
    rw [List.find?_eq_none]
    intro g hg
    rw [decide_eq_true_eq]
    exact h g hg
  rw [hn]

theorem owner_status {c1 : Circuit α} {nm : ℕ}
    {z : (ℕ × List ℕ) × Gate α} :
    (pass2Owner c1 nm z = z.1
      ∧ ∀ f ∈ c1.gates.filter (fun f => f.2.N == 2),
          z.1 ∉ (jamsOfGate c1 nm f).2)
    ∨ ∃ f, f ∈ c1.gates ∧ f.2.N = 2 ∧ pass2Owner c1 nm z = f.1
        ∧ z.1 ∈ (jamsOfGate c1 nm f).2 := by
  unfold pass2Owner
  cases hfind : (c1.gates.filter (fun f => f.2.N == 2)).find?
      (fun f => decide (z.1 ∈ (jamsOfGate c1 nm f).2)) with
  | none =>
    refine Or.inl ⟨rfl, fun f hf hmem => ?_⟩
    have := List.find?_eq_none.mp hfind f hf
    rw [decide_eq_true_eq] at this
    exact this hmem
  | some f =>
    have hfmem := List.mem_of_find?_eq_some hfind
    have hfp := List.find?_some hfind
    rw [decide_eq_true_eq] at hfp
    have hNf : f.2.N = 2 := by
      have := List.of_mem_filter hfmem
      rwa [beq_iff_eq] at this
    exact Or.inr ⟨f, List.mem_of_mem_filter hfmem, hNf, rfl, hfp⟩

theorem owner_2body {c1 : Circuit α} {nm : ℕ} (hcwf : CWF c1)
    {z : (ℕ × List ℕ) × Gate α} (hz : z ∈ c1.gates) (hN : z.2.N = 2) :
    pass2Owner c1 nm z = z.1 := by
  apply owner_self
  intro f hf hmem
  have hNf : f.2.N = 2 := by
    have := List.of_mem_filter hf
    rwa [beq_iff_eq] at this
  obtain ⟨Af, Bf, hkf, -, -, -⟩ :=
    key2_shape (hcwf.1 f (List.mem_of_mem_filter hf)) hNf
  obtain ⟨q, t, hk, -, -, -⟩ := jam_source hkf hmem
  obtain ⟨Az, Bz, hkz, -, -, -⟩ := key2_shape (hcwf.1 z hz) hN
  have : z.1.2 = [q] := by
    have := congrArg Prod.snd hk
    simpa using this
  rw [hkz] at this
  cases this

theorem absorbed_data {c1 : Circuit α} {nm : ℕ} (hcwf : CWF c1)
    {z f : (ℕ × List ℕ) × Gate α} (hz : z ∈ c1.gates) (hf : f ∈ c1.gates)
    (hNf : f.2.N = 2) (hmem : z.1 ∈ (jamsOfGate c1 nm f).2) {q : ℕ}
    (hq : q ∈ z.1.2) :
    z.1.2 = [q] ∧ z.2.N = 1 ∧ q ∈ f.1.2
      ∧ planOf c1.gates q z.1.1 = 1
      ∧ ((z.1.1 < f.1.1
            ∧ ∀ y, z.1.1 < y → y < f.1.1 → planOf c1.gates q y = 0)
        ∨ (f.1.1 < z.1.1 ∧ z.1.1 < nm
            ∧ (∀ y, f.1.1 < y → y < z.1.1 → planOf c1.gates q y ≠ 1)
            ∧ (∀ y, f.1.1 < y → y < nm →
                planOf c1.gates q y ≠ 2 ∧ planOf c1.gates q y ≠ -2))) := by
  obtain ⟨Af, Bf, hkf, -, -, -⟩ := key2_shape (hcwf.1 f hf) hNf
  obtain ⟨q0, t, hk, hqf, hp1, hform⟩ := jam_source hkf hmem
  have hkey : z.1.2 = [q0] := by
    have := congrArg Prod.snd hk
    simpa using this
  have ht : z.1.1 = t := congrArg Prod.fst hk
  have hqq : q = q0 := by
    rw [hkey] at hq
    simpa using hq
  subst hqq
  have hN1 : z.2.N = 1 := by
    have hlen := (hcwf.1 z hz).1
    rw [hkey] at hlen
    simpa using hlen.symm
  rw [ht]
  exact ⟨hkey, hN1, touch_of_jam_qubit hkf hqf, hp1, hform⟩

theorem pass2_owner_mono {c1 : Circuit α} {nm : ℕ} (hcwf : CWF c1)
    (hlt : ∀ e ∈ c1.gates, e.1.1 < nm)
    {x y : (ℕ × List ℕ) × Gate α} (hx : x ∈ c1.gates) (hy : y ∈ c1.gates)
    {q : ℕ} (hqx : q ∈ x.1.2) (hqy : q ∈ y.1.2) (ht : x.1.1 < y.1.1) :
    (pass2Owner c1 nm x).1 < (pass2Owner c1 nm y).1
    ∨ pass2Owner c1 nm x = pass2Owner c1 nm y := by
  have hval := cwf_val hcwf
  have hpw := hcwf.2.1
  rcases @owner_status _ _ c1 nm x with ⟨hox, -⟩ |
    ⟨f, hfm, hfN, hox, hxjam⟩
  · rcases @owner_status _ _ c1 nm y with ⟨hoy, -⟩ |
      ⟨g, hgm, hgN, hoy, hyjam⟩
    · rw [hox, hoy]
      exact Or.inl ht
    · obtain ⟨hkeyy, hNy1, hgq, hp1y, hformy⟩ :=
        absorbed_data hcwf hy hgm hgN hyjam hqy
      rw [hox, hoy]
      rcases hformy with ⟨hlt2, hclean⟩ | ⟨hgt2, hlt3, hne1, hno2⟩
      · exact Or.inl (by omega)
      · rcases Nat.lt_trichotomy x.1.1 g.1.1 with hc | hc | hc
        · exact Or.inl hc
        · have hxg : x = g := slot_unique hpw hx hgm hc hqx hgq
          exact Or.inr (by rw [hxg])
        · exfalso
          rcases (hcwf.1 x hx).2.1 with hNx | hNx
          · exact hne1 x.1.1 hc ht (planOf_one_val hval hpw hx hqx hNx)
          · rcases planOf_gate_val hval hpw hx hqx hNx with h | h
            · exact (hno2 x.1.1 hc (hlt x hx)).1 h
            · exact (hno2 x.1.1 hc (hlt x hx)).2 h
  · obtain ⟨hkeyx, hNx1, hfq, hp1x, hformx⟩ :=
      absorbed_data hcwf hx hfm hfN hxjam hqx
    have hpf := planOf_gate_val hval hpw hfm hfq hfN
    rcases @owner_status _ _ c1 nm y with ⟨hoy, -⟩ |
      ⟨g, hgm, hgN, hoy, hyjam⟩
    · rw [hox, hoy]
      rcases hformx with ⟨hlt2, hclean⟩ | ⟨hgt2, hlt3, hne1, hno2⟩
      · rcases Nat.lt_trichotomy y.1.1 f.1.1 with hc | hc | hc
        · exact absurd (hclean y.1.1 ht hc)
            (planOf_touch_ne_zero hval hpw hy hqy)
        · have hyf : y = f := slot_unique hpw hy hfm hc hqy hfq
          exact Or.inr (by rw [hyf])
        · exact Or.inl hc
      · rcases (hcwf.1 y hy).2.1 with hNy | hNy
        · exact Or.inl (by omega)
        · exfalso
          rcases planOf_gate_val hval hpw hy hqy hNy with h | h
          · exact (hno2 y.1.1 (by omega) (hlt y hy)).1 h
          · exact (hno2 y.1.1 (by omega) (hlt y hy)).2 h
    · obtain ⟨hkeyy, hNy1, hgq, hp1y, hformy⟩ :=
        absorbed_data hcwf hy hgm hgN hyjam hqy
      have hpg := planOf_gate_val hval hpw hgm hgq hgN
      by_cases hfg : f = g
      · exact Or.inr (by rw [hox, hoy, hfg])
      rw [hox, hoy]
      rcases hformx with ⟨hltx, hcleanx⟩ | ⟨hgtx, hltx3, hne1x, hno2x⟩ <;>
        rcases hformy with ⟨hlty, hcleany⟩ | ⟨hgty, hlty3, hne1y, hno2y⟩
      · rcases Nat.lt_trichotomy y.1.1 f.1.1 with hc | hc | hc
        · exfalso
          have h0 := hcleanx y.1.1 ht hc
          rw [h0] at hp1y
          exact absurd hp1y (by decide)
        · exfalso
          rw [hc] at hp1y
          rcases hpf with h | h <;>
            (rw [h] at hp1y; exact absurd hp1y (by decide))
        · exact Or.inl (by omega)
      · rcases Nat.lt_trichotomy f.1.1 g.1.1 with hc | hc | hc
        · exact Or.inl hc
        · exact absurd (slot_unique hpw hfm hgm hc hfq hgq) hfg
        · exfalso
          have h9 := hno2y f.1.1 hc (hlt f hfm)
          rcases hpf with h | h
          · exact h9.1 h
          · exact h9.2 h
      · exfalso
        have h9 := hno2x g.1.1 (by omega) (hlt g hgm)
        rcases hpg with h | h
        · exact h9.1 h
        · exact h9.2 h
      · rcases Nat.lt_trichotomy f.1.1 g.1.1 with hc | hc | hc
        · exfalso
          have h9 := hno2x g.1.1 hc (hlt g hgm)
          rcases hpg with h | h
          · exact h9.1 h
          · exact h9.2 h
        · exact absurd (slot_unique hpw hfm hgm hc hfq hgq) hfg
        · exfalso
          have h9 := hno2y f.1.1 hc (hlt f hfm)
          rcases hpf with h | h
          · exact h9.1 h
          · exact h9.2 h

/-! ### Pass 2: the composite unitary, layer by layer -/

/-- The 1-body unitary pass 2 reads at a plan cell. -/
def jamU (c1 : Circuit α) (q t : ℕ) : Matrix (Fin 2) (Fin 2) α :=
  ((c1.gate t [q]).getD (Gate.U1 1)).asU1

/-- Apply an optional absorbed 1-body unitary. -/
def optApp {n : ℕ} (c1 : Circuit α) (q : ℕ) (qf : Fin n) (o : Option ℕ)
    (f : (Fin n → Fin 2) → α) : (Fin n → Fin 2) → α :=
  match o with
  | some t => bApply1 (jamU c1 q t) qf f
  | none => f

def jamW1 (c1 : Circuit α) (e : (ℕ × List ℕ) × Gate α) :
    Matrix (Fin 4) (Fin 4) α :=
  match scanJam1 (planOf c1.gates (e.1.2.headD 0)) e.1.1 with
  | some T2 => e.2.asU2 * kron2 (jamU c1 (e.1.2.headD 0) T2) 1
  | none => e.2.asU2

def jamW2 (c1 : Circuit α) (e : (ℕ × List ℕ) × Gate α) :
    Matrix (Fin 4) (Fin 4) α :=
  match scanJam1 (planOf c1.gates (e.1.2.tail.headD 0)) e.1.1 with
  | some T2 => jamW1 c1 e * kron2 1 (jamU c1 (e.1.2.tail.headD 0) T2)
  | none => jamW1 c1 e

def jamW3 (c1 : Circuit α) (nm : ℕ) (e : (ℕ × List ℕ) × Gate α) :
    Matrix (Fin 4) (Fin 4) α :=
  match rightJamIdx (planOf c1.gates (e.1.2.headD 0)) e.1.1 nm with
  | some T2 => kron2 (jamU c1 (e.1.2.headD 0) T2) 1 * jamW2 c1 e
  | none => jamW2 c1 e

def jamW4 (c1 : Circuit α) (nm : ℕ) (e : (ℕ × List ℕ) × Gate α) :
    Matrix (Fin 4) (Fin 4) α :=
  match rightJamIdx (planOf c1.gates (e.1.2.tail.headD 0)) e.1.1 nm with
  | some T2 => kron2 1 (jamU c1 (e.1.2.tail.headD 0) T2) * jamW3 c1 nm e
  | none => jamW3 c1 nm e

theorem jams1_eq (c1 : Circuit α) (nm : ℕ) (e : (ℕ × List ℕ) × Gate α) :
    (jamsOfGate c1 nm e).1 = jamW4 c1 nm e := rfl

theorem bApply2_jamW4 {n : ℕ} (c1 : Circuit α) (nm : ℕ)
    (e : (ℕ × List ℕ) × Gate α) {A B : ℕ} (hkey : e.1.2 = [A, B])
    (hA : A < n) (hB : B < n) (hab : A ≠ B) (f0 : (Fin n → Fin 2) → α) :
    bApply2 (jamW4 c1 nm e) ⟨A, hA⟩ ⟨B, hB⟩ f0
      = optApp c1 B ⟨B, hB⟩ (rightJamIdx (planOf c1.gates B) e.1.1 nm)
          (bApply2 (jamW3 c1 nm e) ⟨A, hA⟩ ⟨B, hB⟩ f0) := by
  have htl : e.1.2.tail.headD 0 = B := by rw [hkey]; rfl
  unfold jamW4
  rw [htl]
  cases h : rightJamIdx (planOf c1.gates B) e.1.1 nm with
  | none => rfl
  | some t =>
    show bApply2 (kron2 1 (jamU c1 B t) * jamW3 c1 nm e) ⟨A, hA⟩ ⟨B, hB⟩ f0 = _
    rw [bApply2_mulB_left _ _ _ _
      (fun hEq => hab (by simpa using congrArg Fin.val hEq))]
    rfl

theorem bApply2_jamW3 {n : ℕ} (c1 : Circuit α) (nm : ℕ)
    (e : (ℕ × List ℕ) × Gate α) {A B : ℕ} (hkey : e.1.2 = [A, B])
    (hA : A < n) (hB : B < n) (hab : A ≠ B) (f0 : (Fin n → Fin 2) → α) :
    bApply2 (jamW3 c1 nm e) ⟨A, hA⟩ ⟨B, hB⟩ f0
      = optApp c1 A ⟨A, hA⟩ (rightJamIdx (planOf c1.gates A) e.1.1 nm)
          (bApply2 (jamW2 c1 e) ⟨A, hA⟩ ⟨B, hB⟩ f0) := by
  have hhd : e.1.2.headD 0 = A := by rw [hkey]; rfl
  unfold jamW3
  rw [hhd]
  cases h : rightJamIdx (planOf c1.gates A) e.1.1 nm with
  | none => rfl
  | some t =>
    show bApply2 (kron2 (jamU c1 A t) 1 * jamW2 c1 e) ⟨A, hA⟩ ⟨B, hB⟩ f0 = _
    rw [bApply2_mulA_left _ _ _ _
      (fun hEq => hab (by simpa using congrArg Fin.val hEq))]
    rfl

theorem bApply2_jamW2 {n : ℕ} (c1 : Circuit α)
    (e : (ℕ × List ℕ) × Gate α) {A B : ℕ} (hkey : e.1.2 = [A, B])
    (hA : A < n) (hB : B < n) (hab : A ≠ B) (f0 : (Fin n → Fin 2) → α) :
    bApply2 (jamW2 c1 e) ⟨A, hA⟩ ⟨B, hB⟩ f0
      = bApply2 (jamW1 c1 e) ⟨A, hA⟩ ⟨B, hB⟩
          (optApp c1 B ⟨B, hB⟩ (scanJam1 (planOf c1.gates B) e.1.1) f0) := by
  have htl : e.1.2.tail.headD 0 = B := by rw [hkey]; rfl
  unfold jamW2
  rw [htl]
  cases h : scanJam1 (planOf c1.gates B) e.1.1 with
  | none => rfl
  | some t =>
    show bApply2 (jamW1 c1 e * kron2 1 (jamU c1 B t)) ⟨A, hA⟩ ⟨B, hB⟩ f0 = _
    rw [bApply2_mulB_right _ _ _ _
      (fun hEq => hab (by simpa using congrArg Fin.val hEq))]
    rfl

theorem bApply2_jamW1 {n : ℕ} (c1 : Circuit α)
    (e : (ℕ × List ℕ) × Gate α) {A B : ℕ} (hkey : e.1.2 = [A, B])
    (hA : A < n) (hB : B < n) (hab : A ≠ B) (f0 : (Fin n → Fin 2) → α) :
    bApply2 (jamW1 c1 e) ⟨A, hA⟩ ⟨B, hB⟩ f0
      = bApply2 e.2.asU2 ⟨A, hA⟩ ⟨B, hB⟩
          (optApp c1 A ⟨A, hA⟩ (scanJam1 (planOf c1.gates A) e.1.1) f0) := by
  have hhd : e.1.2.headD 0 = A := by rw [hkey]; rfl
  unfold jamW1
  rw [hhd]
  cases h : scanJam1 (planOf c1.gates A) e.1.1 with
  | none => rfl
  | some t =>
    show bApply2 (e.2.asU2 * kron2 (jamU c1 A t) 1) ⟨A, hA⟩ ⟨B, hB⟩ f0 = _
    rw [bApply2_mulA_right _ _ _ _
      (fun hEq => hab (by simpa using congrArg Fin.val hEq))]
    rfl

/-- Full decomposition of a pass-2 composite into its five factors. -/
theorem jams1_decomp {n : ℕ} (c1 : Circuit α) (nm : ℕ)
    (e : (ℕ × List ℕ) × Gate α) {A B : ℕ} (hkey : e.1.2 = [A, B])
    (hA : A < n) (hB : B < n) (hab : A ≠ B) (f0 : (Fin n → Fin 2) → α) :
    bApply2 (jamsOfGate c1 nm e).1 ⟨A, hA⟩ ⟨B, hB⟩ f0
      = optApp c1 B ⟨B, hB⟩ (rightJamIdx (planOf c1.gates B) e.1.1 nm)
          (optApp c1 A ⟨A, hA⟩ (rightJamIdx (planOf c1.gates A) e.1.1 nm)
            (bApply2 e.2.asU2 ⟨A, hA⟩ ⟨B, hB⟩
              (optApp c1 A ⟨A, hA⟩ (scanJam1 (planOf c1.gates A) e.1.1)
                (optApp c1 B ⟨B, hB⟩ (scanJam1 (planOf c1.gates B) e.1.1)
                  f0)))) := by
  rw [jams1_eq, bApply2_jamW4 c1 nm e hkey hA hB hab,
    bApply2_jamW3 c1 nm e hkey hA hB hab,
    bApply2_jamW2 c1 e hkey hA hB hab,
    bApply2_jamW1 c1 e hkey hA hB hab]

/-! ### Slot distinctness in schedules -/

theorem gates_slot_nodup {c : Circuit α} (hcwf : CWF c) :
    c.gates.Pairwise (fun u v => u.1 ≠ v.1) := by
  apply (hcwf.2.1).imp_of_mem
  intro u v hu hv hR hEq
  obtain ⟨q, hq⟩ := exists_mem_of_ne_nil' (l := u.1.2) (by
    have hlen := (hcwf.1 u hu).1
    rcases (hcwf.1 u hu).2.1 with h | h <;>
      (intro hnil; rw [hnil] at hlen; rw [h] at hlen; cases hlen))
  have hT : u.1.1 = v.1.1 := by rw [hEq]
  have hkey : u.1.2 = v.1.2 := by rw [hEq]
  exact hR hT q hq (by rw [← hkey]; exact hq)

theorem tseq_slot_nodup {c : Circuit α} (hcwf : CWF c) :
    c.tseq.Pairwise (fun u v => u.1 ≠ v.1) := by
  have hperm := tsort_perm c.nmoment c.gates
    (times_lt_nmoment (hcwf.2.2.2.2.1) (hcwf.2.2.2.1))
  exact (hperm.pairwise_iff (fun h hEq => h hEq.symm)).mpr
    (gates_slot_nodup hcwf)

/-! ### Pass 2: owner-predicate bridges and group shapes -/

theorem entry_eq_of_slot {c1 : Circuit α} (hcwf : CWF c1)
    {z w : (ℕ × List ℕ) × Gate α} (hz : z ∈ c1.gates) (hw : w ∈ c1.gates)
    (hs : z.1 = w.1) : z = w := by
  obtain ⟨q, hq⟩ := exists_mem_of_ne_nil' (l := w.1.2) (by
    have hlen := (hcwf.1 w hw).1
    rcases (hcwf.1 w hw).2.1 with h | h <;>
      (intro hnil; rw [hnil] at hlen; rw [h] at hlen; cases hlen))
  have hT : z.1.1 = w.1.1 := by rw [hs]
  have hk : z.1.2 = w.1.2 := by rw [hs]
  exact slot_unique hcwf.2.1 hz hw hT (by rw [hk]; exact hq) hq

theorem owner_eq_iff {c1 : Circuit α} {nm : ℕ} (hcwf : CWF c1)
    (hlt : ∀ e ∈ c1.gates, e.1.1 < nm)
    {f : (ℕ × List ℕ) × Gate α} (hf : f ∈ c1.gates) (hNf : f.2.N = 2)
    {z : (ℕ × List ℕ) × Gate α} (hz : z ∈ c1.gates) :
    pass2Owner c1 nm z = f.1 ↔ (z = f ∨ z.1 ∈ (jamsOfGate c1 nm f).2) := by
  constructor
  · intro h
    rcases @owner_status _ _ c1 nm z with ⟨hself, -⟩ |
      ⟨g, hgm, hgN, hog, hjam⟩
    · exact Or.inl (entry_eq_of_slot hcwf hz hf (by rw [← hself, h]))
    · have hgf : g = f := entry_eq_of_slot hcwf hgm hf (by rw [← hog, h])
      rw [← hgf]
      exact Or.inr hjam
  · intro h
    rcases h with hzf | hmem
    · rw [hzf]
      exact owner_2body hcwf hf hNf
    · exact owner_absorbed hcwf hlt
        (List.mem_filter.mpr ⟨hf, by rw [beq_iff_eq]; exact hNf⟩) hmem

theorem owner_eq_survivor_iff {c1 : Circuit α} {nm : ℕ} (hcwf : CWF c1)
    {s : (ℕ × List ℕ) × Gate α} (hs : s ∈ c1.gates) (hNs : s.2.N = 1)
    (hnoj : ∀ f ∈ c1.gates.filter (fun f => f.2.N == 2),
      s.1 ∉ (jamsOfGate c1 nm f).2)
    {z : (ℕ × List ℕ) × Gate α} (hz : z ∈ c1.gates) :
    pass2Owner c1 nm z = s.1 ↔ z = s := by
  constructor
  · intro h
    rcases @owner_status _ _ c1 nm z with ⟨hself, -⟩ |
      ⟨g, hgm, hgN, hog, hjam⟩
    · exact entry_eq_of_slot hcwf hz hs (by rw [← hself, h])
    · have hgs : g = s := entry_eq_of_slot hcwf hgm hs (by rw [← hog, h])
      rw [hgs] at hgN
      rw [hNs] at hgN
      cases hgN
  · rintro rfl
    exact owner_self hnoj

theorem filter_slot_single {c1 : Circuit α} (hcwf : CWF c1)
    {k : ℕ × List ℕ} {g : Gate α} (hmem : (k, g) ∈ c1.gates)
    (hlt2 : k.1 < c1.nmoment) :
    c1.tseq.filter (fun z => decide (z.1 = k)) = [(k, g)] := by
  apply filter_eq_single
  · apply (tseq_slot_nodup hcwf).imp_of_mem
    intro u v hu hv hne hpu hpv
    exact hne ((of_decide_eq_true hpu).trans (of_decide_eq_true hpv).symm)
  · exact tsort_mem_of hmem hlt2
  · exact decide_eq_true rfl

theorem filter_slot_pair {c1 : Circuit α} (hcwf : CWF c1)
    {k1 k2 : ℕ × List ℕ} {g1 g2 : Gate α} (h1 : (k1, g1) ∈ c1.gates)
    (h2 : (k2, g2) ∈ c1.gates) (hk : k1 ≠ k2)
    (hl1 : k1.1 < c1.nmoment) (hl2 : k2.1 < c1.nmoment) :
    c1.tseq.filter (fun z => decide (z.1 = k1 ∨ z.1 = k2))
      = [(k1, g1), (k2, g2)]
    ∨ c1.tseq.filter (fun z => decide (z.1 = k1 ∨ z.1 = k2))
      = [(k2, g2), (k1, g1)] := by
  apply filter_eq_pair
  · intro hEq
    exact hk (congrArg Prod.fst hEq)
  · apply (tseq_slot_nodup hcwf).imp_of_mem
    intro u v hu hv hne hpu hpv hEq
    exact hne (by rw [hEq])
  · exact tsort_mem_of h1 hl1
  · exact tsort_mem_of h2 hl2
  · exact decide_eq_true (Or.inl rfl)
  · exact decide_eq_true (Or.inr rfl)
  · intro z hz hpz
    rcases of_decide_eq_true hpz with hc | hc
    · exact Or.inl (entry_eq_of_slot hcwf (mem_tsort hz).1 h1 hc)
    · exact Or.inr (entry_eq_of_slot hcwf (mem_tsort hz).1 h2 hc)

theorem bexec_opt_pair {n : ℕ} {c1 : Circuit α} (hcwf : CWF c1)
    {A B : ℕ} (hA : A < n) (hB : B < n) (hAB : A ≠ B)
    {oA oB : Option ℕ}
    (hpA : ∀ t, oA = some t → planOf c1.gates A t = 1)
    (hpB : ∀ t, oB = some t → planOf c1.gates B t = 1) :
    ∀ g0 : (Fin n → Fin 2) → α,
    bexec (c1.tseq.filter (fun z => decide (z.1 ∈
        oA.toList.map (fun t => ((t, [A]) : ℕ × List ℕ))
          ++ oB.toList.map (fun t => ((t, [B]) : ℕ × List ℕ))))) g0
      = optApp c1 A ⟨A, hA⟩ oA (optApp c1 B ⟨B, hB⟩ oB g0) := by
  have hval := cwf_val hcwf
  have hpw := hcwf.2.1
  have htlt := times_lt_nmoment hcwf.2.2.2.2.1 hcwf.2.2.2.1
  intro g0
  cases hoA : oA with
  | none =>
    cases hoB : oB with
    | none =>
      rw [List.filter_eq_nil_iff.mpr (fun z hz => by simp)]
      rfl
    | some tb =>
      obtain ⟨gB, hgBm, hgBN⟩ := planOf_eq_one hval hpw (hpB tb hoB)
      have hjB : jamU c1 B tb = gB.asU1 := by
        unfold jamU
        rw [gate_lookup hpw hgBm (by simp)]
        rfl
      have hshape : c1.tseq.filter (fun z => decide (z.1 ∈
            (none : Option ℕ).toList.map (fun t => ((t, [A]) : ℕ × List ℕ))
              ++ (some tb).toList.map (fun t => ((t, [B]) : ℕ × List ℕ))))
          = [((tb, [B]), gB)] := by
        rw [List.filter_congr (fun z hz => ?_), filter_slot_single hcwf hgBm
          (htlt _ hgBm)]
        show decide (z.1 ∈ [((tb, [B]) : ℕ × List ℕ)])
          = decide (z.1 = ((tb, [B]) : ℕ × List ℕ))
        simp
      rw [hshape]
      show bop ((tb, [B]), gB) g0 = _
      rw [bop_eq1 rfl hgBN hB]
      show _ = bApply1 (jamU c1 B tb) ⟨B, hB⟩ g0
      rw [hjB]
  | some ta =>
    obtain ⟨gA, hgAm, hgAN⟩ := planOf_eq_one hval hpw (hpA ta hoA)
    have hjA : jamU c1 A ta = gA.asU1 := by
      unfold jamU
      rw [gate_lookup hpw hgAm (by simp)]
      rfl
    cases hoB : oB with
    | none =>
      have hshape : c1.tseq.filter (fun z => decide (z.1 ∈
            (some ta).toList.map (fun t => ((t, [A]) : ℕ × List ℕ))
              ++ (none : Option ℕ).toList.map (fun t => ((t, [B]) : ℕ × List ℕ))))
          = [((ta, [A]), gA)] := by
        rw [List.filter_congr (fun z hz => ?_), filter_slot_single hcwf hgAm
          (htlt _ hgAm)]
        show decide (z.1 ∈ [((ta, [A]) : ℕ × List ℕ)])
          = decide (z.1 = ((ta, [A]) : ℕ × List ℕ))
        simp
      rw [hshape]
      show bop ((ta, [A]), gA) g0 = _
      rw [bop_eq1 rfl hgAN hA]
      show _ = bApply1 (jamU c1 A ta) ⟨A, hA⟩ g0
      rw [hjA]
    | some tb =>
      obtain ⟨gB, hgBm, hgBN⟩ := planOf_eq_one hval hpw (hpB tb hoB)
      have hjB : jamU c1 B tb = gB.asU1 := by
        unfold jamU
        rw [gate_lookup hpw hgBm (by simp)]
        rfl
      have hkne : ((ta, [A]) : ℕ × List ℕ) ≠ (tb, [B]) := by
        intro hEq
        have := congrArg Prod.snd hEq
        simp only at this
        exact hAB (by injection this)
      have hconv : c1.tseq.filter (fun z => decide (z.1 ∈
            (some ta).toList.map (fun t => ((t, [A]) : ℕ × List ℕ))
              ++ (some tb).toList.map (fun t => ((t, [B]) : ℕ × List ℕ))))
          = c1.tseq.filter (fun z =>
              decide (z.1 = ((ta, [A]) : ℕ × List ℕ)
                ∨ z.1 = ((tb, [B]) : ℕ × List ℕ))) := by
        apply List.filter_congr
        intro z hz
        show decide (z.1 ∈ [((ta, [A]) : ℕ × List ℕ), (tb, [B])]) = _
        simp
      rw [hconv]
      have hfab : (⟨A, hA⟩ : Fin n) ≠ ⟨B, hB⟩ :=
        fun hEq => hAB (by simpa using congrArg Fin.val hEq)
      rcases filter_slot_pair hcwf hgAm hgBm hkne (htlt _ hgAm) (htlt _ hgBm)
        with hsh | hsh
      · rw [hsh]
        show bop ((tb, [B]), gB) (bop ((ta, [A]), gA) g0) = _
        rw [bop_eq1 rfl hgBN hB, bop_eq1 rfl hgAN hA]
        show bApply1 gB.asU1 ⟨B, hB⟩ (bApply1 gA.asU1 ⟨A, hA⟩ g0) = _
        rw [bApply1_comm _ _ _ _ (fun hEq => hfab hEq.symm)]
        rw [← hjA, ← hjB]
        rfl
      · rw [hsh]
        show bop ((ta, [A]), gA) (bop ((tb, [B]), gB) g0) = _
        rw [bop_eq1 rfl hgAN hA, bop_eq1 rfl hgBN hB]
        show bApply1 gA.asU1 ⟨A, hA⟩ (bApply1 gB.asU1 ⟨B, hB⟩ g0) = _
        rw [← hjA, ← hjB]
        rfl

theorem mem_two_opt_lists {oA oB : Option ℕ} {A B : ℕ} {k : ℕ × List ℕ}
    (h : k ∈ oA.toList.map (fun t => ((t, [A]) : ℕ × List ℕ))
      ++ oB.toList.map (fun t => ((t, [B]) : ℕ × List ℕ))) :
    (∃ t, oA = some t ∧ k = (t, [A])) ∨ (∃ t, oB = some t ∧ k = (t, [B])) := by
  rcases List.mem_append.mp h with h | h
  · exact Or.inl (mem_option_toList_map h)
  · exact Or.inr (mem_option_toList_map h)

/-- Pass 2 on a well-formed circuit: succeeds, keeps the invariant, does
not increase the gate count, keeps every time index, and is semantically
equivalent on every state. -/
theorem pass2_spec (c1 : Circuit α) (nm : ℕ) (hcwf : CWF c1)
    (hlt : ∀ e ∈ c1.gates, e.1.1 < nm) :
    ∃ c2, compressPass2 c1 nm = .ok c2
      ∧ c2.N = c1.N ∧ CWF c2
      ∧ c2.ngate ≤ c1.ngate
      ∧ (∀ e ∈ c2.gates, ∃ e0 ∈ c1.gates, e0.1.1 = e.1.1)
      ∧ ∀ f0 : (Fin c1.N → Fin 2) → α,
          bexec c2.tseq f0 = bexec c1.tseq f0 := by
  obtain ⟨c2, hok, hN, hcwf2, hg2⟩ := pass2_ok c1 nm hcwf
  have htlt1 := times_lt_nmoment hcwf.2.2.2.2.1 hcwf.2.2.2.1
  have htlt2 := times_lt_nmoment hcwf2.2.2.2.2.1 hcwf2.2.2.2.1
  have hval := cwf_val hcwf
  have hpw := hcwf.2.1
  have hcount : c2.ngate ≤ c1.ngate := by
    show c2.gates.length ≤ c1.gates.length
    rw [hg2, List.length_append, List.length_map]
    have hpart := length_filter_partition c1.gates (fun e => e.2.N == 2)
    have hflt : ((c1.gates.filter (fun e => e.2.N == 1)).filter
        (fun e => !decide (e.1 ∈ pass2Jammed c1 nm))).length
        ≤ (c1.gates.filter (fun e => e.2.N == 1)).length :=
      List.length_filter_le _ _
    have heq1 : c1.gates.filter (fun e => !(e.2.N == 2))
        = c1.gates.filter (fun e => e.2.N == 1) := by
      apply List.filter_congr
      intro e he
      rcases (hcwf.1 e he).2.1 with h | h <;> rw [h] <;> rfl
    rw [heq1] at hpart
    omega
  have htsub : ∀ e ∈ c2.gates, ∃ e0 ∈ c1.gates, e0.1.1 = e.1.1 := by
    intro e he
    rw [hg2] at he
    rcases List.mem_append.mp he with h1 | h2
    · obtain ⟨e0, he0, rfl⟩ := List.mem_map.mp h1
      exact ⟨e0, List.mem_of_mem_filter he0, rfl⟩
    · exact ⟨e, List.mem_of_mem_filter (List.mem_of_mem_filter h2), rfl⟩
  refine ⟨c2, hok, hN, hcwf2, hcount, htsub, fun f0 =>
    (bexec_regroup (n := c1.N) c1.tseq c2.tseq (pass2Owner c1 nm)
      (tsort_sorted c1.gates c1.nmoment) (tseq_slot_nodup hcwf2)
      (tsort_sorted c2.gates c2.nmoment)
      ?present ?mono ?eqq ?sem f0).symm⟩
  case present =>
    intro z hz
    have hzg := (mem_tsort hz).1
    rcases @owner_status _ _ c1 nm z with ⟨hself, hnoj⟩ |
      ⟨f, hfm, hfN, hof, hjam⟩
    · rw [hself]
      rcases (hcwf.1 z hzg).2.1 with hN1 | hN2
      · have hnm2 : z.1 ∉ pass2Jammed c1 nm := by
          intro hmem
          unfold pass2Jammed at hmem
          obtain ⟨f, hf, hjam⟩ := List.mem_flatMap.mp hmem
          exact hnoj f hf hjam
        have hzf : z ∈ (c1.gates.filter (fun e => e.2.N == 1)).filter
            (fun e => !decide (e.1 ∈ pass2Jammed c1 nm)) := by
          apply List.mem_filter.mpr
          refine ⟨List.mem_filter.mpr ⟨hzg, by rw [beq_iff_eq]; exact hN1⟩, ?_⟩
          rw [decide_eq_false hnm2]
          rfl
        have hz2 : z ∈ c2.gates := by
          rw [hg2]
          exact List.mem_append.mpr (Or.inr hzf)
        exact ⟨z.2, tsort_mem_of hz2 (htlt2 z hz2)⟩
      · have hz2 : (z.1, Gate.U2 (jamsOfGate c1 nm z).1) ∈ c2.gates := by
          rw [hg2]
          exact List.mem_append.mpr (Or.inl (List.mem_map.mpr ⟨z,
            List.mem_filter.mpr ⟨hzg, by rw [beq_iff_eq]; exact hN2⟩, rfl⟩))
        exact ⟨Gate.U2 (jamsOfGate c1 nm z).1, tsort_mem_of hz2 (htlt2 _ hz2)⟩
    · rw [hof]
      have hf2 : (f.1, Gate.U2 (jamsOfGate c1 nm f).1) ∈ c2.gates := by
        rw [hg2]
        exact List.mem_append.mpr (Or.inl (List.mem_map.mpr ⟨f,
          List.mem_filter.mpr ⟨hfm, by rw [beq_iff_eq]; exact hfN⟩, rfl⟩))
      exact ⟨Gate.U2 (jamsOfGate c1 nm f).1, tsort_mem_of hf2 (htlt2 _ hf2)⟩
  case mono =>
    intro x hx y hy hnd hlt2
    obtain ⟨q, hq1, hq2⟩ := not_opsDisjoint hnd
    exact pass2_owner_mono hcwf hlt (mem_tsort hx).1 (mem_tsort hy).1
      hq1 hq2 hlt2
  case eqq =>
    intro x hx y hy hnd ht
    exact tseq_same_time_eq hcwf hx hy hnd ht
  case sem =>
    intro i hi f0
    have hog : c2.tseq.get ⟨i, hi⟩ ∈ c2.gates :=
      (mem_tsort (List.get_mem c2.tseq i hi)).1
    rw [hg2] at hog
    rcases List.mem_append.mp hog with h1 | h2
    · -- composite group
      obtain ⟨f, hfmem, hoeq⟩ := List.mem_map.mp h1
      have hfg : f ∈ c1.gates := List.mem_of_mem_filter hfmem
      have hfN : f.2.N = 2 := by
        have := List.of_mem_filter hfmem
        rwa [beq_iff_eq] at this
      obtain ⟨A, B, hkf, hABne, hAn, hBn⟩ := key2_shape (hcwf.1 f hfg) hfN
      have hhd : f.1.2.headD 0 = A := by rw [hkf]; rfl
      have htl : f.1.2.tail.headD 0 = B := by rw [hkf]; rfl
      rw [← hoeq]
      have hjmem : ∀ k : ℕ × List ℕ, k ∈ (jamsOfGate c1 nm f).2 ↔
          (k ∈ (scanJam1 (planOf c1.gates A) f.1.1).toList.map
              (fun t => ((t, [A]) : ℕ × List ℕ))
            ++ (scanJam1 (planOf c1.gates B) f.1.1).toList.map
              (fun t => ((t, [B]) : ℕ × List ℕ))
          ∨ k ∈ (rightJamIdx (planOf c1.gates B) f.1.1 nm).toList.map
              (fun t => ((t, [B]) : ℕ × List ℕ))
            ++ (rightJamIdx (planOf c1.gates A) f.1.1 nm).toList.map
              (fun t => ((t, [A]) : ℕ × List ℕ))) := by
        intro k
        rw [jams2_eq, hhd, htl]
        simp only [List.mem_append]
        tauto
      have hpred : ∀ z ∈ c1.tseq,
          decide (pass2Owner c1 nm z
            = (f.1, Gate.U2 (jamsOfGate c1 nm f).1).1)
          = (decide (z.1 ∈ (scanJam1 (planOf c1.gates A) f.1.1).toList.map
                (fun t => ((t, [A]) : ℕ × List ℕ))
              ++ (scanJam1 (planOf c1.gates B) f.1.1).toList.map
                (fun t => ((t, [B]) : ℕ × List ℕ)))
            || (decide (z.1 = f.1)
              || decide (z.1 ∈ (rightJamIdx (planOf c1.gates B) f.1.1 nm).toList.map
                  (fun t => ((t, [B]) : ℕ × List ℕ))
                ++ (rightJamIdx (planOf c1.gates A) f.1.1 nm).toList.map
                  (fun t => ((t, [A]) : ℕ × List ℕ))))) := by
        intro z hz
        have hiff : (pass2Owner c1 nm z = f.1) ↔
            (z.1 ∈ (scanJam1 (planOf c1.gates A) f.1.1).toList.map
                (fun t => ((t, [A]) : ℕ × List ℕ))
              ++ (scanJam1 (planOf c1.gates B) f.1.1).toList.map
                (fun t => ((t, [B]) : ℕ × List ℕ))
            ∨ (z.1 = f.1
              ∨ z.1 ∈ (rightJamIdx (planOf c1.gates B) f.1.1 nm).toList.map
                  (fun t => ((t, [B]) : ℕ × List ℕ))
                ++ (rightJamIdx (planOf c1.gates A) f.1.1 nm).toList.map
                  (fun t => ((t, [A]) : ℕ × List ℕ)))) := by
          rw [owner_eq_iff hcwf hlt hfg hfN (mem_tsort hz).1]
          constructor
          · rintro (rfl | hjam)
            · exact Or.inr (Or.inl rfl)
            · rcases (hjmem z.1).mp hjam with h | h
              · exact Or.inl h
              · exact Or.inr (Or.inr h)
          · rintro (h | hc | h)
            · exact Or.inr ((hjmem z.1).mpr (Or.inl h))
            · exact Or.inl (entry_eq_of_slot hcwf (mem_tsort hz).1 hfg hc)
            · exact Or.inr ((hjmem z.1).mpr (Or.inr h))
        show decide (pass2Owner c1 nm z = f.1) = _
        rw [decide_eq_decide.mpr hiff, Bool.decide_or, Bool.decide_or]
      rw [List.filter_congr hpred]
      have hb1 : ∀ z ∈ c1.tseq,
          decide (z.1 ∈ (scanJam1 (planOf c1.gates A) f.1.1).toList.map
              (fun t => ((t, [A]) : ℕ × List ℕ))
            ++ (scanJam1 (planOf c1.gates B) f.1.1).toList.map
              (fun t => ((t, [B]) : ℕ × List ℕ))) = true →
          z.1.1 < f.1.1 := by
        intro z hz hp
        rcases mem_two_opt_lists (of_decide_eq_true hp) with ⟨t, hs, hk⟩ |
          ⟨t, hs, hk⟩
        · have := (scanJam1_spec hs).2.1
          have hz1 : z.1.1 = t := by rw [hk]
          omega
        · have := (scanJam1_spec hs).2.1
          have hz1 : z.1.1 = t := by rw [hk]
          omega
      have hb2 : ∀ z ∈ c1.tseq,
          (decide (z.1 = f.1)
            || decide (z.1 ∈ (rightJamIdx (planOf c1.gates B) f.1.1 nm).toList.map
                (fun t => ((t, [B]) : ℕ × List ℕ))
              ++ (rightJamIdx (planOf c1.gates A) f.1.1 nm).toList.map
                (fun t => ((t, [A]) : ℕ × List ℕ)))) = true →
          f.1.1 ≤ z.1.1 := by
        intro z hz hp
        rcases Bool.or_eq_true_iff.mp hp with hc | hc
        · have := of_decide_eq_true hc
          rw [this]
        · rcases mem_two_opt_lists (of_decide_eq_true hc) with ⟨t, hs, hk⟩ |
            ⟨t, hs, hk⟩
          · have := (rightJamIdx_some (fun t2 =>
              planOf_values c1.gates B t2) hs).2.2.2.1
            have hz1 : z.1.1 = t := by rw [hk]
            omega
          · have := (rightJamIdx_some (fun t2 =>
              planOf_values c1.gates A t2) hs).2.2.2.1
            have hz1 : z.1.1 = t := by rw [hk]
            omega
      rw [@filter_split_sorted ((ℕ × List ℕ) × Gate α) (fun z => z.1.1)
        (fun z => decide (z.1 ∈ (scanJam1 (planOf c1.gates A) f.1.1).toList.map
            (fun t => ((t, [A]) : ℕ × List ℕ))
          ++ (scanJam1 (planOf c1.gates B) f.1.1).toList.map
            (fun t => ((t, [B]) : ℕ × List ℕ))))
        (fun z => decide (z.1 = f.1)
          || decide (z.1 ∈ (rightJamIdx (planOf c1.gates B) f.1.1 nm).toList.map
              (fun t => ((t, [B]) : ℕ × List ℕ))
            ++ (rightJamIdx (planOf c1.gates A) f.1.1 nm).toList.map
              (fun t => ((t, [A]) : ℕ × List ℕ))))
        f.1.1 c1.tseq (tsort_sorted c1.gates c1.nmoment) hb1 hb2]
      have hb3 : ∀ z ∈ c1.tseq, decide (z.1 = f.1) = true →
          z.1.1 < f.1.1 + 1 := by
        intro z hz hp
        have := of_decide_eq_true hp
        rw [this]
        omega
      have hb4 : ∀ z ∈ c1.tseq,
          decide (z.1 ∈ (rightJamIdx (planOf c1.gates B) f.1.1 nm).toList.map
              (fun t => ((t, [B]) : ℕ × List ℕ))
            ++ (rightJamIdx (planOf c1.gates A) f.1.1 nm).toList.map
              (fun t => ((t, [A]) : ℕ × List ℕ))) = true →
          f.1.1 + 1 ≤ z.1.1 := by
        intro z hz hp
        rcases mem_two_opt_lists (of_decide_eq_true hp) with ⟨t, hs, hk⟩ |
          ⟨t, hs, hk⟩
        · have := (rightJamIdx_some (fun t2 =>
            planOf_values c1.gates B t2) hs).2.2.2.1
          have hz1 : z.1.1 = t := by rw [hk]
          omega
        · have := (rightJamIdx_some (fun t2 =>
            planOf_values c1.gates A t2) hs).2.2.2.1
          have hz1 : z.1.1 = t := by rw [hk]
          omega
      rw [@filter_split_sorted ((ℕ × List ℕ) × Gate α) (fun z => z.1.1)
        (fun z => decide (z.1 = f.1))
        (fun z => decide (z.1 ∈ (rightJamIdx (planOf c1.gates B) f.1.1 nm).toList.map
            (fun t => ((t, [B]) : ℕ × List ℕ))
          ++ (rightJamIdx (planOf c1.gates A) f.1.1 nm).toList.map
            (fun t => ((t, [A]) : ℕ × List ℕ))))
        (f.1.1 + 1) c1.tseq (tsort_sorted c1.gates c1.nmoment) hb3 hb4]
      rw [bexec_append, bexec_append]
      have hM : c1.tseq.filter (fun z => decide (z.1 = f.1)) = [f] :=
        filter_slot_single hcwf (k := f.1) (g := f.2) hfg (htlt1 f hfg)
      rw [hM]
      have hpa : ∀ t, scanJam1 (planOf c1.gates A) f.1.1 = some t →
          planOf c1.gates A t = 1 := fun t ht => (scanJam1_spec ht).1
      have hpb : ∀ t, scanJam1 (planOf c1.gates B) f.1.1 = some t →
          planOf c1.gates B t = 1 := fun t ht => (scanJam1_spec ht).1
      have hL := bexec_opt_pair (n := c1.N) hcwf hAn hBn hABne hpa hpb
      have hpa2 : ∀ t, rightJamIdx (planOf c1.gates B) f.1.1 nm = some t →
          planOf c1.gates B t = 1 := fun t ht =>
        (rightJamIdx_some (fun t2 => planOf_values c1.gates B t2) ht).2.2.1
      have hpb2 : ∀ t, rightJamIdx (planOf c1.gates A) f.1.1 nm = some t →
          planOf c1.gates A t = 1 := fun t ht =>
        (rightJamIdx_some (fun t2 => planOf_values c1.gates A t2) ht).2.2.1
      have hR := bexec_opt_pair (n := c1.N) hcwf hBn hAn
        (fun h => hABne h.symm) hpa2 hpb2
      rw [hL, hR]
      have hbf : ∀ x : (Fin c1.N → Fin 2) → α, bexec [f] x = bop f x :=
        fun x => rfl
      rw [hbf]
      rw [bop_eq2 hkf hfN hAn hBn]
      have hbo : bop (f.1, Gate.U2 (jamsOfGate c1 nm f).1) f0
          = bApply2 (jamsOfGate c1 nm f).1 ⟨A, hAn⟩ ⟨B, hBn⟩ f0 :=
        bop_eq2 (show (f.1, Gate.U2 (jamsOfGate c1 nm f).1).1.2 = [A, B]
          from hkf) rfl hAn hBn f0
      rw [hbo]
      rw [jams1_decomp c1 nm f hkf hAn hBn hABne f0]
    · -- survivor group
      have hsg : c2.tseq.get ⟨i, hi⟩ ∈ c1.gates :=
        List.mem_of_mem_filter (List.mem_of_mem_filter h2)
      have hsN : (c2.tseq.get ⟨i, hi⟩).2.N = 1 := by
        have := List.of_mem_filter (List.mem_of_mem_filter h2)
        rwa [beq_iff_eq] at this
      have hnoj : ∀ f ∈ c1.gates.filter (fun f => f.2.N == 2),
          (c2.tseq.get ⟨i, hi⟩).1 ∉ (jamsOfGate c1 nm f).2 := by
        intro f hf hjam
        have hb := List.of_mem_filter h2
        rw [Bool.not_eq_eq_eq_not, Bool.not_true, decide_eq_false_iff_not] at hb
        exact hb (by
          unfold pass2Jammed
          exact List.mem_flatMap.mpr ⟨f, hf, hjam⟩)
      have hfilt : c1.tseq.filter (fun z =>
          decide (pass2Owner c1 nm z = (c2.tseq.get ⟨i, hi⟩).1))
          = [c2.tseq.get ⟨i, hi⟩] := by
        apply filter_eq_single
        · apply (tseq_slot_nodup hcwf).imp_of_mem
          intro u v hu hv hne hpu hpv
          have hu2 := (owner_eq_survivor_iff hcwf hsg hsN hnoj
            (mem_tsort hu).1).mp (of_decide_eq_true hpu)
          have hv2 := (owner_eq_survivor_iff hcwf hsg hsN hnoj
            (mem_tsort hv).1).mp (of_decide_eq_true hpv)
          rw [hu2, hv2] at hne
          exact hne rfl
        · exact tsort_mem_of hsg (htlt1 _ hsg)
        · exact decide_eq_true ((owner_eq_survivor_iff hcwf hsg hsN hnoj
            hsg).mpr rfl)
      rw [hfilt]
      rfl

/-! ### Pass 1: chain windows on a plan row -/

/-- A chain start: a 1-cell whose nearest nonzero predecessor is not a
1-cell. -/
def isStartB (plan : ℕ → ℤ) (t : ℕ) : Bool :=
  decide (plan t = 1) && decide (scanJam1 plan t = none)

/-- The moment at which the chain headed at `s` is placed: the first
2-body cell at or after `s`, else the last moment. -/
def closeT (plan : ℕ → ℤ) (nm s : ℕ) : ℕ :=
  match (List.range' s (nm - s)).find?
      (fun y => decide (plan y = 2) || decide (plan y = -2)) with
  | some b => b
  | none => nm - 1

/-- Product of the 1-body unitaries at the 1-cells of `[s, T)` on qubit
`A`, later cells multiplied on the left. -/
def cellProd (c1 : Circuit α) (A s T : ℕ) : Matrix (Fin 2) (Fin 2) α :=
  ((List.range' s (T - s)).filter
      (fun t => decide (planOf c1.gates A t = 1))).foldl
    (fun W t => jamU c1 A t * W) 1

/-- The fused unitary of the chain headed at `s`. -/
def chainU (c1 : Circuit α) (nm A s : ℕ) : Matrix (Fin 2) (Fin 2) α :=
  cellProd c1 A s (closeT (planOf c1.gates A) nm s + 1)

/-- The first moment of the chain containing the 1-cell `t`: the least
1-cell from which no 2-body cell intervenes up to `t`. -/
def winStart (plan : ℕ → ℤ) (t : ℕ) : ℕ :=
  match (List.range (t + 1)).find? (fun s =>
      decide (plan s = 1)
        && (List.range' s (t + 1 - s)).all
          (fun y => !(decide (plan y = 2) || decide (plan y = -2)))) with
  | some s => s
  | none => t

theorem winStart_found {plan : ℕ → ℤ} {t : ℕ} (h1 : plan t = 1) :
    plan (winStart plan t) = 1 ∧ winStart plan t ≤ t
      ∧ (∀ y, winStart plan t ≤ y → y ≤ t → plan y ≠ 2 ∧ plan y ≠ -2)
      ∧ (∀ s2, s2 < winStart plan t → plan s2 = 1 →
          ∃ y, s2 ≤ y ∧ y ≤ t ∧ (plan y = 2 ∨ plan y = -2)) := by
  have hcand : (fun s => decide (plan s = 1)
      && (List.range' s (t + 1 - s)).all
        (fun y => !(decide (plan y = 2) || decide (plan y = -2)))) t = true := by
    rw [Bool.and_eq_true]
    constructor
    · exact decide_eq_true h1
    · rw [List.all_eq_true]
      intro y hy
      rw [List.mem_range'_1] at hy
      have hyt : y = t := by omega
      rw [hyt, h1]
      rfl
  have hsome : ((List.range (t + 1)).find? (fun s =>
      decide (plan s = 1)
        && (List.range' s (t + 1 - s)).all
          (fun y => !(decide (plan y = 2) || decide (plan y = -2))))).isSome := by
    apply List.find?_isSome.mpr
    exact ⟨t, List.mem_range.mpr (by omega), hcand⟩
  cases hf : (List.range (t + 1)).find? (fun s =>
      decide (plan s = 1)
        && (List.range' s (t + 1 - s)).all
          (fun y => !(decide (plan y = 2) || decide (plan y = -2)))) with
  | none =>
    rw [hf] at hsome
    cases hsome
  | some s =>
    have hws : winStart plan t = s := by
      unfold winStart
      rw [hf]
    rw [List.range_eq_range'] at hf
    obtain ⟨hp, hge, hlt2, hmin⟩ := find?_range'_first hf
    rw [Bool.and_eq_true] at hp
    have hp1 := of_decide_eq_true hp.1
    have hp2 := List.all_eq_true.mp hp.2
    rw [hws]
    refine ⟨hp1, by omega, ?_, ?_⟩
    · intro y hy1 hy2
      have := hp2 y (List.mem_range'_1.mpr ⟨hy1, by omega⟩)
      rw [Bool.not_eq_eq_eq_not, Bool.not_true, Bool.or_eq_false_iff] at this
      exact ⟨of_decide_eq_false this.1, of_decide_eq_false this.2⟩
    · intro s2 hs2 hp2'
      by_contra hno
      have hfail := hmin s2 (by omega) hs2
      have htrue : (decide (plan s2 = 1) && (List.range' s2 (t + 1 - s2)).all
          (fun y => !(decide (plan y = 2) || decide (plan y = -2)))) = true := by
        rw [Bool.and_eq_true]
        refine ⟨decide_eq_true hp2', List.all_eq_true.mpr ?_⟩
        intro y hy
        rw [List.mem_range'_1] at hy
        have hnc : ¬ (plan y = 2 ∨ plan y = -2) :=
          fun hc => hno ⟨y, by omega, by omega, hc⟩
        rw [Bool.not_eq_eq_eq_not, Bool.not_true, Bool.or_eq_false_iff]
        exact ⟨decide_eq_false (fun hc => hnc (Or.inl hc)),
          decide_eq_false (fun hc => hnc (Or.inr hc))⟩
      rw [hfail] at htrue
      cases htrue

theorem winStart_eq_of_clean {plan : ℕ → ℤ} {s t : ℕ} (hs : plan s = 1)
    (ht : plan t = 1) (hle : s ≤ t)
    (hclean : ∀ y, s ≤ y → y ≤ t → plan y ≠ 2 ∧ plan y ≠ -2) :
    winStart plan t = winStart plan s := by
  obtain ⟨hq1, hq2, hq3, hq4⟩ := winStart_found ht
  obtain ⟨hr1, hr2, hr3, hr4⟩ := winStart_found hs
  rcases Nat.lt_trichotomy (winStart plan t) (winStart plan s) with hc | hc | hc
  · obtain ⟨y, hy1, hy2, hy3⟩ := hr4 (winStart plan t) hc hq1
    rcases le_or_lt y (winStart plan t) with hyy | hyy
    · have := hq3 y (by omega) (by omega)
      rcases hy3 with h | h
      · exact absurd h this.1
      · exact absurd h this.2
    · -- winStart plan t < y ≤ s ≤ t : y in the clean zone of t
      have := hq3 y (by omega) (by omega)
      rcases hy3 with h | h
      · exact absurd h this.1
      · exact absurd h this.2
  · exact hc
  · -- winStart plan s < winStart plan t ≤ t; winStart plan s qualifies for t
    exfalso
    obtain ⟨y, hy1, hy2, hy3⟩ := hq4 (winStart plan s) hc hr1
    rcases le_or_lt y s with hyy | hyy
    · have := hr3 y hy1 hyy
      rcases hy3 with h | h
      · exact absurd h this.1
      · exact absurd h this.2
    · have := hclean y (by omega) hy2
      rcases hy3 with h | h
      · exact absurd h this.1
      · exact absurd h this.2

theorem winStart_of_start {plan : ℕ → ℤ} {s : ℕ} (h1 : plan s = 1)
    (h2 : scanJam1 plan s = none)
    (hvals : ∀ y, plan y = 0 ∨ plan y = 1 ∨ plan y = 2 ∨ plan y = -2) :
    winStart plan s = s := by
  obtain ⟨hq1, hq2, hq3, hq4⟩ := winStart_found h1
  rcases Nat.eq_or_lt_of_le hq2 with h | h
  · exact h
  · exfalso
    have hsome : ((List.range s).reverse.find?
        (fun y => decide (plan y ≠ 0))).isSome := by
      apply List.find?_isSome.mpr
      refine ⟨winStart plan s, ?_, ?_⟩
      · rw [List.mem_reverse, List.mem_range]
        omega
      · rw [decide_eq_true_eq, hq1]
        decide
    cases hf : (List.range s).reverse.find? (fun y => decide (plan y ≠ 0)) with
    | none =>
      rw [hf] at hsome
      cases hsome
    | some u =>
      obtain ⟨hu0, hult, humin⟩ := find?_rev_range hf
      rw [decide_eq_true_eq] at hu0
      have huge : winStart plan s ≤ u := by
        by_contra hcon
        have := humin (winStart plan s) (by omega) (by omega)
        rw [decide_eq_false_iff_not] at this
        exact this (by rw [hq1]; decide)
      have hu1 : plan u = 1 := by
        have hno := hq3 u huge (by omega)
        rcases hvals u with h9 | h9 | h9 | h9
        · exact absurd h9 hu0
        · exact h9
        · exact absurd h9 hno.1
        · exact absurd h9 hno.2
      unfold scanJam1 at h2
      rw [hf] at h2
      have h3 : (if plan u = 1 then some u else none) = (none : Option ℕ) := h2
      rw [if_pos hu1] at h3
      cases h3

theorem winStart_isStart {plan : ℕ → ℤ} {t : ℕ} (h1 : plan t = 1)
    (hvals : ∀ y, plan y = 0 ∨ plan y = 1 ∨ plan y = 2 ∨ plan y = -2) :
    scanJam1 plan (winStart plan t) = none := by
  obtain ⟨hq1, hq2, hq3, hq4⟩ := winStart_found h1
  unfold scanJam1
  cases hf : (List.range (winStart plan t)).reverse.find?
      (fun y => decide (plan y ≠ 0)) with
  | none => rfl
  | some u =>
    have hprop := List.find?_some hf
    rw [decide_eq_true_eq] at hprop
    have hmem := List.mem_of_find?_eq_some hf
    rw [List.mem_reverse, List.mem_range] at hmem
    by_cases hu : plan u = 1
    · exfalso
      -- u < winStart is a 1-cell; everything in (u, winStart) is zero,
      -- so u heads a clean run up to t, contradicting minimality
      obtain ⟨y, hy1, hy2, hy3⟩ := hq4 u hmem hu
      rcases Nat.lt_or_ge y (winStart plan t) with hyy | hyy
      · -- y in (u, winStart): find? from the top found u first, so all
        -- cells in (u, winStart) are zero... u is the first from the top:
        -- y with plan = ±2 is nonzero and above u? not necessarily; y ≥ u
        rcases Nat.eq_or_lt_of_le hy1 with hEq | hlt2
        · rw [← hEq] at hy3
          rcases hy3 with h | h <;> exact absurd (h.symm.trans hu) (by decide)
        · -- u < y < winStart: y must be zero: find?-first-from-top
          obtain ⟨-, -, hzero⟩ := find?_rev_range hf
          have := hzero y hlt2 hyy
          rw [decide_eq_false_iff_not] at this
          rcases hy3 with h | h <;> (rw [h] at this; exact this (by decide))
      · have := hq3 y hyy hy2
        rcases hy3 with h | h
        · exact absurd h this.1
        · exact absurd h this.2
    · show (if plan u = 1 then some u else none) = none
      rw [if_neg hu]

theorem scanJam1_succ_zero {plan : ℕ → ℤ} {T : ℕ} (h : plan T = 0) :
    scanJam1 plan (T + 1) = scanJam1 plan T := by
  unfold scanJam1
  rw [List.range_succ, List.reverse_append]
  simp only [List.reverse_singleton, List.singleton_append, List.find?_cons]
  rw [show (decide (plan T ≠ 0)) = false from
    decide_eq_false (by rw [h]; decide)]

theorem scanJam1_succ_one {plan : ℕ → ℤ} {T : ℕ} (h : plan T = 1) :
    scanJam1 plan (T + 1) = some T := by
  unfold scanJam1
  rw [List.range_succ, List.reverse_append]
  simp only [List.reverse_singleton, List.singleton_append, List.find?_cons]
  rw [show (decide (plan T ≠ 0)) = true from
    decide_eq_true (by rw [h]; decide)]
  show (if plan T = 1 then some T else none) = some T
  rw [if_pos h]

theorem scanJam1_succ_two {plan : ℕ → ℤ} {T : ℕ}
    (h : plan T = 2 ∨ plan T = -2) :
    scanJam1 plan (T + 1) = none := by
  unfold scanJam1
  rw [List.range_succ, List.reverse_append]
  simp only [List.reverse_singleton, List.singleton_append, List.find?_cons]
  rw [show (decide (plan T ≠ 0)) = true from
    decide_eq_true (by rcases h with h | h <;> (rw [h]; decide))]
  show (if plan T = 1 then some T else none) = none
  rw [if_neg (by rcases h with h | h <;> (rw [h]; decide))]

theorem closeT_ge {plan : ℕ → ℤ} {nm s : ℕ} (hs : s ≤ nm - 1) :
    s ≤ closeT plan nm s := by
  unfold closeT
  cases hf : (List.range' s (nm - s)).find?
      (fun y => decide (plan y = 2) || decide (plan y = -2)) with
  | none => exact hs
  | some b =>
    show s ≤ b
    have := List.mem_of_find?_eq_some hf
    rw [List.mem_range'_1] at this
    omega

theorem closeT_le {plan : ℕ → ℤ} {nm s : ℕ} (hnm : 0 < nm) :
    closeT plan nm s ≤ nm - 1 := by
  unfold closeT
  cases hf : (List.range' s (nm - s)).find?
      (fun y => decide (plan y = 2) || decide (plan y = -2)) with
  | none => exact le_refl _
  | some b =>
    show b ≤ nm - 1
    have := List.mem_of_find?_eq_some hf
    rw [List.mem_range'_1] at this
    omega

theorem closeT_clean {plan : ℕ → ℤ} {nm s y : ℕ} (hy1 : s ≤ y)
    (hy2 : y < closeT plan nm s) (hyn : y < nm) :
    plan y ≠ 2 ∧ plan y ≠ -2 := by
  unfold closeT at hy2
  cases hf : (List.range' s (nm - s)).find?
      (fun y => decide (plan y = 2) || decide (plan y = -2)) with
  | none =>
    have := List.find?_eq_none.mp hf y (List.mem_range'_1.mpr ⟨hy1, by omega⟩)
    rw [Bool.or_eq_true, not_or] at this
    exact ⟨fun hc => this.1 (decide_eq_true hc),
      fun hc => this.2 (decide_eq_true hc)⟩
  | some b =>
    rw [hf] at hy2
    obtain ⟨-, -, -, hmin⟩ := find?_range'_first hf
    have := hmin y hy1 hy2
    rw [Bool.or_eq_false_iff] at this
    exact ⟨of_decide_eq_false this.1, of_decide_eq_false this.2⟩

theorem closeT_hit {plan : ℕ → ℤ} {nm s : ℕ}
    (h : closeT plan nm s ≠ nm - 1) :
    plan (closeT plan nm s) = 2 ∨ plan (closeT plan nm s) = -2 := by
  unfold closeT at h ⊢
  cases hf : (List.range' s (nm - s)).find?
      (fun y => decide (plan y = 2) || decide (plan y = -2)) with
  | none =>
    rw [hf] at h
    exact absurd rfl h
  | some b =>
    have hp := List.find?_some hf
    rw [Bool.or_eq_true] at hp
    rcases hp with hp | hp
    · exact Or.inl (of_decide_eq_true hp)
    · exact Or.inr (of_decide_eq_true hp)

theorem closeT_first {plan : ℕ → ℤ} {nm s b : ℕ} (hb1 : s ≤ b) (hb2 : b < nm)
    (hb3 : plan b = 2 ∨ plan b = -2) :
    closeT plan nm s ≤ b := by
  unfold closeT
  cases hf : (List.range' s (nm - s)).find?
      (fun y => decide (plan y = 2) || decide (plan y = -2)) with
  | none =>
    have := List.find?_eq_none.mp hf b (List.mem_range'_1.mpr ⟨hb1, by omega⟩)
    rw [Bool.or_eq_true, not_or] at this
    rcases hb3 with h | h
    · exact absurd (decide_eq_true h) this.1
    · exact absurd (decide_eq_true h) this.2
  | some c =>
    show c ≤ b
    obtain ⟨-, -, -, hmin⟩ := find?_range'_first hf
    by_contra hcon
    have := hmin b hb1 (by omega)
    rw [Bool.or_eq_false_iff] at this
    rcases hb3 with h | h
    · exact absurd (decide_eq_true h) (by rw [this.1]; decide)
    · exact absurd (decide_eq_true h) (by rw [this.2]; decide)

theorem scanJam1_some_of_one_clean {plan : ℕ → ℤ}
    (hvals : ∀ y, plan y = 0 ∨ plan y = 1 ∨ plan y = 2 ∨ plan y = -2)
    {s t : ℕ} (hst : s < t) (hs1 : plan s = 1)
    (hclean : ∀ y, s ≤ y → y < t → ¬(plan y = 2 ∨ plan y = -2)) :
    ∃ u, scanJam1 plan t = some u ∧ s ≤ u ∧ u < t := by
  have hsome : ((List.range t).reverse.find?
      (fun y => decide (plan y ≠ 0))).isSome := by
    apply List.find?_isSome.mpr
    refine ⟨s, ?_, ?_⟩
    · rw [List.mem_reverse, List.mem_range]
      omega
    · rw [decide_eq_true_eq, hs1]
      decide
  cases hf : (List.range t).reverse.find? (fun y => decide (plan y ≠ 0)) with
  | none =>
    rw [hf] at hsome
    cases hsome
  | some u =>
    obtain ⟨hu0, hult, humin⟩ := find?_rev_range hf
    rw [decide_eq_true_eq] at hu0
    have huge : s ≤ u := by
      by_contra hcon
      have := humin s (by omega) (by omega)
      rw [decide_eq_false_iff_not] at this
      exact this (by rw [hs1]; decide)
    have hu1 : plan u = 1 := by
      have hno := hclean u huge hult
      rcases hvals u with h9 | h9 | h9 | h9
      · exact absurd h9 hu0
      · exact h9
      · exact absurd (Or.inl h9) hno
      · exact absurd (Or.inr h9) hno
    refine ⟨u, ?_, huge, hult⟩
    unfold scanJam1
    rw [hf]
    show (if plan u = 1 then some u else none) = some u
    rw [if_pos hu1]

theorem closed_of_scan_none {plan : ℕ → ℤ}
    (hvals : ∀ y, plan y = 0 ∨ plan y = 1 ∨ plan y = 2 ∨ plan y = -2)
    {nm T s : ℕ} (hnone : scanJam1 plan T = none)
    (hs1 : plan s = 1) (hsT : s < T) (hTnm : T ≤ nm) (hnm : 0 < nm) :
    closeT plan nm s < T := by
  by_contra hcon
  have hclean : ∀ y, s ≤ y → y < T → ¬(plan y = 2 ∨ plan y = -2) := by
    intro y hy1 hy2 hc
    have := @closeT_clean plan nm s y hy1 (by omega) (by omega)
    rcases hc with h | h
    · exact this.1 h
    · exact this.2 h
  obtain ⟨u, hu, -, -⟩ := scanJam1_some_of_one_clean hvals hsT hs1 hclean
  rw [hnone] at hu
  cases hu

theorem open_of_scan_some {plan : ℕ → ℤ}
    (hvals : ∀ y, plan y = 0 ∨ plan y = 1 ∨ plan y = 2 ∨ plan y = -2)
    {nm T t : ℕ} (hsome : scanJam1 plan T = some t) (hT : T < nm)
    (hnm : 0 < nm) :
    T ≤ closeT plan nm (winStart plan t) := by
  obtain ⟨ht1, ht2, hzero⟩ := scanJam1_spec hsome
  obtain ⟨hw1, hw2, hw3, -⟩ := winStart_found ht1
  by_contra hcon
  have hb1 : winStart plan t ≤ closeT plan nm (winStart plan t) :=
    closeT_ge (by omega)
  have hhit : plan (closeT plan nm (winStart plan t)) = 2
      ∨ plan (closeT plan nm (winStart plan t)) = -2 := by
    apply closeT_hit
    omega
  rcases le_or_lt (closeT plan nm (winStart plan t)) t with hc | hc
  · have := hw3 _ hb1 hc
    rcases hhit with h | h
    · exact this.1 h
    · exact this.2 h
  · have := hzero _ hc (by omega)
    rcases hhit with h | h <;> (rw [this] at h; cases h)

theorem open_start_unique {plan : ℕ → ℤ}
    (hvals : ∀ y, plan y = 0 ∨ plan y = 1 ∨ plan y = 2 ∨ plan y = -2)
    {nm T s : ℕ} (hnm : 0 < nm) (hTnm : T < nm)
    (hs1 : plan s = 1) (hscs : scanJam1 plan s = none)
    (hsT : s < T) (hopen : T ≤ closeT plan nm s)
    {t : ℕ} (hscanT : scanJam1 plan T = some t) :
    winStart plan t = s := by
  obtain ⟨ht1, ht2, hzero⟩ := scanJam1_spec hscanT
  have hclean : ∀ y, s ≤ y → y < T → plan y ≠ 2 ∧ plan y ≠ -2 :=
    fun y hy1 hy2 => @closeT_clean plan nm s y hy1 (by omega) (by omega)
  have hts : s ≤ t := by
    by_contra hcon
    have := hzero s (by omega) hsT
    rw [this] at hs1
    cases hs1
  have := winStart_eq_of_clean hs1 ht1 hts
    (fun y hy1 hy2 => hclean y hy1 (by omega))
  rw [this, winStart_of_start hs1 hscs hvals]

theorem starts_separated {plan : ℕ → ℤ}
    (hvals : ∀ y, plan y = 0 ∨ plan y = 1 ∨ plan y = 2 ∨ plan y = -2)
    {nm s1 s2 : ℕ} (hnm : 0 < nm)
    (h11 : plan s1 = 1) (h12 : scanJam1 plan s1 = none)
    (h21 : plan s2 = 1) (h22 : scanJam1 plan s2 = none)
    (hlt : s1 < s2) (hs2 : s2 ≤ nm) :
    closeT plan nm s1 < s2 := by
  by_contra hcon
  have hclean : ∀ y, s1 ≤ y → y < s2 → ¬(plan y = 2 ∨ plan y = -2) := by
    intro y hy1 hy2 hc
    have := @closeT_clean plan nm s1 y hy1 (by omega) (by omega)
    rcases hc with h | h
    · exact this.1 h
    · exact this.2 h
  obtain ⟨u, hu, -, -⟩ := scanJam1_some_of_one_clean hvals hlt h11 hclean
  rw [h22] at hu
  cases hu

theorem filter_or_last {l : List ℕ} {a b : ℕ → Bool}
    (hsort : l.Pairwise (· < ·))
    (hsep : ∀ x ∈ l, ∀ y ∈ l, a x = true → b y = true → x < y)
    (hdisj : ∀ x ∈ l, ¬(a x = true ∧ b x = true)) :
    l.filter (fun s => a s || b s) = l.filter a ++ l.filter b := by
  induction l with
  | nil => rfl
  | cons e l ih =>
    have hrec := ih (List.pairwise_cons.mp hsort).2
      (fun x hx y hy => hsep x (by simp [hx]) y (by simp [hy]))
      (fun x hx => hdisj x (by simp [hx]))
    rw [List.filter_cons, List.filter_cons, List.filter_cons]
    cases hae : a e with
    | true =>
      have hbe : b e = false := by
        cases hbe : b e with
        | false => rfl
        | true => exact absurd ⟨hae, hbe⟩ (hdisj e (by simp))
      rw [if_pos (show (true || b e) = true from rfl),
        if_pos rfl, if_neg (show ¬(b e = true) by simp [hbe]), hrec]
      rfl
    | false =>
      cases hbe : b e with
      | true =>
        have hfa : l.filter a = [] := by
          rw [List.filter_eq_nil_iff]
          intro x hx hax
          have h1 := hsep x (by simp [hx]) e (by simp) hax hbe
          have h2 := (List.pairwise_cons.mp hsort).1 x hx
          omega
        rw [if_pos (show (false || true) = true from rfl),
          if_neg (show ¬(false = true) by simp), if_pos rfl, hrec, hfa]
        rfl
      | false =>
        rw [if_neg (show ¬((false || false) = true) by simp),
          if_neg (show ¬(false = true) by simp),
          if_neg (show ¬(false = true) by simp), hrec]

theorem cellProd_succ_not1 {c1 : Circuit α} {A s T : ℕ} (hsT : s ≤ T)
    (h : planOf c1.gates A T ≠ 1) :
    cellProd c1 A s (T + 1) = cellProd c1 A s T := by
  unfold cellProd
  rw [show T + 1 - s = (T - s) + 1 by omega, List.range'_concat,
    List.filter_append, show s + 1 * (T - s) = T by omega]
  rw [show List.filter (fun t => decide (planOf c1.gates A t = 1)) [T] = []
    by rw [List.filter_cons]; rw [if_neg (by rw [decide_eq_false h]; simp)]; rfl]
  rw [List.append_nil]

theorem cellProd_succ_one {c1 : Circuit α} {A s T : ℕ} (hsT : s ≤ T)
    (h : planOf c1.gates A T = 1) :
    cellProd c1 A s (T + 1) = jamU c1 A T * cellProd c1 A s T := by
  unfold cellProd
  rw [show T + 1 - s = (T - s) + 1 by omega, List.range'_concat,
    List.filter_append, show s + 1 * (T - s) = T by omega]
  rw [show List.filter (fun t => decide (planOf c1.gates A t = 1)) [T] = [T]
    by rw [List.filter_cons]; rw [if_pos (by rw [decide_eq_true h])]; rfl]
  rw [List.foldl_append]
  rfl

theorem cellProd_self {c1 : Circuit α} {A s : ℕ} :
    cellProd c1 A s s = 1 := by
  unfold cellProd
  rw [Nat.sub_self]
  rfl

/-- Emitted requests of the pass-1 scan on qubit `A` after processing
moments `[0, T)`: one fused request per chain start already closed. -/
def chainEmit (c1 : Circuit α) (nm A T : ℕ) : List ((ℤ × List ℕ) × Gate α) :=
  ((List.range T).filter (fun s => isStartB (planOf c1.gates A) s
      && decide (closeT (planOf c1.gates A) nm s < T))).map
    (fun (s : ℕ) => (((s : ℤ), [A]), Gate.U1 (chainU c1 nm A s)))

/-- Pending chain of the pass-1 scan on qubit `A` after processing
moments `[0, T)`. -/
def chainPend (c1 : Circuit α) (nm A T : ℕ) :
    Option (ℕ × Matrix (Fin 2) (Fin 2) α) :=
  if T = nm then none
  else
    match scanJam1 (planOf c1.gates A) T with
    | some t => some (winStart (planOf c1.gates A) t,
        cellProd c1 A (winStart (planOf c1.gates A) t) T)
    | none => none

theorem chainAbsorb_not1 {c1 : Circuit α} {A T : ℕ}
    (h : planOf c1.gates A T ≠ 1)
    (st : List ((ℤ × List ℕ) × Gate α) × Option (ℕ × Matrix (Fin 2) (Fin 2) α)) :
    chainAbsorb c1 A st T = st := by
  unfold chainAbsorb
  rw [if_neg h]

theorem chainAbsorb_one_none {c1 : Circuit α} {A T : ℕ}
    (h : planOf c1.gates A T = 1) (E : List ((ℤ × List ℕ) × Gate α)) :
    chainAbsorb c1 A (E, none) T = (E, some (T, jamU c1 A T)) := by
  unfold chainAbsorb
  rw [if_pos h]
  rfl

theorem chainAbsorb_one_some {c1 : Circuit α} {A T s : ℕ}
    (h : planOf c1.gates A T = 1) (E : List ((ℤ × List ℕ) × Gate α))
    (W : Matrix (Fin 2) (Fin 2) α) :
    chainAbsorb c1 A (E, some (s, W)) T = (E, some (s, jamU c1 A T * W)) := by
  unfold chainAbsorb
  rw [if_pos h]
  rfl

theorem chainPlace_none {c1 : Circuit α} {nm A T : ℕ}
    (E : List ((ℤ × List ℕ) × Gate α)) :
    chainPlace c1 nm A (E, none) T = (E, none) := rfl

theorem chainPlace_some_hit {c1 : Circuit α} {nm A T s : ℕ}
    (h : planOf c1.gates A T = 2 ∨ planOf c1.gates A T = -2 ∨ T = nm - 1)
    (E : List ((ℤ × List ℕ) × Gate α)) (W : Matrix (Fin 2) (Fin 2) α) :
    chainPlace c1 nm A (E, some (s, W)) T
      = (E ++ [(((s : ℤ), [A]), Gate.U1 W)], none) := by
  show (if planOf c1.gates A T = 2 ∨ planOf c1.gates A T = -2 ∨ T = nm - 1
      then (E ++ [(((s : ℤ), [A]), Gate.U1 W)], none)
      else (E, some (s, W))) = _
  rw [if_pos h]

theorem chainPlace_some_miss {c1 : Circuit α} {nm A T s : ℕ}
    (h : ¬(planOf c1.gates A T = 2 ∨ planOf c1.gates A T = -2 ∨ T = nm - 1))
    (E : List ((ℤ × List ℕ) × Gate α)) (W : Matrix (Fin 2) (Fin 2) α) :
    chainPlace c1 nm A (E, some (s, W)) T = (E, some (s, W)) := by
  show (if planOf c1.gates A T = 2 ∨ planOf c1.gates A T = -2 ∨ T = nm - 1
      then (E ++ [(((s : ℤ), [A]), Gate.U1 W)], none)
      else (E, some (s, W))) = _
  rw [if_neg h]

theorem chainPend_lt_none {c1 : Circuit α} {nm A T : ℕ} (hT : T < nm)
    (hS : scanJam1 (planOf c1.gates A) T = none) :
    chainPend c1 nm A T = none := by
  unfold chainPend
  rw [if_neg (by omega), hS]

theorem chainPend_lt_some {c1 : Circuit α} {nm A T t : ℕ} (hT : T < nm)
    (hS : scanJam1 (planOf c1.gates A) T = some t) :
    chainPend c1 nm A T = some (winStart (planOf c1.gates A) t,
      cellProd c1 A (winStart (planOf c1.gates A) t) T) := by
  unfold chainPend
  rw [if_neg (by omega), hS]

theorem chainPend_nm {c1 : Circuit α} {nm A : ℕ} :
    chainPend c1 nm A nm = none := by
  unfold chainPend
  rw [if_pos rfl]

theorem chain_stable_of_closed {c1 : Circuit α} {nm A T : ℕ} (hnm : 0 < nm)
    (hTnm : T ≤ nm) (hS : scanJam1 (planOf c1.gates A) T = none) :
    ∀ s, s < T →
      (isStartB (planOf c1.gates A) s
        && decide (closeT (planOf c1.gates A) nm s < T + 1))
      = (isStartB (planOf c1.gates A) s
        && decide (closeT (planOf c1.gates A) nm s < T)) := by
  intro s hs
  cases hst : isStartB (planOf c1.gates A) s with
  | false => rfl
  | true =>
    unfold isStartB at hst
    rw [Bool.and_eq_true] at hst
    have h1 := of_decide_eq_true hst.1
    have hcl : closeT (planOf c1.gates A) nm s < T :=
      closed_of_scan_none (fun y => planOf_values c1.gates A y) hS h1 hs hTnm hnm
    rw [decide_eq_true hcl, decide_eq_true
      (show closeT (planOf c1.gates A) nm s < T + 1 by omega)]

theorem chain_stable_of_open {c1 : Circuit α} {nm A T t : ℕ} (hnm : 0 < nm)
    (hTnm : T < nm) (hS : scanJam1 (planOf c1.gates A) T = some t) :
    ∀ s, s < T + 1 → s ≠ winStart (planOf c1.gates A) t →
      (isStartB (planOf c1.gates A) s
        && decide (closeT (planOf c1.gates A) nm s < T + 1))
      = (isStartB (planOf c1.gates A) s
        && decide (closeT (planOf c1.gates A) nm s < T)) := by
  intro s hs hne
  cases hst : isStartB (planOf c1.gates A) s with
  | false => rfl
  | true =>
    unfold isStartB at hst
    rw [Bool.and_eq_true] at hst
    have h1 := of_decide_eq_true hst.1
    have h2 := of_decide_eq_true hst.2
    have hsT : s ≠ T := by
      intro hc
      rw [hc, hS] at h2
      cases h2
    rcases lt_or_le (closeT (planOf c1.gates A) nm s) T with hcl | hcl
    · rw [decide_eq_true hcl, decide_eq_true
        (show closeT (planOf c1.gates A) nm s < T + 1 by omega)]
    · exact absurd (open_start_unique (fun y => planOf_values c1.gates A y)
        hnm hTnm h1 h2 (by omega) hcl hS) (fun h => hne h.symm)

theorem chain_closed_lt_open {c1 : Circuit α} {nm A T t s : ℕ} (hnm : 0 < nm)
    (hTnm : T < nm) (hS : scanJam1 (planOf c1.gates A) T = some t)
    (hstart : isStartB (planOf c1.gates A) s = true) (hsT : s < T + 1)
    (hclosed : closeT (planOf c1.gates A) nm s < T) :
    s < winStart (planOf c1.gates A) t := by
  have hvals := fun y => planOf_values c1.gates A y
  obtain ⟨ht1, ht2, hzero⟩ := scanJam1_spec hS
  have hw1 := (winStart_found ht1).1
  have hwn := winStart_isStart ht1 hvals
  have hwopen := open_of_scan_some hvals hS hTnm hnm
  unfold isStartB at hstart
  rw [Bool.and_eq_true] at hstart
  have h1 := of_decide_eq_true hstart.1
  have h2 := of_decide_eq_true hstart.2
  rcases Nat.lt_trichotomy s (winStart (planOf c1.gates A) t) with h | h | h
  · exact h
  · rw [h] at hclosed
    omega
  · have := starts_separated hvals hnm hw1 hwn h1 h2 h (by omega)
    omega

theorem closeT_open_eq {c1 : Circuit α} {nm A T t : ℕ} (hnm : 0 < nm)
    (hTnm : T < nm) (hS : scanJam1 (planOf c1.gates A) T = some t)
    (hhit : planOf c1.gates A T = 2 ∨ planOf c1.gates A T = -2 ∨ T = nm - 1) :
    closeT (planOf c1.gates A) nm (winStart (planOf c1.gates A) t) = T := by
  have hvals := fun y => planOf_values c1.gates A y
  have hge := open_of_scan_some hvals hS hTnm hnm
  obtain ⟨ht1, ht2, -⟩ := scanJam1_spec hS
  have hwt := (winStart_found ht1).2.1
  rcases hhit with h | h | h
  · have := @closeT_first (planOf c1.gates A) nm
      (winStart (planOf c1.gates A) t) T (by omega) hTnm (Or.inl h)
    omega
  · have := @closeT_first (planOf c1.gates A) nm
      (winStart (planOf c1.gates A) t) T (by omega) hTnm (Or.inr h)
    omega
  · have := @closeT_le (planOf c1.gates A) nm
      (winStart (planOf c1.gates A) t) hnm
    omega

theorem closeT_open_gt {c1 : Circuit α} {nm A T t : ℕ} (hnm : 0 < nm)
    (hTnm : T < nm) (hS : scanJam1 (planOf c1.gates A) T = some t)
    (hend : T ≠ nm - 1)
    (hnot : planOf c1.gates A T ≠ 2 ∧ planOf c1.gates A T ≠ -2) :
    T < closeT (planOf c1.gates A) nm (winStart (planOf c1.gates A) t) := by
  have hvals := fun y => planOf_values c1.gates A y
  have hwopen := open_of_scan_some hvals hS hTnm hnm
  rcases Nat.eq_or_lt_of_le hwopen with h | h
  · exfalso
    have hhit := @closeT_hit (planOf c1.gates A) nm
      (winStart (planOf c1.gates A) t) (by omega)
    rw [← h] at hhit
    rcases hhit with h2 | h2
    · exact hnot.1 h2
    · exact hnot.2 h2
  · exact h

theorem chain_stable_full {c1 : Circuit α} {nm A T t : ℕ} (hnm : 0 < nm)
    (hTnm : T < nm) (hS : scanJam1 (planOf c1.gates A) T = some t)
    (hend : T ≠ nm - 1)
    (hnot : planOf c1.gates A T ≠ 2 ∧ planOf c1.gates A T ≠ -2) :
    ∀ s, s < T →
      (isStartB (planOf c1.gates A) s
        && decide (closeT (planOf c1.gates A) nm s < T + 1))
      = (isStartB (planOf c1.gates A) s
        && decide (closeT (planOf c1.gates A) nm s < T)) := by
  intro s hs
  by_cases hsw : s = winStart (planOf c1.gates A) t
  · have hgtw := closeT_open_gt hnm hTnm hS hend hnot
    rw [hsw, decide_eq_false (show ¬ closeT (planOf c1.gates A) nm
        (winStart (planOf c1.gates A) t) < T + 1 by omega),
      decide_eq_false (show ¬ closeT (planOf c1.gates A) nm
        (winStart (planOf c1.gates A) t) < T by omega)]
  · exact chain_stable_of_open hnm hTnm hS s (by omega) hsw

theorem chain_new_false_scan {c1 : Circuit α} {nm A T t : ℕ}
    (hS : scanJam1 (planOf c1.gates A) T = some t) :
    (isStartB (planOf c1.gates A) T
      && decide (closeT (planOf c1.gates A) nm T < T + 1)) = false := by
  unfold isStartB
  rw [decide_eq_false (show ¬ scanJam1 (planOf c1.gates A) T = none by
    rw [hS]; exact fun h => Option.noConfusion h)]
  rw [Bool.and_false, Bool.false_and]

theorem chain_new_false_not1 {c1 : Circuit α} {nm A T : ℕ}
    (h : planOf c1.gates A T ≠ 1) :
    (isStartB (planOf c1.gates A) T
      && decide (closeT (planOf c1.gates A) nm T < T + 1)) = false := by
  unfold isStartB
  rw [decide_eq_false h, Bool.false_and, Bool.false_and]

theorem chainEmit_stable {c1 : Circuit α} {nm A T : ℕ}
    (hnew : (isStartB (planOf c1.gates A) T
        && decide (closeT (planOf c1.gates A) nm T < T + 1)) = false)
    (hstable : ∀ s, s < T →
      (isStartB (planOf c1.gates A) s
        && decide (closeT (planOf c1.gates A) nm s < T + 1))
      = (isStartB (planOf c1.gates A) s
        && decide (closeT (planOf c1.gates A) nm s < T))) :
    chainEmit c1 nm A (T + 1) = chainEmit c1 nm A T := by
  have hl : (List.range (T + 1)).filter (fun s =>
        isStartB (planOf c1.gates A) s
          && decide (closeT (planOf c1.gates A) nm s < T + 1))
      = (List.range T).filter (fun s =>
        isStartB (planOf c1.gates A) s
          && decide (closeT (planOf c1.gates A) nm s < T)) := by
    rw [List.range_succ, List.filter_append]
    rw [show List.filter (fun s => isStartB (planOf c1.gates A) s
        && decide (closeT (planOf c1.gates A) nm s < T + 1)) [T] = [] by
      rw [List.filter_cons, if_neg (by rw [hnew]; simp)]; rfl]
    rw [List.append_nil]
    exact List.filter_congr (fun s hs => hstable s (List.mem_range.mp hs))
  unfold chainEmit
  rw [hl]

theorem chainEmit_snoc {c1 : Circuit α} {nm A T ws : ℕ}
    (hstart : isStartB (planOf c1.gates A) ws = true)
    (hws : ws < T + 1)
    (hclose1 : ¬ closeT (planOf c1.gates A) nm ws < T)
    (hclose2 : closeT (planOf c1.gates A) nm ws < T + 1)
    (hstable : ∀ s, s < T + 1 → s ≠ ws →
      (isStartB (planOf c1.gates A) s
        && decide (closeT (planOf c1.gates A) nm s < T + 1))
      = (isStartB (planOf c1.gates A) s
        && decide (closeT (planOf c1.gates A) nm s < T)))
    (horder : ∀ s, s < T + 1 → isStartB (planOf c1.gates A) s = true →
      closeT (planOf c1.gates A) nm s < T → s < ws) :
    chainEmit c1 nm A (T + 1) = chainEmit c1 nm A T
      ++ [(((ws : ℤ), [A]), Gate.U1 (chainU c1 nm A ws))] := by
  have haT : (isStartB (planOf c1.gates A) T
      && decide (closeT (planOf c1.gates A) nm T < T)) = false := by
    cases hst : isStartB (planOf c1.gates A) T with
    | false => rfl
    | true =>
      cases hcl : decide (closeT (planOf c1.gates A) nm T < T) with
      | false => rw [Bool.and_false]
      | true =>
        have := horder T (by omega) hst (of_decide_eq_true hcl)
        omega
  have hsep : ∀ x ∈ List.range (T + 1), ∀ y ∈ List.range (T + 1),
      (isStartB (planOf c1.gates A) x
        && decide (closeT (planOf c1.gates A) nm x < T)) = true →
      decide (y = ws) = true → x < y := by
    intro x hx y hy hax hby
    rw [Bool.and_eq_true] at hax
    have hy2 := of_decide_eq_true hby
    rw [hy2]
    exact horder x (List.mem_range.mp hx) hax.1 (of_decide_eq_true hax.2)
  have hdisj : ∀ x ∈ List.range (T + 1),
      ¬((isStartB (planOf c1.gates A) x
        && decide (closeT (planOf c1.gates A) nm x < T)) = true
        ∧ decide (x = ws) = true) := by
    rintro x hx ⟨hax, hbx⟩
    rw [Bool.and_eq_true] at hax
    have hx2 := of_decide_eq_true hbx
    rw [hx2] at hax
    exact hclose1 (of_decide_eq_true hax.2)
  have hor := filter_or_last (List.pairwise_lt_range (T + 1)) hsep hdisj
  have hmain : (List.range (T + 1)).filter (fun s =>
        isStartB (planOf c1.gates A) s
          && decide (closeT (planOf c1.gates A) nm s < T + 1))
      = (List.range (T + 1)).filter (fun s =>
        (isStartB (planOf c1.gates A) s
          && decide (closeT (planOf c1.gates A) nm s < T))
        || decide (s = ws)) := by
    apply List.filter_congr
    intro s hs
    by_cases hsw : s = ws
    · rw [hsw, hstart, decide_eq_true hclose2,
        decide_eq_true (show ws = ws from rfl), Bool.or_true]
      rfl
    · rw [hstable s (List.mem_range.mp hs) hsw, decide_eq_false hsw,
        Bool.or_false]
  have hb : (List.range (T + 1)).filter (fun s => decide (s = ws)) = [ws] := by
    apply filter_eq_single
    · refine List.Pairwise.imp ?_ (List.pairwise_lt_range (T + 1))
      intro u v huv hu hv
      have h1 := of_decide_eq_true hu
      have h2 := of_decide_eq_true hv
      omega
    · rw [List.mem_range]
      omega
    · exact decide_eq_true rfl
  have hfa : (List.range (T + 1)).filter (fun s =>
        isStartB (planOf c1.gates A) s
          && decide (closeT (planOf c1.gates A) nm s < T))
      = (List.range T).filter (fun s =>
        isStartB (planOf c1.gates A) s
          && decide (closeT (planOf c1.gates A) nm s < T)) := by
    rw [List.range_succ, List.filter_append]
    rw [show List.filter (fun s => isStartB (planOf c1.gates A) s
        && decide (closeT (planOf c1.gates A) nm s < T)) [T] = [] by
      rw [List.filter_cons, if_neg (by rw [haT]; simp)]; rfl]
    rw [List.append_nil]
  unfold chainEmit
  rw [hmain, hor, hb, hfa, List.map_append]
  rfl

/-- Invariant of the pass-1 chain fold: after processing moments `[0, T)`,
the emitted requests are the closed chains of `[0, T)` with their fused
unitaries, and the pending state is the open chain (if any), identified by
the 1-cell scan. -/
theorem chain_fold_inv (c1 : Circuit α) (nm A : ℕ) (hnm : 0 < nm) :
    ∀ T, T ≤ nm →
      (List.range T).foldl (chainStep c1 nm A) ([], none)
        = (chainEmit c1 nm A T, chainPend c1 nm A T) := by
  intro T
  induction T with
  | zero =>
    intro _
    have h2 : chainPend c1 nm A 0 = none := by
      unfold chainPend
      by_cases h : (0 : ℕ) = nm
      · rw [if_pos h]
      · rw [if_neg h]
        rfl
    rw [h2]
    rfl
  | succ T ih =>
    intro hT1
    have hT : T < nm := hT1
    have hvals : ∀ y, planOf c1.gates A y = 0 ∨ planOf c1.gates A y = 1
        ∨ planOf c1.gates A y = 2 ∨ planOf c1.gates A y = -2 :=
      fun y => planOf_values c1.gates A y
    rw [List.range_succ, List.foldl_append, ih (by omega)]
    show chainPlace c1 nm A
        (chainAbsorb c1 A (chainEmit c1 nm A T, chainPend c1 nm A T) T) T
      = (chainEmit c1 nm A (T + 1), chainPend c1 nm A (T + 1))
    rcases hSc : scanJam1 (planOf c1.gates A) T with _ | t
    · -- no open chain at T
      rw [chainPend_lt_none hT hSc]
      rcases hvals T with hV | hV | hV | hV
      · -- empty cell
        rw [chainAbsorb_not1 (by rw [hV]; decide), chainPlace_none]
        have hpend : chainPend c1 nm A (T + 1) = none := by
          by_cases hEnd : T + 1 = nm
          · rw [hEnd]
            exact chainPend_nm
          · exact chainPend_lt_none (by omega)
              (by rw [scanJam1_succ_zero hV]; exact hSc)
        rw [hpend, chainEmit_stable (chain_new_false_not1 (by rw [hV]; decide))
          (chain_stable_of_closed hnm (by omega) hSc)]
      · -- 1-cell: a new chain opens
        rw [chainAbsorb_one_none hV]
        have hstartT : isStartB (planOf c1.gates A) T = true := by
          unfold isStartB
          rw [decide_eq_true hV, decide_eq_true hSc]
          rfl
        by_cases hend : T = nm - 1
        · -- last moment: the fresh chain is flushed at once
          rw [chainPlace_some_hit (Or.inr (Or.inr hend))]
          have hpend : chainPend c1 nm A (T + 1) = none := by
            rw [show T + 1 = nm from by omega]
            exact chainPend_nm
          have hge := @closeT_ge (planOf c1.gates A) nm T (by omega)
          have hle := @closeT_le (planOf c1.gates A) nm T hnm
          have hclose1 : ¬ closeT (planOf c1.gates A) nm T < T := by omega
          have hclose2 : closeT (planOf c1.gates A) nm T < T + 1 := by omega
          have hstable : ∀ s, s < T + 1 → s ≠ T →
              (isStartB (planOf c1.gates A) s
                && decide (closeT (planOf c1.gates A) nm s < T + 1))
              = (isStartB (planOf c1.gates A) s
                && decide (closeT (planOf c1.gates A) nm s < T)) :=
            fun s hs hne =>
              chain_stable_of_closed hnm (by omega) hSc s (by omega)
          have horder : ∀ s, s < T + 1 →
              isStartB (planOf c1.gates A) s = true →
              closeT (planOf c1.gates A) nm s < T → s < T := by
            intro s hs hst hcl
            rcases Nat.lt_or_ge s T with h | h
            · exact h
            · have hsT : s = T := by omega
              rw [hsT] at hcl
              omega
          rw [hpend, chainEmit_snoc hstartT (by omega) hclose1 hclose2
            hstable horder]
          rw [show chainU c1 nm A T = jamU c1 A T by
            unfold chainU
            rw [show closeT (planOf c1.gates A) nm T = T from by omega,
              cellProd_succ_one (le_refl T) hV, cellProd_self, mul_one]]
        · -- chain stays open
          rw [chainPlace_some_miss (show ¬(planOf c1.gates A T = 2
              ∨ planOf c1.gates A T = -2 ∨ T = nm - 1) by
            rw [hV]
            rintro (h | h | h)
            · exact absurd h (by decide)
            · exact absurd h (by decide)
            · exact hend h)]
          have hS1 : scanJam1 (planOf c1.gates A) (T + 1) = some T :=
            scanJam1_succ_one hV
          rw [chainPend_lt_some (by omega) hS1,
            winStart_of_start hV hSc hvals]
          have hgt : ¬ closeT (planOf c1.gates A) nm T < T + 1 := by
            have hge := @closeT_ge (planOf c1.gates A) nm T (by omega)
            intro hc
            have hceq : closeT (planOf c1.gates A) nm T = T := by omega
            have hhit := @closeT_hit (planOf c1.gates A) nm T (by omega)
            rw [hceq, hV] at hhit
            rcases hhit with h | h
            · exact absurd h (by decide)
            · exact absurd h (by decide)
          have hnew : (isStartB (planOf c1.gates A) T
              && decide (closeT (planOf c1.gates A) nm T < T + 1)) = false := by
            rw [decide_eq_false hgt, Bool.and_false]
          rw [chainEmit_stable hnew (chain_stable_of_closed hnm (by omega) hSc),
            cellProd_succ_one (le_refl T) hV, cellProd_self, mul_one]
      · -- 2-body cell, nothing pending
        rw [chainAbsorb_not1 (by rw [hV]; decide), chainPlace_none]
        have hpend : chainPend c1 nm A (T + 1) = none := by
          by_cases hEnd : T + 1 = nm
          · rw [hEnd]
            exact chainPend_nm
          · exact chainPend_lt_none (by omega)
              (scanJam1_succ_two (Or.inl hV))
        rw [hpend, chainEmit_stable (chain_new_false_not1 (by rw [hV]; decide))
          (chain_stable_of_closed hnm (by omega) hSc)]
      · rw [chainAbsorb_not1 (by rw [hV]; decide), chainPlace_none]
        have hpend : chainPend c1 nm A (T + 1) = none := by
          by_cases hEnd : T + 1 = nm
          · rw [hEnd]
            exact chainPend_nm
          · exact chainPend_lt_none (by omega)
              (scanJam1_succ_two (Or.inr hV))
        rw [hpend, chainEmit_stable (chain_new_false_not1 (by rw [hV]; decide))
          (chain_stable_of_closed hnm (by omega) hSc)]
    · -- open chain headed at winStart t
      obtain ⟨ht1, ht2, hzero⟩ := scanJam1_spec hSc
      have hw2 := (winStart_found ht1).2.1
      have hwstart : isStartB (planOf c1.gates A)
          (winStart (planOf c1.gates A) t) = true := by
        unfold isStartB
        rw [decide_eq_true (winStart_found ht1).1,
          decide_eq_true (winStart_isStart ht1 hvals)]
        rfl
      have hwopen := open_of_scan_some hvals hSc hT hnm
      rw [chainPend_lt_some hT hSc]
      rcases hvals T with hV | hV | hV | hV
      · -- empty cell
        rw [chainAbsorb_not1 (by rw [hV]; decide)]
        by_cases hend : T = nm - 1
        · -- flush at the last moment
          rw [chainPlace_some_hit (Or.inr (Or.inr hend))]
          have hpend : chainPend c1 nm A (T + 1) = none := by
            rw [show T + 1 = nm from by omega]
            exact chainPend_nm
          have hcT := closeT_open_eq hnm hT hSc (Or.inr (Or.inr hend))
          rw [hpend, chainEmit_snoc hwstart (by omega) (by omega) (by omega)
            (chain_stable_of_open hnm hT hSc)
            (fun s hs hst hcl => chain_closed_lt_open hnm hT hSc hst hs hcl)]
          rw [show chainU c1 nm A (winStart (planOf c1.gates A) t)
              = cellProd c1 A (winStart (planOf c1.gates A) t) T by
            unfold chainU
            rw [hcT, cellProd_succ_not1 (by omega) (by rw [hV]; decide)]]
        · -- chain stays open across the empty cell
          rw [chainPlace_some_miss (show ¬(planOf c1.gates A T = 2
              ∨ planOf c1.gates A T = -2 ∨ T = nm - 1) by
            rw [hV]
            rintro (h | h | h)
            · exact absurd h (by decide)
            · exact absurd h (by decide)
            · exact hend h)]
          have hS1 : scanJam1 (planOf c1.gates A) (T + 1) = some t := by
            rw [scanJam1_succ_zero hV]
            exact hSc
          rw [chainPend_lt_some (by omega) hS1,
            cellProd_succ_not1 (by omega) (by rw [hV]; decide)]
          rw [chainEmit_stable (chain_new_false_scan hSc)
            (chain_stable_full hnm hT hSc hend
              ⟨by rw [hV]; decide, by rw [hV]; decide⟩)]
      · -- 1-cell: absorbed into the open chain
        rw [chainAbsorb_one_some hV]
        by_cases hend : T = nm - 1
        · rw [chainPlace_some_hit (Or.inr (Or.inr hend))]
          have hpend : chainPend c1 nm A (T + 1) = none := by
            rw [show T + 1 = nm from by omega]
            exact chainPend_nm
          have hcT := closeT_open_eq hnm hT hSc (Or.inr (Or.inr hend))
          rw [hpend, chainEmit_snoc hwstart (by omega) (by omega) (by omega)
            (chain_stable_of_open hnm hT hSc)
            (fun s hs hst hcl => chain_closed_lt_open hnm hT hSc hst hs hcl)]
          rw [show chainU c1 nm A (winStart (planOf c1.gates A) t)
              = jamU c1 A T * cellProd c1 A (winStart (planOf c1.gates A) t) T by
            unfold chainU
            rw [hcT, cellProd_succ_one (by omega) hV]]
        · rw [chainPlace_some_miss (show ¬(planOf c1.gates A T = 2
              ∨ planOf c1.gates A T = -2 ∨ T = nm - 1) by
            rw [hV]
            rintro (h | h | h)
            · exact absurd h (by decide)
            · exact absurd h (by decide)
            · exact hend h)]
          have hS1 : scanJam1 (planOf c1.gates A) (T + 1) = some T :=
            scanJam1_succ_one hV
          have hwT : winStart (planOf c1.gates A) T
              = winStart (planOf c1.gates A) t := by
            apply winStart_eq_of_clean ht1 hV (by omega)
            intro y hy1 hy2
            rcases Nat.eq_or_lt_of_le hy2 with h | h
            · rw [h, hV]
              exact ⟨by decide, by decide⟩
            · rcases Nat.eq_or_lt_of_le hy1 with h2 | h2
              · rw [← h2, ht1]
                exact ⟨by decide, by decide⟩
              · rw [hzero y h2 h]
                exact ⟨by decide, by decide⟩
          rw [chainPend_lt_some (by omega) hS1, hwT,
            cellProd_succ_one (by omega) hV]
          rw [chainEmit_stable (chain_new_false_scan hSc)
            (chain_stable_full hnm hT hSc hend
              ⟨by rw [hV]; decide, by rw [hV]; decide⟩)]
      · -- 2-body cell closes the chain
        rw [chainAbsorb_not1 (by rw [hV]; decide),
          chainPlace_some_hit (Or.inl hV)]
        have hpend : chainPend c1 nm A (T + 1) = none := by
          by_cases hEnd : T + 1 = nm
          · rw [hEnd]
            exact chainPend_nm
          · exact chainPend_lt_none (by omega)
              (scanJam1_succ_two (Or.inl hV))
        have hcT := closeT_open_eq hnm hT hSc (Or.inl hV)
        rw [hpend, chainEmit_snoc hwstart (by omega) (by omega) (by omega)
          (chain_stable_of_open hnm hT hSc)
          (fun s hs hst hcl => chain_closed_lt_open hnm hT hSc hst hs hcl)]
        rw [show chainU c1 nm A (winStart (planOf c1.gates A) t)
            = cellProd c1 A (winStart (planOf c1.gates A) t) T by
          unfold chainU
          rw [hcT, cellProd_succ_not1 (by omega) (by rw [hV]; decide)]]
      · rw [chainAbsorb_not1 (by rw [hV]; decide),
          chainPlace_some_hit (Or.inr (Or.inl hV))]
        have hpend : chainPend c1 nm A (T + 1) = none := by
          by_cases hEnd : T + 1 = nm
          · rw [hEnd]
            exact chainPend_nm
          · exact chainPend_lt_none (by omega)
              (scanJam1_succ_two (Or.inr hV))
        have hcT := closeT_open_eq hnm hT hSc (Or.inr (Or.inl hV))
        rw [hpend, chainEmit_snoc hwstart (by omega) (by omega) (by omega)
          (chain_stable_of_open hnm hT hSc)
          (fun s hs hst hcl => chain_closed_lt_open hnm hT hSc hst hs hcl)]
        rw [show chainU c1 nm A (winStart (planOf c1.gates A) t)
            = cellProd c1 A (winStart (planOf c1.gates A) t) T by
          unfold chainU
          rw [hcT, cellProd_succ_not1 (by omega) (by rw [hV]; decide)]]

/-- Final state of the pass-1 chain fold on qubit `A`. -/
theorem chain_fold_eq (c1 : Circuit α) (nm A : ℕ) (hnm : 0 < nm) :
    (List.range nm).foldl (chainStep c1 nm A) ([], none)
      = (chainEmit c1 nm A nm, none) := by
  rw [chain_fold_inv c1 nm A hnm nm (le_refl nm), chainPend_nm]

end Quasar
